import Mathlib

/-!
Verification of the reference-matching and code-normalization pipeline of the
BigLot.ai repository.

The development shallowly embeds, over `List Char`:
  * `findBestReference` and the `PINESCRIPT_LIBRARY` metadata
    (src/frontend/sql/telegram_phase1.sql, keyword matching engine) — the
    `code`/`description`/`author`/`source`/`url` payload fields of a library
    entry are never read by `findBestReference` and are not part of the
    embedded record;
  * the code-normalization helpers `normalizePineToV6`, `stripCodeFences`,
    `validateAndFixPineScript`, `parsePineScriptConfig`
    (src/frontend/src/routes/api/engine/+server.ts), with the JavaScript
    regular-expression passes implemented as explicit character scanners
    that follow the JS semantics (lookbehinds, multiline anchors,
    greedy/lazy repetition over disjoint character classes);
  * `extractIndicatorCode` and its block classifiers (Manus client).

JavaScript numbers only occur here as small integer counts divided by small
integers, or as parsed numeric literals; they are modelled exactly by `ℚ`
(plus explicit NaN/±Infinity constructors where `parseFloat` may produce
them).
-/

set_option maxRecDepth 100000

namespace BigLot

/-- Shorthand: the character list of a string literal. -/
def cs (s : String) : List Char := s.data

/-! ### Character classes (JavaScript semantics) -/

/-- JS whitespace (`\s`, `String.prototype.trim`): ASCII whitespace plus the
Unicode space separators, NBSP, BOM and the line separators. -/
def isWsChar (c : Char) : Bool :=
  c = ' ' || c = '\t' || c = '\n' || c = '\r' ||
  c = Char.ofNat 11 || c = Char.ofNat 12 ||
  c = Char.ofNat 0x00a0 || c = Char.ofNat 0x1680 ||
  (Char.ofNat 0x2000 ≤ c && c ≤ Char.ofNat 0x200a) ||
  c = Char.ofNat 0x2028 || c = Char.ofNat 0x2029 ||
  c = Char.ofNat 0x202f || c = Char.ofNat 0x205f ||
  c = Char.ofNat 0x3000 || c = Char.ofNat 0xfeff

/-- JS word character (`\w`): `[A-Za-z0-9_]`. -/
def isWordChar (c : Char) : Bool :=
  ('a' ≤ c && c ≤ 'z') || ('A' ≤ c && c ≤ 'Z') || ('0' ≤ c && c ≤ '9') || c = '_'

/-- JS digit (`\d`): `[0-9]`. -/
def isDigitChar (c : Char) : Bool := '0' ≤ c && c ≤ '9'

/-- JS line terminator (for multiline `^`/`$` and for `.`): LF, CR, LS, PS. -/
def isLineTerm (c : Char) : Bool :=
  c = '\n' || c = '\r' || c = Char.ofNat 0x2028 || c = Char.ofNat 0x2029

/-- ASCII lower-casing, as `String.prototype.toLowerCase` acts on the
(ASCII-only) texts appearing in this code base. -/
def toLowerChar (c : Char) : Char :=
  if 'A' ≤ c && c ≤ 'Z' then Char.ofNat (c.toNat + 32) else c

/-- Lower-case every character. -/
def lowerL (s : List Char) : List Char := s.map toLowerChar

/-! ### Basic list-of-char utilities -/

/-- `pat` occurs at the start of `s`. -/
def startsWithL : List Char → List Char → Bool
  | [], _ => true
  | _ :: _, [] => false
  | p :: ps, c :: rest => p = c && startsWithL ps rest

/-- `String.prototype.includes`: `needle` occurs as a contiguous substring. -/
def containsSub (hay needle : List Char) : Bool :=
  match hay with
  | [] => needle.isEmpty
  | _ :: rest => startsWithL needle hay || containsSub rest needle

/-- JS `trimStart` over the JS whitespace class. -/
def trimStartL (s : List Char) : List Char := s.dropWhile (fun c => isWsChar c)

/-- JS `trimEnd`. -/
def trimEndL (s : List Char) : List Char :=
  (s.reverse.dropWhile (fun c => isWsChar c)).reverse

/-- JS `trim`. -/
def trimL (s : List Char) : List Char := trimEndL (trimStartL s)

/-- `String.prototype.split('\n')` (literal separator, no regex). -/
def splitNl : List Char → List (List Char)
  | [] => [[]]
  | c :: rest =>
    let r := splitNl rest
    if c = '\n' then [] :: r
    else
      match r with
      | [] => [[c]]
      | l :: ls => (c :: l) :: ls

/-- `Array.prototype.join('\n')`. -/
def joinNl : List (List Char) → List Char
  | [] => []
  | [l] => l
  | l :: ls => l ++ '\n' :: joinNl ls

/-- Worker for `jsSplitWs`: `acc` is the current (reversed) field,
`skipping` records that we are inside a whitespace run whose field has
already been emitted. -/
def jsSplitWsGo : List Char → List Char → Bool → List (List Char)
  | [], acc, skipping => if skipping then [[]] else [acc.reverse]
  | c :: rest, acc, skipping =>
    if isWsChar c then
      if skipping then jsSplitWsGo rest [] true
      else acc.reverse :: jsSplitWsGo rest [] true
    else jsSplitWsGo rest (c :: acc) false

/-- `String.prototype.split(/\s+/)`: fields between maximal whitespace runs,
keeping empty leading/trailing fields (so `''.split(/\s+/) = ['']`). -/
def jsSplitWs (s : List Char) : List (List Char) :=
  jsSplitWsGo s [] false

/-! ### Reference Matcher (`findBestReference`, telegram_phase1.sql)

The scoring-relevant metadata of a `ReferenceIndicator`. -/

structure ReferenceIndicator where
  id : List Char
  name : List Char
  keywords : List (List Char)
  categories : List (List Char)
  deriving DecidableEq, Repr

/-- One scored library entry (`{ ref, score }` in the source). -/
structure ScoredRef where
  ref : ReferenceIndicator
  score : ℚ
  deriving DecidableEq, Repr

/-- Points contributed by the keyword loop of `findBestReference`:
`+3`/`+2` when the normalized prompt contains the keyword phrase, otherwise
`+1` for each keyword word in bidirectional partial containment with some
prompt token. -/
def keywordScore (normalizedPrompt : List Char) (promptWords : List (List Char))
    (keywords : List (List Char)) : Nat :=
  keywords.foldl (fun acc kw =>
    let kwLower := lowerL kw
    if containsSub normalizedPrompt kwLower then
      acc + (if containsSub kwLower (cs " ") then 3 else 2)
    else
      (jsSplitWs kwLower).foldl (fun a w =>
        if promptWords.any (fun pw => containsSub pw w || containsSub w pw) then a + 1 else a) acc)
    0

/-- Points contributed by the category loop: `+1` per category tag contained
in the normalized prompt. -/
def categoryScore (normalizedPrompt : List Char) (categories : List (List Char)) : Nat :=
  categories.foldl (fun acc cat =>
    if containsSub normalizedPrompt (lowerL cat) then acc + 1 else acc) 0

/-- The name-matching bonus: `+5` when the normalized prompt contains the
template's lower-cased display name. -/
def nameBonus (normalizedPrompt : List Char) (name : List Char) : Nat :=
  if containsSub normalizedPrompt (lowerL name) then 5 else 0

/-- The raw (pre-normalization) score accumulated by the three phases of the
scoring loop. -/
def rawScore (normalizedPrompt : List Char) (promptWords : List (List Char))
    (ref : ReferenceIndicator) : Nat :=
  keywordScore normalizedPrompt promptWords ref.keywords +
  categoryScore normalizedPrompt ref.categories +
  nameBonus normalizedPrompt ref.name

/-- `maxPossible = ref.keywords.length + ref.categories.length`. -/
def maxPossible (ref : ReferenceIndicator) : Nat :=
  ref.keywords.length + ref.categories.length

/-- `Math.min` on the (finite) rationals arising here. -/
def mathMin (a b : ℚ) : ℚ := if a ≤ b then a else b

/-- `Math.min(score / (maxPossible * 2), 1)`, built with the kernel-computable
`mkRat`; `normalizedScore_eq_min_div` shows this is exactly the source's
`min(score / (maxPossible * 2), 1)`. -/
def normalizedScore (normalizedPrompt : List Char) (promptWords : List (List Char))
    (ref : ReferenceIndicator) : ℚ :=
  mathMin (mkRat (rawScore normalizedPrompt promptWords ref) (maxPossible ref * 2)) 1

theorem mathMin_eq_min (a b : ℚ) : mathMin a b = min a b := by
  rw [mathMin, min_def]

/-- The embedded score formula agrees with the source's
`Math.min(score / (maxPossible * 2), 1)` read over `ℚ`. -/
theorem normalizedScore_eq_min_div (np : List Char) (pw : List (List Char))
    (ref : ReferenceIndicator) :
    normalizedScore np pw ref =
      min ((rawScore np pw ref : ℚ) / ((maxPossible ref : ℚ) * 2)) 1 := by
  rw [normalizedScore, mathMin_eq_min, Rat.mkRat_eq_divInt, Rat.divInt_eq_div]
  norm_num

/-- Stable insertion (descending by score): an element moves left past
exactly the strictly smaller scores, so equal scores keep original order —
the behaviour of the (stable) `Array.prototype.sort` with comparator
`(a, b) => b.score - a.score`. -/
def insertDesc (x : ScoredRef) : List ScoredRef → List ScoredRef
  | [] => [x]
  | y :: ys => if y.score ≤ x.score then x :: y :: ys else y :: insertDesc x ys

/-- Stable sort, descending by score. -/
def sortDesc : List ScoredRef → List ScoredRef
  | [] => []
  | x :: xs => insertDesc x (sortDesc xs)

/-- Result record of `findBestReference` (`match` is a Lean keyword, hence
the field name `matched`). -/
structure MatchResult where
  matched : Option ReferenceIndicator
  score : ℚ
  allMatches : List ScoredRef
  deriving DecidableEq, Repr

/-- The fixed relevance threshold of `findBestReference` (`0.05`). -/
def threshold : ℚ := mkRat 1 20

theorem threshold_eq : threshold = 1 / 20 := by
  rw [threshold, Rat.mkRat_eq_divInt, Rat.divInt_eq_div]
  norm_num

/-- `findBestReference`, parameterized by the (static) library, translated
from the keyword matching engine of telegram_phase1.sql. -/
def findBestReferenceIn (library : List ReferenceIndicator) (prompt : List Char) :
    MatchResult :=
  let normalizedPrompt := trimL (lowerL prompt)
  let promptWords := jsSplitWs normalizedPrompt
  let scored := library.map (fun ref =>
    { ref := ref, score := normalizedScore normalizedPrompt promptWords ref })
  let sorted := sortDesc scored
  { matched :=
      match sorted.head? with
      | some best => if threshold ≤ best.score then some best.ref else none
      | none => none
    score :=
      match sorted.head? with
      | some best => best.score
      | none => 0
    allMatches := (sorted.filter (fun s => threshold ≤ s.score)).take 3 }

/-! ### The static `PINESCRIPT_LIBRARY` (scoring metadata of its 16 entries) -/

def smartMoneyConcepts : ReferenceIndicator :=
  { id := cs "smart-money-concepts"
    name := cs "Smart Money Concepts (SMC)"
    keywords := [cs "smart money", cs "smc", cs "order block", cs "ob", cs "fair value gap",
      cs "fvg", cs "break of structure", cs "bos", cs "change of character", cs "choch",
      cs "liquidity", cs "institutional", cs "supply demand", cs "market structure"]
    categories := [cs "structure", cs "institutional", cs "advanced"] }

def supertrendAdvanced : ReferenceIndicator :=
  { id := cs "supertrend-advanced"
    name := cs "SuperTrend with Signals"
    keywords := [cs "supertrend", cs "trend", cs "trend following", cs "atr",
      cs "trailing stop", cs "trend direction", cs "trend filter"]
    categories := [cs "trend", cs "atr", cs "overlay"] }

def rsiDivergence : ReferenceIndicator :=
  { id := cs "rsi-divergence"
    name := cs "RSI with Divergence Detection"
    keywords := [cs "rsi", cs "relative strength", cs "divergence", cs "bullish divergence",
      cs "bearish divergence", cs "overbought", cs "oversold", cs "momentum",
      cs "hidden divergence"]
    categories := [cs "oscillator", cs "momentum", cs "divergence"] }

def macdHistogram : ReferenceIndicator :=
  { id := cs "macd-histogram"
    name := cs "MACD Advanced"
    keywords := [cs "macd", cs "moving average convergence", cs "histogram", cs "signal line",
      cs "momentum", cs "trend momentum", cs "macd crossover", cs "macd divergence"]
    categories := [cs "oscillator", cs "momentum", cs "trend"] }

def bollingerBandsAdvanced : ReferenceIndicator :=
  { id := cs "bollinger-bands-advanced"
    name := cs "Bollinger Bands with Squeeze"
    keywords := [cs "bollinger", cs "bands", cs "bb", cs "squeeze", cs "bandwidth",
      cs "percent b", cs "%b", cs "volatility", cs "mean reversion", cs "standard deviation",
      cs "keltner"]
    categories := [cs "volatility", cs "bands", cs "overlay"] }

def emaRibbon : ReferenceIndicator :=
  { id := cs "ema-ribbon"
    name := cs "EMA Ribbon / Moving Average Crossover"
    keywords := [cs "ema", cs "sma", cs "moving average", cs "crossover", cs "cross",
      cs "golden cross", cs "death cross", cs "ribbon", cs "trend", cs "ma cross",
      cs "9 21", cs "20 50", cs "50 200"]
    categories := [cs "trend", cs "moving-average", cs "overlay"] }

def stochasticRsi : ReferenceIndicator :=
  { id := cs "stochastic-rsi"
    name := cs "Stochastic RSI"
    keywords := [cs "stochastic", cs "stoch", cs "stoch rsi", cs "stochastic rsi",
      cs "%k", cs "%d", cs "overbought", cs "oversold", cs "momentum"]
    categories := [cs "oscillator", cs "momentum"] }

def volumeProfile : ReferenceIndicator :=
  { id := cs "volume-profile"
    name := cs "Volume Analysis"
    keywords := [cs "volume", cs "obv", cs "on balance volume", cs "volume weighted",
      cs "vwap", cs "volume profile", cs "volume oscillator", cs "accumulation",
      cs "distribution", cs "mfi", cs "money flow", cs "cvd", cs "cumulative volume delta"]
    categories := [cs "volume", cs "flow"] }

def ichimokuCloud : ReferenceIndicator :=
  { id := cs "ichimoku-cloud"
    name := cs "Ichimoku Cloud"
    keywords := [cs "ichimoku", cs "kumo", cs "cloud", cs "tenkan", cs "kijun", cs "senkou",
      cs "chikou", cs "span a", cs "span b", cs "conversion", cs "base line", cs "japanese"]
    categories := [cs "trend", cs "overlay", cs "ichimoku"] }

def atrTrailingStop : ReferenceIndicator :=
  { id := cs "atr-trailing-stop"
    name := cs "ATR Trailing Stop"
    keywords := [cs "atr", cs "trailing stop", cs "stop loss", cs "chandelier", cs "exit",
      cs "risk management", cs "volatility stop", cs "trailing"]
    categories := [cs "risk", cs "volatility", cs "overlay"] }

def supportResistance : ReferenceIndicator :=
  { id := cs "support-resistance"
    name := cs "Support & Resistance Levels"
    keywords := [cs "support", cs "resistance", cs "sr", cs "level", cs "pivot",
      cs "pivot point", cs "key level", cs "zone", cs "supply", cs "demand", cs "flip",
      cs "support resistance auto"]
    categories := [cs "structure", cs "overlay", cs "levels"] }

def adxDmi : ReferenceIndicator :=
  { id := cs "adx-dmi"
    name := cs "ADX / DMI Trend Strength"
    keywords := [cs "adx", cs "dmi", cs "directional", cs "trend strength", cs "di+",
      cs "di-", cs "average directional", cs "trending", cs "ranging"]
    categories := [cs "trend", cs "oscillator"] }

def williamsR : ReferenceIndicator :=
  { id := cs "williams-r"
    name := cs "Williams %R"
    keywords := [cs "williams", cs "williams %r", cs "percent r", cs "%r", cs "overbought",
      cs "oversold", cs "larry williams"]
    categories := [cs "oscillator", cs "momentum"] }

def pivotPoints : ReferenceIndicator :=
  { id := cs "pivot-points"
    name := cs "Pivot Points"
    keywords := [cs "pivot", cs "pivot point", cs "r1", cs "r2", cs "r3", cs "s1", cs "s2",
      cs "s3", cs "classic pivot", cs "fibonacci pivot", cs "camarilla", cs "floor pivot"]
    categories := [cs "levels", cs "overlay"] }

def candlePatterns : ReferenceIndicator :=
  { id := cs "candle-patterns"
    name := cs "Candlestick Pattern Detection"
    keywords := [cs "candle", cs "candlestick", cs "pattern", cs "doji", cs "hammer",
      cs "engulfing", cs "morning star", cs "evening star", cs "shooting star", cs "harami",
      cs "pin bar", cs "three soldiers", cs "three crows"]
    categories := [cs "pattern", cs "candle", cs "overlay"] }

def multiTimeframe : ReferenceIndicator :=
  { id := cs "multi-timeframe"
    name := cs "Multi-Timeframe Dashboard"
    keywords := [cs "multi timeframe", cs "mtf", cs "dashboard", cs "table", cs "multi tf",
      cs "timeframe", cs "higher timeframe", cs "htf", cs "confluence", cs "screener"]
    categories := [cs "dashboard", cs "multi-tf", cs "table"] }

/-- `PINESCRIPT_LIBRARY`, in source order. -/
def PINESCRIPT_LIBRARY : List ReferenceIndicator :=
  [smartMoneyConcepts, supertrendAdvanced, rsiDivergence, macdHistogram,
   bollingerBandsAdvanced, emaRibbon, stochasticRsi, volumeProfile, ichimokuCloud,
   atrTrailingStop, supportResistance, adxDmi, williamsR, pivotPoints, candlePatterns,
   multiTimeframe]

/-- `findBestReference` over the static library. -/
def findBestReference (prompt : List Char) : MatchResult :=
  findBestReferenceIn PINESCRIPT_LIBRARY prompt

/-! ### Lemmas about the stable descending sort -/

theorem insertDesc_mem (x : ScoredRef) (l : List ScoredRef) (y : ScoredRef) :
    y ∈ insertDesc x l ↔ y = x ∨ y ∈ l := by
  induction l with
  | nil => simp [insertDesc]
  | cons z zs ih =>
    by_cases h : z.score ≤ x.score
    · simp [insertDesc, h]
    · simp only [insertDesc, if_neg h, List.mem_cons, ih]
      tauto

theorem insertDesc_pairwise (x : ScoredRef) (l : List ScoredRef)
    (h : l.Pairwise (fun a b => b.score ≤ a.score)) :
    (insertDesc x l).Pairwise (fun a b => b.score ≤ a.score) := by
  induction l with
  | nil => simp [insertDesc]
  | cons z zs ih =>
    rcases List.pairwise_cons.mp h with ⟨hz, hzs⟩
    by_cases hc : z.score ≤ x.score
    · rw [insertDesc, if_pos hc]
      refine List.pairwise_cons.mpr ⟨?_, h⟩
      intro y hy
      rcases List.mem_cons.mp hy with rfl | hy
      · exact hc
      · exact le_trans (hz y hy) hc
    · rw [insertDesc, if_neg hc]
      refine List.pairwise_cons.mpr ⟨?_, ih hzs⟩
      intro y hy
      rcases (insertDesc_mem x zs y).mp hy with rfl | hy
      · exact le_of_lt (lt_of_not_le hc)
      · exact hz y hy

theorem sortDesc_pairwise (l : List ScoredRef) :
    (sortDesc l).Pairwise (fun a b => b.score ≤ a.score) := by
  induction l with
  | nil => exact List.Pairwise.nil
  | cons x xs ih => exact insertDesc_pairwise x (sortDesc xs) ih

/-! ### Generic structure of the `allMatches` field -/

/-- If the `matched` computation on a sorted list reports a template, that
template heads the filtered-and-truncated `allMatches` list. -/
theorem matched_head_aux (sorted : List ScoredRef) (t : ReferenceIndicator)
    (ht : (match sorted.head? with
           | some best => if threshold ≤ best.score then some best.ref else none
           | none => none) = some t) :
    ((sorted.filter (fun s => threshold ≤ s.score)).take 3).head?.map ScoredRef.ref =
      some t := by
  cases sorted with
  | nil => simp at ht
  | cons b rest =>
    simp only [List.head?] at ht
    by_cases hb : threshold ≤ b.score
    · rw [if_pos hb] at ht
      have hbt : b.ref = t := Option.some.inj ht
      simp [List.filter_cons, hb, hbt]
    · rw [if_neg hb] at ht
      cases ht

/-- The four structural facts about `allMatches`, for any library and prompt:
at most 3 entries, every entry at or above the threshold, scores
non-increasing, and — whenever a best match is reported — the best match is
the FIRST entry of `allMatches` (the source filters the full sorted list, so
the best match is not excluded). -/
theorem allMatches_structure (library : List ReferenceIndicator) (p : List Char) :
    (findBestReferenceIn library p).allMatches.length ≤ 3 ∧
    (∀ s ∈ (findBestReferenceIn library p).allMatches, threshold ≤ s.score) ∧
    (findBestReferenceIn library p).allMatches.Pairwise (fun a b => b.score ≤ a.score) ∧
    (∀ t, (findBestReferenceIn library p).matched = some t →
      (findBestReferenceIn library p).allMatches.head?.map ScoredRef.ref = some t) := by
  unfold findBestReferenceIn
  simp only
  refine ⟨List.length_take_le 3 _, ?_, ?_, ?_⟩
  · intro s hs
    have hs' := List.mem_of_mem_take hs
    exact of_decide_eq_true (List.mem_filter.mp hs').2
  · exact List.Pairwise.sublist
      ((List.take_sublist _ _).trans (List.filter_sublist _)) (sortDesc_pairwise _)
  · intro t ht
    exact matched_head_aux _ t ht

/-! ### Claim C1 -/

/-- C1: the claim states that for the empty prompt (and any whitespace-only
prompt) `findBestReference` scores every template 0 and reports no match.
The code does the opposite: `''.split(/\s+/)` is `['']` and every keyword
word contains the empty token (`kw.includes('')` is true), so each template
earns one point per keyword word.  On the real library the empty prompt
yields score 12/17 and the Smart Money Concepts template as best match, and
every template's score is nonzero. -/
theorem C1_empty_prompt_behavior :
    (findBestReference (cs "")).matched = some smartMoneyConcepts ∧
    (findBestReference (cs "")).score = mkRat 12 17 ∧
    (∀ r ∈ PINESCRIPT_LIBRARY,
        normalizedScore (trimL (lowerL (cs ""))) (jsSplitWs (trimL (lowerL (cs "")))) r ≠ 0) ∧
    (findBestReference (cs " ")).matched = some smartMoneyConcepts := by
  decide

/-! ### Claim C2 -/

/-- C2 (counterexample): the alternates list `allMatches` DOES include the
best-matching template — for the prompt `"rsi divergence overbought
oversold"` the best match `rsi-divergence` is itself a member (in fact the
head) of `allMatches`, refuting "never includes the best-matching
template". -/
theorem C2_counterexample :
    (findBestReference (cs "rsi divergence overbought oversold")).matched =
      some rsiDivergence ∧
    rsiDivergence ∈
      (findBestReference (cs "rsi divergence overbought oversold")).allMatches.map
        ScoredRef.ref := by
  decide

/-- C2 (amended): for every prompt, `allMatches` has at most 3 entries, every
entry has normalized score ≥ 0.05, the entries are ordered non-increasing in
score, and — contrary to the claim — whenever a best match is reported it is
itself the FIRST entry of `allMatches` (the source filters the whole sorted
list without excluding the best). -/
theorem C2_allMatches_properties (p : List Char) :
    (findBestReference p).allMatches.length ≤ 3 ∧
    (∀ s ∈ (findBestReference p).allMatches, threshold ≤ s.score) ∧
    (findBestReference p).allMatches.Pairwise (fun a b => b.score ≤ a.score) ∧
    (∀ t, (findBestReference p).matched = some t →
        (findBestReference p).allMatches.head?.map ScoredRef.ref = some t) :=
  allMatches_structure PINESCRIPT_LIBRARY p

/-- C2 (witness): instantiating the amended claim at the concrete prompt
`"macd crossover"`, whose reported best match is the MACD template. -/
theorem C2_allMatches_properties_witness :
    (findBestReference (cs "macd crossover")).allMatches.length ≤ 3 ∧
    (findBestReference (cs "macd crossover")).allMatches.head?.map ScoredRef.ref =
      some macdHistogram :=
  ⟨(C2_allMatches_properties (cs "macd crossover")).1,
   (C2_allMatches_properties (cs "macd crossover")).2.2.2 macdHistogram (by decide)⟩

/-! ### Claim C8 -/

/-- C8 (counterexample): the claim asserts the RETURNED (normalized) score is
at least 5 points higher when the prompt contains the template's display
name.  Normalized scores are capped at 1, so this fails: for the prompt
`"ichimoku cloud"` (which contains the Ichimoku Cloud template's name,
case-insensitively) the score is 1/3, while the same prompt with the name
removed (the empty prompt) scores 1/2 — not even 5 lower. -/
theorem C8_counterexample :
    containsSub (trimL (lowerL (cs "ichimoku cloud"))) (lowerL ichimokuCloud.name) = true ∧
    normalizedScore (trimL (lowerL (cs "ichimoku cloud")))
      (jsSplitWs (trimL (lowerL (cs "ichimoku cloud")))) ichimokuCloud = mkRat 1 3 ∧
    normalizedScore (trimL (lowerL (cs "")))
      (jsSplitWs (trimL (lowerL (cs "")))) ichimokuCloud = mkRat 1 2 ∧
    ¬ (mkRat 1 2 + 5 ≤ mkRat 1 3) := by
  refine ⟨by decide, by decide, by decide, ?_⟩
  simp only [Rat.mkRat_eq_divInt, Rat.divInt_eq_div]
  norm_num

/-- Monotonicity of `mkRat` in the numerator (denominator fixed). -/
theorem mkRat_le_mkRat_of_le {a b : ℕ} (d : ℕ) (h : a ≤ b) :
    mkRat a d ≤ mkRat b d := by
  rw [Rat.mkRat_eq_divInt, Rat.mkRat_eq_divInt, Rat.divInt_eq_div, Rat.divInt_eq_div]
  rcases Nat.eq_zero_or_pos d with hd | hd
  · simp [hd]
  · have hd' : (0 : ℚ) < (d : ℤ) := by exact_mod_cast hd
    exact (div_le_div_iff_of_pos_right hd').mpr (by exact_mod_cast h)

/-- `mathMin · 1` is monotone. -/
theorem mathMin_one_mono {a b : ℚ} (h : a ≤ b) : mathMin a 1 ≤ mathMin b 1 := by
  rw [mathMin, mathMin]
  by_cases ha : a ≤ 1
  · rw [if_pos ha]
    by_cases hb : b ≤ 1
    · rw [if_pos hb]; exact h
    · rw [if_neg hb]; exact ha
  · rw [if_neg ha]
    have hb : ¬ b ≤ 1 := fun hb => ha (le_trans h hb)
    rw [if_neg hb]

/-- C8 (amended): the `+5` name bonus applies to the RAW score — when the
normalized prompt contains the template's lower-cased display name, the raw
score equals the keyword/category score plus exactly 5 — and the returned
normalized score is therefore at least the normalized score computed without
the bonus; the increase of the returned score itself is capped by
`min(·, 1)` and can be far less than 5. -/
theorem C8_name_bonus (ref : ReferenceIndicator) (np : List Char) (pw : List (List Char))
    (h : containsSub np (lowerL ref.name) = true) :
    rawScore np pw ref =
      keywordScore np pw ref.keywords + categoryScore np ref.categories + 5 ∧
    mathMin (mkRat (keywordScore np pw ref.keywords + categoryScore np ref.categories)
        (maxPossible ref * 2)) 1 ≤ normalizedScore np pw ref := by
  have hraw : rawScore np pw ref =
      keywordScore np pw ref.keywords + categoryScore np ref.categories + 5 := by
    rw [rawScore, nameBonus, if_pos h]
  refine ⟨hraw, ?_⟩
  rw [normalizedScore, hraw]
  exact mathMin_one_mono (mkRat_le_mkRat_of_le _ (by omega))

/-- C8 (witness): the amended claim instantiated at the Ichimoku Cloud
template and the prompt `"ichimoku cloud"`. -/
theorem C8_name_bonus_witness :
    rawScore (trimL (lowerL (cs "ichimoku cloud")))
      (jsSplitWs (trimL (lowerL (cs "ichimoku cloud")))) ichimokuCloud =
      keywordScore (trimL (lowerL (cs "ichimoku cloud")))
        (jsSplitWs (trimL (lowerL (cs "ichimoku cloud")))) ichimokuCloud.keywords +
      categoryScore (trimL (lowerL (cs "ichimoku cloud"))) ichimokuCloud.categories + 5 :=
  (C8_name_bonus ichimokuCloud (trimL (lowerL (cs "ichimoku cloud")))
    (jsSplitWs (trimL (lowerL (cs "ichimoku cloud")))) (by decide)).1

/-! ## Code Normalizer (src/frontend/src/routes/api/engine/+server.ts)

The JS regular-expression passes are embedded as deterministic character
scanners.  Wherever a scanner may skip a whole match, it is written with an
explicit fuel argument (`fuel = input length` at the top-level call) so that
every definition is structurally recursive and kernel-computable; the
behaviour for sufficient fuel is what the lemmas describe. -/

/-- Strip a literal (case-sensitively): `dropLit lit s` returns the remainder
of `s` after `lit`, when `lit` occurs at its start. -/
def dropLit : List Char → List Char → Option (List Char)
  | [], s => some s
  | _ :: _, [] => none
  | a :: as, c :: rest => if a = c then dropLit as rest else none

/-- Strip a literal case-insensitively (for the `i`-flagged URL regex). -/
def dropLitCI : List Char → List Char → Option (List Char)
  | [], s => some s
  | _ :: _, [] => none
  | a :: as, c :: rest =>
    if toLowerChar a = toLowerChar c then dropLitCI as rest else none

/-- Split off everything up to (and excluding) the LAST line terminator of a
whitespace run: `splitAtLastLT w = some (a, b)` with `w = a ++ b` and `b`
beginning with the last line terminator of `w`; `none` when `w` has none.
This implements the backtracking of a greedy `\s*` followed by a multiline
`$`. -/
def splitAtLastLT : List Char → Option (List Char × List Char)
  | [] => none
  | c :: rest =>
    match splitAtLastLT rest with
    | some (a, b) => some (c :: a, b)
    | none => if isLineTerm c then some ([], c :: rest) else none

/-- The suffix after the last `'\n'` of a whitespace run (backtracking of a
greedy `\s*` followed by `\r?\n`); `none` when there is no `'\n'`. -/
def afterLastNl : List Char → Option (List Char)
  | [] => none
  | c :: rest =>
    match afterLastNl rest with
    | some t => some t
    | none => if c = '\n' then some rest else none

/-! ### `stripCodeFences` -/

/-- The single (string-start anchored) replacement
`.replace(/^```[a-zA-Z]*\s*\r?\n/, '')`. -/
def stripOpenFence (s : List Char) : List Char :=
  match dropLit (cs "```") s with
  | none => s
  | some r1 =>
    let p1 := r1.span (fun c => ('a' ≤ c && c ≤ 'z') || ('A' ≤ c && c ≤ 'Z'))
    let p2 := p1.2.span (fun c => isWsChar c)
    match afterLastNl p2.1 with
    | some t => t ++ p2.2
    | none => s

/-- Does `/\r?\n```[\t ]*$/` match at this position (reaching end of string)? -/
def closeFenceAt (s : List Char) : Bool :=
  match s with
  | '\r' :: '\n' :: r => closeTicks r
  | '\n' :: r => closeTicks r
  | _ => false
where
  /-- After the newline: three backticks then only tabs/spaces to the end. -/
  closeTicks (r : List Char) : Bool :=
    match dropLit (cs "```") r with
    | some r2 => r2.all (fun c => c = '\t' || c = ' ')
    | none => false

/-- The (single, leftmost) replacement `.replace(/\r?\n```[\t ]*$/, '')`:
the match necessarily extends to the end of the string, so removing it
truncates there. -/
def stripCloseFence : List Char → List Char
  | [] => []
  | c :: rest => if closeFenceAt (c :: rest) then [] else c :: stripCloseFence rest

/-- `stripCodeFences` of the source (open fence, close fence, `trim`). -/
def stripCodeFences (raw : List Char) : List Char :=
  trimL (stripCloseFence (stripOpenFence raw))

/-- Global `.replace(/\r\n/g, '\n')`. -/
def replaceCrLf : List Char → List Char
  | '\r' :: '\n' :: rest => '\n' :: replaceCrLf rest
  | c :: rest => c :: replaceCrLf rest
  | [] => []

/-! ### The `gm`-anchored line removals of `normalizePineToV6` -/

/-- Matcher for `^\s*\/\/\s*@version\s*=?\s*\d+\s*$` (multiline) at a
line-start position: returns `(consumed, remainder)` on success.  The greedy
`\s*` runs may span line terminators; the final `\s*$` consumes up to the
last line terminator of the trailing whitespace run (or everything, at end
of string). -/
def matchVersionAt (s : List Char) : Option (List Char × List Char) :=
  let q1 := s.span (fun c => isWsChar c)
  match dropLit (cs "//") q1.2 with
  | none => none
  | some r2 =>
    let q2 := r2.span (fun c => isWsChar c)
    match dropLit (cs "@version") q2.2 with
    | none => none
    | some r4 =>
      let q3 := r4.span (fun c => isWsChar c)
      let eqPart : List Char × List Char :=
        match q3.2 with
        | '=' :: r => (['='], r)
        | _ => ([], q3.2)
      let q4 := eqPart.2.span (fun c => isWsChar c)
      let qd := q4.2.span (fun c => isDigitChar c)
      if qd.1.isEmpty then none
      else
        let q5 := qd.2.span (fun c => isWsChar c)
        let core := q1.1 ++ cs "//" ++ q2.1 ++ cs "@version" ++ q3.1 ++ eqPart.1 ++
          q4.1 ++ qd.1
        if q5.2.isEmpty then some (core ++ q5.1, [])
        else
          match splitAtLastLT q5.1 with
          | some ab => some (core ++ ab.1, ab.2 ++ q5.2)
          | none => none

/-- Matcher for `^\s*\/\/\s*<tag>.*$` (multiline) at a line-start position,
used for the `@author`, `©` and `Source:` strip passes. -/
def matchTagLineAt (tag : List Char) (s : List Char) : Option (List Char × List Char) :=
  let q1 := s.span (fun c => isWsChar c)
  match dropLit (cs "//") q1.2 with
  | none => none
  | some r2 =>
    let q2 := r2.span (fun c => isWsChar c)
    match dropLit tag q2.2 with
    | none => none
    | some r4 =>
      let run := r4.span (fun c => !isLineTerm c)
      some (q1.1 ++ cs "//" ++ q2.1 ++ tag ++ run.1, run.2)

/-- Generic `gm` global-replace-with-empty scanner: at every line-start
position try the matcher; on success drop the matched span and continue
after it (tracking whether the following position is a line start via the
last consumed character), otherwise copy one character. -/
def gmGo (m : List Char → Option (List Char × List Char)) :
    ℕ → Bool → List Char → List Char
  | 0, _, s => s
  | _ + 1, _, [] => []
  | fuel + 1, atStart, c :: rest =>
    match (if atStart then m (c :: rest) else none) with
    | some cr =>
      gmGo m fuel
        (match cr.1.getLast? with
         | some lc => isLineTerm lc
         | none => atStart) cr.2
    | none => c :: gmGo m fuel (isLineTerm c) rest

/-- `.replace(/^\s*\/\/\s*@version\s*=?\s*\d+\s*$/gm, '')`. -/
def removeVersionDirectives (s : List Char) : List Char :=
  gmGo matchVersionAt s.length true s

/-- `.replace(/^\s*\/\/\s*@author.*$/gm, '')`. -/
def removeAuthorLines (s : List Char) : List Char :=
  gmGo (matchTagLineAt (cs "@author")) s.length true s

/-- `.replace(/^\s*\/\/\s*©.*$/gm, '')`. -/
def removeCopyrightLines (s : List Char) : List Char :=
  gmGo (matchTagLineAt (cs "©")) s.length true s

/-- `.replace(/^\s*\/\/\s*Source:.*$/gm, '')`. -/
def removeSourceLines (s : List Char) : List Char :=
  gmGo (matchTagLineAt (cs "Source:")) s.length true s

/-! ### The URL strip pass -/

/-- One of the two hosted-script domains (case-insensitively). -/
def matchDomain (s : List Char) : Option (List Char) :=
  match dropLitCI (cs "tradingview.com") s with
  | some r => some r
  | none => dropLitCI (cs "pinescriptpc.com") s

/-- Matcher for `https?:\/\/(?:www\.)?(?:tradingview\.com|pinescriptpc\.com)[^\s]*`
(case-insensitive) at a position: returns the remainder after the match. -/
def matchUrlAt (s : List Char) : Option (List Char) :=
  match dropLitCI (cs "http") s with
  | none => none
  | some r1 =>
    let afterScheme : Option (List Char) :=
      match dropLitCI (cs "s://") r1 with
      | some r2 => some r2
      | none => dropLitCI (cs "://") r1
    match afterScheme with
    | none => none
    | some r2 =>
      let afterHost : Option (List Char) :=
        match (dropLitCI (cs "www.") r2).bind matchDomain with
        | some r3 => some r3
        | none => matchDomain r2
      match afterHost with
      | none => none
      | some r3 => some ((r3.span (fun c => !isWsChar c)).2)

/-- Global unanchored URL removal scanner. -/
def urlGo : ℕ → List Char → List Char
  | 0, s => s
  | _ + 1, [] => []
  | fuel + 1, c :: rest =>
    match matchUrlAt (c :: rest) with
    | some rem => urlGo fuel rem
    | none => c :: urlGo fuel rest

/-- `.replace(/https?:\/\/(?:www\.)?(?:tradingview\.com|pinescriptpc\.com)[^\s]*\/gi, '')`. -/
def removeUrls (s : List Char) : List Char := urlGo s.length s

/-! ### `normalizePineToV6` -/

/-- `normalizePineToV6` of the source: strip fences and CRLF, trim; empty
input is returned unchanged; otherwise remove all version directives,
`trimStart`, strip `@author`/`©`/URL/`Source:` credits, `trim`, and prepend
the canonical `//@version=6` line. -/
def normalizePineToV6 (rawCode : List Char) : List Char :=
  let clean := trimL (replaceCrLf (stripCodeFences rawCode))
  if clean.isEmpty then clean
  else
    let body0 := trimStartL (removeVersionDirectives clean)
    let body := trimL (removeSourceLines (removeUrls
      (removeCopyrightLines (removeAuthorLines body0))))
    cs "//@version=6\n" ++ body

/-! ### `validateAndFixPineScript` -/

/-- `legacy.replace('(', '')`: remove the first `'('`. -/
def removeFirstParen : List Char → List Char
  | [] => []
  | c :: r => if c = '(' then r else c :: removeFirstParen r

/-- The combined lookbehind guard `(?<!\.)` together with the word boundary
`\b` before a word character: the previous character must not be a word
character (boundary) nor a dot. `(?<!\.)(?<!\w)` of the color pass is the
same condition. -/
def allowedAt : Option Char → Bool
  | none => true
  | some p => !isWordChar p && !(p = '.')

/-- Matcher for `<fnName>\s*\(` at a position: returns the remainder after
the `'('`. -/
def matchCallAt (fn : List Char) (s : List Char) : Option (List Char) :=
  match dropLit fn s with
  | none => none
  | some r1 =>
    match (r1.span (fun c => isWsChar c)).2 with
    | c :: r3 => if c = '(' then some r3 else none
    | [] => none

/-- Scanner for one `fixed.replace(new RegExp(`(?<!\\.)\\b${fnName}\\s*\\(`, 'g'), modern)`
pass, tracking the previous original character for the lookbehind/boundary. -/
def legacyGo (fn modern : List Char) : ℕ → Option Char → List Char → List Char
  | 0, _, s => s
  | _ + 1, _, [] => []
  | fuel + 1, prev, c :: rest =>
    match (if allowedAt prev then matchCallAt fn (c :: rest) else none) with
    | some rem => modern ++ legacyGo fn modern fuel (some '(') rem
    | none => c :: legacyGo fn modern fuel (some c) rest

/-- One legacy-call replacement pass. -/
def legacyReplace (fn modern s : List Char) : List Char :=
  legacyGo fn modern s.length none s

/-- The `legacyFnMap` dictionary, in source (insertion) order. -/
def legacyFnMap : List (List Char × List Char) :=
  [(cs "sma(", cs "ta.sma("), (cs "ema(", cs "ta.ema("), (cs "rsi(", cs "ta.rsi("),
   (cs "atr(", cs "ta.atr("), (cs "stoch(", cs "ta.stoch("), (cs "macd(", cs "ta.macd("),
   (cs "bb(", cs "ta.bb("), (cs "wma(", cs "ta.wma("), (cs "vwma(", cs "ta.vwma("),
   (cs "swma(", cs "ta.swma("), (cs "alma(", cs "ta.alma("), (cs "hma(", cs "ta.hma("),
   (cs "rma(", cs "ta.rma("), (cs "mfi(", cs "ta.mfi("), (cs "cci(", cs "ta.cci("),
   (cs "cmo(", cs "ta.cmo("), (cs "cog(", cs "ta.cog("), (cs "dmi(", cs "ta.dmi("),
   (cs "supertrend(", cs "ta.supertrend("), (cs "pivothigh(", cs "ta.pivothigh("),
   (cs "pivotlow(", cs "ta.pivotlow("), (cs "highest(", cs "ta.highest("),
   (cs "lowest(", cs "ta.lowest("), (cs "highestbars(", cs "ta.highestbars("),
   (cs "lowestbars(", cs "ta.lowestbars("), (cs "barssince(", cs "ta.barssince("),
   (cs "crossover(", cs "ta.crossover("), (cs "crossunder(", cs "ta.crossunder("),
   (cs "cross(", cs "ta.cross("), (cs "valuewhen(", cs "ta.valuewhen("),
   (cs "change(", cs "ta.change("), (cs "mom(", cs "ta.mom("),
   (cs "percentrank(", cs "ta.percentrank("), (cs "variance(", cs "ta.variance("),
   (cs "stdev(", cs "ta.stdev("), (cs "correlation(", cs "ta.correlation("),
   (cs "cum(", cs "ta.cum("), (cs "falling(", cs "ta.falling("),
   (cs "rising(", cs "ta.rising("), (cs "tr(", cs "ta.tr("), (cs "vwap(", cs "ta.vwap("),
   (cs "sar(", cs "ta.sar("),
   (cs "abs(", cs "math.abs("), (cs "ceil(", cs "math.ceil("),
   (cs "floor(", cs "math.floor("), (cs "log(", cs "math.log("),
   (cs "log10(", cs "math.log10("), (cs "max(", cs "math.max("),
   (cs "min(", cs "math.min("), (cs "pow(", cs "math.pow("),
   (cs "round(", cs "math.round("), (cs "sign(", cs "math.sign("),
   (cs "sqrt(", cs "math.sqrt("), (cs "avg(", cs "math.avg("),
   (cs "sum(", cs "math.sum("),
   (cs "tostring(", cs "str.tostring(")]

/-- Step 1 of `validateAndFixPineScript`: all legacy-call passes, in order. -/
def applyLegacyFixes (s : List Char) : List Char :=
  legacyFnMap.foldl (fun acc e => legacyReplace (removeFirstParen e.1) e.2 acc) s

/-- The per-line test `/^\s*\/\/@version\s*=?\s*\d+/.test(l)` of step 2
(note: no whitespace allowed between `//` and `@version`, and no `$`). -/
def strictVersionTest (l : List Char) : Bool :=
  match dropLit (cs "//@version") (l.span (fun c => isWsChar c)).2 with
  | none => false
  | some r2 =>
    let r3 := (r2.span (fun c => isWsChar c)).2
    let r4 := if r3.head? = some '=' then r3.tail else r3
    match (r4.span (fun c => isWsChar c)).2 with
    | c :: _ => isDigitChar c
    | [] => false

/-- Matcher for `(?<!\.)(?<!\w)color\s*\(\s*(\d)`: returns the captured digit
and the remainder after it. -/
def matchColorAt (s : List Char) : Option (Char × List Char) :=
  match dropLit (cs "color") s with
  | none => none
  | some r1 =>
    match (r1.span (fun c => isWsChar c)).2 with
    | c :: r3 =>
      if c = '(' then
        match (r3.span (fun c => isWsChar c)).2 with
        | d :: r5 => if isDigitChar d then some (d, r5) else none
        | [] => none
      else none
    | [] => none

/-- Scanner for step 3, `fixed.replace(/(?<!\.)(?<!\w)color\s*\(\s*(\d)/g, 'color.rgb($1')`. -/
def colorGo : ℕ → Option Char → List Char → List Char
  | 0, _, s => s
  | _ + 1, _, [] => []
  | fuel + 1, prev, c :: rest =>
    match (if allowedAt prev then matchColorAt (c :: rest) else none) with
    | some dr => cs "color.rgb(" ++ dr.1 :: colorGo fuel (some dr.1) dr.2
    | none => c :: colorGo fuel (some c) rest

/-- The color-constructor fix pass. -/
def colorFixAll (s : List Char) : List Char := colorGo s.length none s

/-- Step 2 of `validateAndFixPineScript` in isolation: the defensive
version-line dedup — if more than one line passes the strict `//@version`
test, the code is rebuilt as a canonical `//@version=6` line followed by
all non-version lines. -/
def dedupVersionLines (fixed : List Char) : List Char :=
  let lines := splitNl fixed
  if 1 < (lines.filter (fun l => strictVersionTest l)).length then
    cs "//@version=6\n" ++ joinNl (lines.filter (fun l => !strictVersionTest l))
  else fixed

/-- `validateAndFixPineScript` of the source: legacy-call passes, then the
defensive version-line dedup (on the strict `//@version` test), then the
bare-`color(`-constructor fix. -/
def validateAndFixPineScript (code : List Char) : List Char :=
  let fixed := applyLegacyFixes code
  let lines := splitNl fixed
  let fixed :=
    if 1 < (lines.filter (fun l => strictVersionTest l)).length then
      cs "//@version=6\n" ++ joinNl (lines.filter (fun l => !strictVersionTest l))
    else fixed
  colorFixAll fixed

/-- The POST handler's cleanup pipeline:
`normalizePineToV6` followed by `validateAndFixPineScript`. -/
def cleanupPipeline (raw : List Char) : List Char :=
  validateAndFixPineScript (normalizePineToV6 raw)

/-- A full-line version-declaration comment line in either spacing
convention (`//@version=N` or `// @version=N`): the multiline
version-directive pattern matches the entire line. -/
def isVersionDeclLine (l : List Char) : Bool :=
  matchVersionAt l = some (l, [])

/-! ### Claim C10 -/

/-- C10: an input that is empty after code-fence stripping (in particular the
empty input and every whitespace-only input, since `stripCodeFences` ends in
a `trim`) is returned by `normalizePineToV6` as the empty string — no
`//@version=6` directive is prepended. -/
theorem C10_empty_input (s : List Char) (h : stripCodeFences s = []) :
    normalizePineToV6 s = [] := by
  rw [normalizePineToV6, h]
  rfl

/-- C10 (witness): the whitespace-only input `"   "` cleans to the empty
string and `normalizePineToV6` returns the empty string on it. -/
theorem C10_empty_input_witness :
    stripCodeFences (cs "   ") = [] ∧ normalizePineToV6 (cs "   ") = [] :=
  ⟨by decide, C10_empty_input (cs "   ") (by decide)⟩

/-! ### Claim C3 (counterexample) -/

/-- C3 (counterexample): the claim quantifies over inputs with zero, one, or
three version-declaration lines; the empty input has zero, yet the cleanup
pipeline returns the empty string, which does not contain exactly one
version-declaration line at the top. -/
theorem C3_counterexample :
    ((splitNl (cs "")).countP (fun l => isVersionDeclLine l) = 0) ∧
    cleanupPipeline (cs "") = [] ∧
    ((splitNl (cleanupPipeline (cs ""))).countP (fun l => isVersionDeclLine l) = 0) := by
  decide

/-! ### Claim C4 -/

/-- C4 (counterexample): the pipeline is NOT idempotent on its own output.
For the input `"// @version=5https://tradingview.com/x\nplot(close)"` the
URL-strip pass (which runs AFTER version-directive removal) leaves the line
`// @version=5`; the defensive re-check of `validateAndFixPineScript` does
not count it (its regex permits no space between `//` and `@version`), so
the first pipeline output contains it — and a second pipeline run removes
it, changing the string. -/
theorem C4_counterexample :
    cleanupPipeline (cs "// @version=5https://tradingview.com/x\nplot(close)") =
      cs "//@version=6\n// @version=5\nplot(close)" ∧
    cleanupPipeline (cleanupPipeline
        (cs "// @version=5https://tradingview.com/x\nplot(close)")) =
      cs "//@version=6\nplot(close)" ∧
    cleanupPipeline (cleanupPipeline
        (cs "// @version=5https://tradingview.com/x\nplot(close)")) ≠
      cleanupPipeline (cs "// @version=5https://tradingview.com/x\nplot(close)") := by
  have h1 : cleanupPipeline (cs "// @version=5https://tradingview.com/x\nplot(close)") =
      cs "//@version=6\n// @version=5\nplot(close)" := by decide
  have h2 : cleanupPipeline (cleanupPipeline
      (cs "// @version=5https://tradingview.com/x\nplot(close)")) =
      cs "//@version=6\nplot(close)" := by decide
  refine ⟨h1, h2, ?_⟩
  rw [h2, h1]
  decide

/-- C4 (amended): the pipeline maps a pipeline output `y` to itself whenever
each individual cleanup pass is a no-op on `y` — fence/CRLF/trim cleaning,
version-directive stripping returning exactly the body after the leading
`//@version=6` line, author/copyright/URL/source stripping, body trimming,
all legacy-call passes, the version dedup (at most one strict version line),
and the color-constructor fix.  (The counterexample shows a pipeline output
on which version stripping is NOT a no-op — the spaced directive survives a
URL merge — so idempotence does not hold unconditionally.) -/
theorem C4_idempotent_of_passes_noop
    (x y b : List Char)
    (_hy : y = cleanupPipeline x)
    (hclean : trimL (replaceCrLf (stripCodeFences y)) = y)
    (hshape : y = cs "//@version=6\n" ++ b)
    (hver : trimStartL (removeVersionDirectives y) = b)
    (hauthor : removeAuthorLines b = b)
    (hcopy : removeCopyrightLines b = b)
    (hurl : removeUrls b = b)
    (hsource : removeSourceLines b = b)
    (htrim : trimL b = b)
    (hlegacy : applyLegacyFixes y = y)
    (hstrict : ((splitNl y).filter (fun l => strictVersionTest l)).length ≤ 1)
    (hcolor : colorFixAll y = y) :
    cleanupPipeline y = y := by
  have hne : y.isEmpty = false := by rw [hshape]; rfl
  have hnorm : normalizePineToV6 y = y := by
    rw [normalizePineToV6, hclean]
    simp only [hne, Bool.false_eq_true, if_false]
    rw [hver, hauthor, hcopy, hurl, hsource, htrim, ← hshape]
  have hval : validateAndFixPineScript y = y := by
    rw [validateAndFixPineScript, hlegacy]
    rw [if_neg (by omega), hcolor]
  rw [cleanupPipeline, hnorm, hval]

/-- C4 (witness): the amended idempotence applied to the concrete clean
pipeline output `"//@version=6\nplot(close)"`. -/
theorem C4_idempotent_of_passes_noop_witness :
    cleanupPipeline (cs "//@version=6\nplot(close)") =
      cs "//@version=6\nplot(close)" :=
  C4_idempotent_of_passes_noop
    (cs "//@version=6\nplot(close)") (cs "//@version=6\nplot(close)")
    (cs "plot(close)")
    (by decide) (by decide) (by decide) (by decide) (by decide) (by decide)
    (by decide) (by decide) (by decide) (by decide) (by decide) (by decide)

/-! ## `extractIndicatorCode` (Manus client)

Data model of a completed task as far as the extractor reads it. -/

/-- One content item of an assistant message: a text output (the `text`
field; the empty string models a missing/empty — falsy — text), a file
output, or anything else. -/
inductive ManusContent where
  | outputText (text : List Char)
  | outputFile (fileName : Option (List Char)) (fileUrl : Option (List Char))
  | other
  deriving DecidableEq, Repr

/-- One message of `task.output`. -/
structure ManusMsg where
  role : List Char
  content : List ManusContent
  deriving DecidableEq, Repr

/-- The task as read by `extractIndicatorCode` (`output` is `none` for a
missing/falsy `task.output`). -/
structure ManusTask where
  output : Option (List ManusMsg)
  deriving DecidableEq, Repr

/-! ### Fenced-block extraction: `/```(\w+)?\s*\r?\n([\s\S]*?)```/g` -/

/-- Split a string at the first occurrence of three backticks: returns the
part before and the part after them. -/
def splitAtTicks : List Char → Option (List Char × List Char)
  | [] => none
  | c :: rest =>
    if startsWithL (cs "```") (c :: rest) then some ([], rest.drop 2)
    else
      match splitAtTicks rest with
      | some ab => some (c :: ab.1, ab.2)
      | none => none

/-- Matcher for one fenced block at a position: three backticks, an optional
word-character language tag, greedy whitespace ending at its last `'\n'`,
then the lazy body up to the first closing three backticks.  Returns
`(languageTag, body, remainder)`. -/
def matchFenceAt (s : List Char) : Option (List Char × List Char × List Char) :=
  match dropLit (cs "```") s with
  | none => none
  | some r1 =>
    let ql := r1.span (fun c => isWordChar c)
    let qw := ql.2.span (fun c => isWsChar c)
    match afterLastNl qw.1 with
    | none => none
    | some t =>
      match splitAtTicks (t ++ qw.2) with
      | none => none
      | some br => some (ql.1, br.1, br.2)

/-- `matchAll` scanner for fenced blocks. -/
def fenceGo : ℕ → List Char → List (List Char × List Char)
  | 0, _ => []
  | _ + 1, [] => []
  | fuel + 1, c :: rest =>
    match matchFenceAt (c :: rest) with
    | some lbr => (lbr.1, lbr.2.1) :: fenceGo fuel lbr.2.2
    | none => fenceGo fuel rest

/-- All fenced blocks (language tag, raw body) of a text, in order. -/
def findFences (s : List Char) : List (List Char × List Char) :=
  fenceGo s.length s

/-! ### Block classifiers -/

/-- `isJavaScriptBlock`. -/
def isJavaScriptBlock (lang : List Char) : Bool :=
  lang = cs "javascript" || lang = cs "js" || lang = cs "typescript" || lang = cs "ts"

/-- Search for `@version\s*=\s*[56]` anywhere. -/
def hasVersionPat : List Char → Bool
  | [] => false
  | c :: rest =>
    (match dropLit (cs "@version") (c :: rest) with
     | some r1 =>
       match ((r1.span (fun x => isWsChar x)).2 : List Char) with
       | '=' :: r2 =>
         match ((r2.span (fun x => isWsChar x)).2 : List Char) with
         | d :: _ => d = '5' || d = '6'
         | [] => false
       | _ => false
     | none => false) ||
    hasVersionPat rest

/-- Search for `\b<name>\s*\(` anywhere (word boundary before `name`). -/
def hasBoundCall (name : List Char) : List Char → Bool :=
  go none where
  go : Option Char → List Char → Bool
    | _, [] => false
    | prev, c :: rest =>
      ((match prev with
        | none => true
        | some p => !isWordChar p) && (matchCallAt name (c :: rest)).isSome) ||
      go (some c) rest

/-- Search for `\bta\.` anywhere. -/
def hasTaDot : List Char → Bool :=
  go none where
  go : Option Char → List Char → Bool
    | _, [] => false
    | prev, c :: rest =>
      ((match prev with
        | none => true
        | some p => !isWordChar p) && (dropLit (cs "ta.") (c :: rest)).isSome) ||
      go (some c) rest

/-- `isLikelyPineCode`. -/
def isLikelyPineCode (code : List Char) : Bool :=
  hasVersionPat code || hasBoundCall (cs "indicator") code ||
  hasBoundCall (cs "strategy") code || hasTaDot code

/-- Search for `<lit>\s+<name>\s*<endChar>` (e.g. `function\s+calculate\s*\(`);
the middle whitespace run must be non-empty. -/
def hasKeywordPat (lit name : List Char) (endChar : Char) : List Char → Bool
  | [] => false
  | c :: rest =>
    (match dropLit lit (c :: rest) with
     | some r1 =>
       let qw := r1.span (fun x => isWsChar x)
       if qw.1.isEmpty then false
       else
         match dropLit name qw.2 with
         | some r2 =>
           match ((r2.span (fun x => isWsChar x)).2 : List Char) with
           | e :: _ => e = endChar
           | [] => false
         | none => false
     | none => false) ||
    hasKeywordPat lit name endChar rest

/-- Search for `module\.exports\s*=` anywhere. -/
def hasModuleExports : List Char → Bool
  | [] => false
  | c :: rest =>
    (match dropLit (cs "module.exports") (c :: rest) with
     | some r1 =>
       match ((r1.span (fun x => isWsChar x)).2 : List Char) with
       | e :: _ => e = '='
       | [] => false
     | none => false) ||
    hasModuleExports rest

/-- `isLikelyPreviewCode`. -/
def isLikelyPreviewCode (code : List Char) : Bool :=
  hasKeywordPat (cs "function") (cs "calculate") '(' code ||
  hasKeywordPat (cs "const") (cs "calculate") '=' code ||
  hasModuleExports code

/-! ### The extractor -/

/-- The result record of `extractIndicatorCode`. -/
structure ExtractResult where
  code : Option (List Char)
  previewCode : Option (List Char)
  pineFileUrl : Option (List Char)
  previewFileUrl : Option (List Char)
  textOutput : List Char
  deriving DecidableEq, Repr

/-- The all-null initial state. -/
def initExtract : ExtractResult :=
  { code := none, previewCode := none, pineFileUrl := none, previewFileUrl := none,
    textOutput := [] }

/-- `endsWith` over char lists. -/
def endsWithL (s suffixPart : List Char) : Bool :=
  startsWithL suffixPart.reverse s.reverse

/-- The per-block body of the extraction loop: two INDEPENDENT `if`
statements — a block may fill BOTH still-empty slots. -/
def processBlock (st : ExtractResult) (lb : List Char × List Char) : ExtractResult :=
  let lang := lowerL lb.1
  let blockText := trimL lb.2
  if blockText.isEmpty then st
  else
    let st1 :=
      if st.code.isNone && (containsSub lang (cs "pine") || isLikelyPineCode blockText)
      then { st with code := some blockText } else st
    if st1.previewCode.isNone && (isJavaScriptBlock lang || isLikelyPreviewCode blockText)
    then { st1 with previewCode := some blockText } else st1

/-- Process one content item of an assistant message. -/
def processContent (st : ExtractResult) (content : ManusContent) : ExtractResult :=
  match content with
  | ManusContent.outputText text =>
    if text.isEmpty then st
    else
      let st := { st with textOutput := st.textOutput ++ text ++ ['\n'] }
      (findFences text).foldl processBlock st
  | ManusContent.outputFile fileName fileUrl =>
    let fn := lowerL (fileName.getD [])
    match fileUrl with
    | none => st
    | some u =>
      if u.isEmpty then st
      else
        let st1 :=
          if st.pineFileUrl.isNone && endsWithL fn (cs ".pine")
          then { st with pineFileUrl := some u } else st
        if st1.previewFileUrl.isNone && (endsWithL fn (cs ".js") || endsWithL fn (cs ".ts"))
        then { st1 with previewFileUrl := some u } else st1
  | ManusContent.other => st

/-- Process one message (non-assistant messages are skipped). -/
def processMsg (st : ExtractResult) (msg : ManusMsg) : ExtractResult :=
  if msg.role = cs "assistant" then msg.content.foldl processContent st else st

/-- `extractIndicatorCode`. -/
def extractIndicatorCode (task : ManusTask) : ExtractResult :=
  match task.output with
  | none => initExtract
  | some msgs => msgs.foldl processMsg initExtract

/-- The non-empty texts of a content list's `output_text` items, in order. -/
def textsOfContents (cl : List ManusContent) : List (List Char) :=
  cl.filterMap (fun c =>
    match c with
    | ManusContent.outputText t => if t.isEmpty then none else some t
    | _ => none)

/-- The non-empty texts of the assistant `output_text` items of a task, in
order (used to state what `textOutput` accumulates). -/
def assistantTexts (task : ManusTask) : List (List Char) :=
  match task.output with
  | none => []
  | some msgs =>
    ((msgs.filter (fun m => m.role = cs "assistant")).map
      (fun m => textsOfContents m.content)).flatten

/-- Each text followed by one appended newline, concatenated. -/
def joinTextsNl (ts : List (List Char)) : List Char :=
  ts.foldl (fun a t => a ++ t ++ ['\n']) []

theorem joinTextsNl_from (ts : List (List Char)) (x : List Char) :
    ts.foldl (fun a t => a ++ t ++ ['\n']) x = x ++ joinTextsNl ts := by
  induction ts generalizing x with
  | nil => simp [joinTextsNl]
  | cons t ts ih =>
    rw [joinTextsNl, List.foldl_cons, List.foldl_cons, ih, ih (([] : List Char) ++ t ++ ['\n'])]
    simp

theorem joinTextsNl_append (ts1 ts2 : List (List Char)) :
    joinTextsNl (ts1 ++ ts2) = joinTextsNl ts1 ++ joinTextsNl ts2 := by
  rw [joinTextsNl, List.foldl_append, joinTextsNl_from]
  rfl

/-! ### Claim C7 helper lemmas -/

/-- On a content item whose text (if any) contains no fenced block,
`processContent` keeps `code` and `previewCode` and appends exactly the
(non-empty) text plus one newline to `textOutput`. -/
theorem processContent_no_fence (st : ExtractResult) (c : ManusContent)
    (h : ∀ t, c = ManusContent.outputText t → findFences t = []) :
    (processContent st c).code = st.code ∧
    (processContent st c).previewCode = st.previewCode ∧
    (processContent st c).textOutput =
      st.textOutput ++ joinTextsNl (textsOfContents [c]) := by
  cases c with
  | outputText t =>
    by_cases ht : t.isEmpty
    · obtain rfl : t = [] := by simpa using ht
      simp [processContent, textsOfContents, joinTextsNl]
    · have hf : findFences t = [] := h t rfl
      have ht' : ¬ t = [] := by simpa using ht
      simp [processContent, ht, hf, textsOfContents, joinTextsNl, ht']
  | outputFile fileName fileUrl =>
    cases fileUrl with
    | none => simp [processContent, textsOfContents, joinTextsNl]
    | some u =>
      by_cases hu : u.isEmpty
      · simp [processContent, hu, textsOfContents, joinTextsNl]
      · simp only [processContent, hu, Bool.false_eq_true, if_false]
        split_ifs <;> simp [textsOfContents, joinTextsNl]
  | other => simp [processContent, textsOfContents, joinTextsNl]

theorem foldl_processContent_no_fence (cl : List ManusContent) (st : ExtractResult)
    (h : ∀ t, ManusContent.outputText t ∈ cl → findFences t = []) :
    (cl.foldl processContent st).code = st.code ∧
    (cl.foldl processContent st).previewCode = st.previewCode ∧
    (cl.foldl processContent st).textOutput =
      st.textOutput ++ joinTextsNl (textsOfContents cl) := by
  induction cl generalizing st with
  | nil => simp [textsOfContents, joinTextsNl]
  | cons c cl ih =>
    have hc := processContent_no_fence st c (fun t ht => h t (ht ▸ List.mem_cons_self c cl))
    have ihc := ih (processContent st c) (fun t ht => h t (List.mem_cons_of_mem c ht))
    refine ⟨by rw [List.foldl_cons, ihc.1, hc.1], by rw [List.foldl_cons, ihc.2.1, hc.2.1], ?_⟩
    rw [List.foldl_cons, ihc.2.2, hc.2.2]
    have hsplit : textsOfContents (c :: cl) = textsOfContents [c] ++ textsOfContents cl := by
      cases c with
      | outputText t =>
        by_cases h0 : t = [] <;> simp [textsOfContents, List.filterMap_cons, h0]
      | outputFile a b => simp [textsOfContents, List.filterMap_cons]
      | other => simp [textsOfContents, List.filterMap_cons]
    rw [hsplit, joinTextsNl_append, List.append_assoc]

theorem foldl_processMsg_no_fence (msgs : List ManusMsg) (st : ExtractResult)
    (h : ∀ m ∈ msgs, m.role = cs "assistant" →
      ∀ t, ManusContent.outputText t ∈ m.content → findFences t = []) :
    (msgs.foldl processMsg st).code = st.code ∧
    (msgs.foldl processMsg st).previewCode = st.previewCode ∧
    (msgs.foldl processMsg st).textOutput =
      st.textOutput ++
        joinTextsNl (((msgs.filter (fun m => m.role = cs "assistant")).map
          (fun m => textsOfContents m.content)).flatten) := by
  induction msgs generalizing st with
  | nil => simp [joinTextsNl]
  | cons m msgs ih =>
    rw [List.foldl_cons]
    by_cases hr : m.role = cs "assistant"
    · have hm := foldl_processContent_no_fence m.content st
        (fun t ht => h m (List.mem_cons_self m msgs) hr t ht)
      have ihm := ih (processMsg st m) (fun m' hm' => h m' (List.mem_cons_of_mem m hm'))
      have hpm : processMsg st m = m.content.foldl processContent st := by
        rw [processMsg, if_pos hr]
      refine ⟨by rw [ihm.1, hpm, hm.1], by rw [ihm.2.1, hpm, hm.2.1], ?_⟩
      rw [ihm.2.2, hpm, hm.2.2]
      rw [List.filter_cons_of_pos (by simpa using hr), List.map_cons, List.flatten_cons,
        joinTextsNl_append, List.append_assoc]
    · have hpm : processMsg st m = st := by rw [processMsg, if_neg hr]
      rw [hpm, List.filter_cons_of_neg (by simpa using hr)]
      exact ih st (fun m' hm' => h m' (List.mem_cons_of_mem m hm'))

/-! ### Claim C7 -/

/-- C7 (counterexample): `textOutput` is NOT the original model output
verbatim — the loop appends `'\n'` after every assistant text.  For a task
whose single assistant text is `"hello"` (zero fenced blocks), both code
slots are null but `textOutput` is `"hello\n"`, one character longer than
the original. -/
theorem C7_counterexample :
    (extractIndicatorCode
      (ManusTask.mk (some [ManusMsg.mk (cs "assistant")
        [ManusContent.outputText (cs "hello")]]))).code = none ∧
    (extractIndicatorCode
      (ManusTask.mk (some [ManusMsg.mk (cs "assistant")
        [ManusContent.outputText (cs "hello")]]))).previewCode = none ∧
    (extractIndicatorCode
      (ManusTask.mk (some [ManusMsg.mk (cs "assistant")
        [ManusContent.outputText (cs "hello")]]))).textOutput = cs "hello\n" ∧
    (extractIndicatorCode
      (ManusTask.mk (some [ManusMsg.mk (cs "assistant")
        [ManusContent.outputText (cs "hello")]]))).textOutput ≠ cs "hello" := by
  refine ⟨by decide, by decide, by decide, ?_⟩
  decide

/-- C7 (amended): for every task whose assistant texts contain zero fenced
blocks, `extractIndicatorCode` returns `none` for both the primary and the
preview code, and `textOutput` is the concatenation of the assistant texts
each followed by exactly one appended `'\n'` — verbatim except for those
appended newlines. -/
theorem C7_no_fences (task : ManusTask)
    (h : ∀ t ∈ assistantTexts task, findFences t = []) :
    (extractIndicatorCode task).code = none ∧
    (extractIndicatorCode task).previewCode = none ∧
    (extractIndicatorCode task).textOutput = joinTextsNl (assistantTexts task) := by
  cases htask : task.output with
  | none =>
    rw [extractIndicatorCode, htask]
    rw [assistantTexts, htask]
    exact ⟨rfl, rfl, rfl⟩
  | some msgs =>
    have h' : ∀ m ∈ msgs, m.role = cs "assistant" →
        ∀ t, ManusContent.outputText t ∈ m.content → findFences t = [] := by
      intro m hm hr t ht
      by_cases h0 : t = []
      · subst h0; rfl
      · refine h t ?_
        rw [assistantTexts, htask]
        have h1 : m ∈ msgs.filter (fun m => m.role = cs "assistant") :=
          List.mem_filter.mpr ⟨hm, by simpa using hr⟩
        have h2 : t ∈ textsOfContents m.content := by
          rw [textsOfContents]
          exact List.mem_filterMap.mpr ⟨ManusContent.outputText t, ht, by simp [h0]⟩
        exact List.mem_flatten.mpr ⟨textsOfContents m.content, List.mem_map_of_mem _ h1, h2⟩
    have hfold := foldl_processMsg_no_fence msgs initExtract h'
    rw [extractIndicatorCode, htask]
    rw [assistantTexts, htask]
    exact ⟨hfold.1, hfold.2.1, by rw [hfold.2.2]; rfl⟩

/-- C7 (witness): the amended claim applied to the concrete fence-free task
above. -/
theorem C7_no_fences_witness :
    (extractIndicatorCode
      (ManusTask.mk (some [ManusMsg.mk (cs "assistant")
        [ManusContent.outputText (cs "hello")]]))).code = none ∧
    (extractIndicatorCode
      (ManusTask.mk (some [ManusMsg.mk (cs "assistant")
        [ManusContent.outputText (cs "hello")]]))).textOutput =
      joinTextsNl (assistantTexts (ManusTask.mk (some [ManusMsg.mk (cs "assistant")
        [ManusContent.outputText (cs "hello")]]))) :=
  ⟨(C7_no_fences _ (by decide)).1, (C7_no_fences _ (by decide)).2.2⟩

/-! ### Claim C6 -/

/-- C6 (counterexample): a single bare-fenced block that passes BOTH the
primary-code heuristic (`ta.`) and the preview heuristic
(`function calculate(`) while both slots are empty is assigned to BOTH
slots — the preview slot is NOT left for a later block. -/
theorem C6_counterexample :
    (extractIndicatorCode
      (ManusTask.mk (some [ManusMsg.mk (cs "assistant")
        [ManusContent.outputText
          (cs "```\nta.sma(1)\nfunction calculate(x)\n```")]]))).code =
      some (cs "ta.sma(1)\nfunction calculate(x)") ∧
    (extractIndicatorCode
      (ManusTask.mk (some [ManusMsg.mk (cs "assistant")
        [ManusContent.outputText
          (cs "```\nta.sma(1)\nfunction calculate(x)\n```")]]))).previewCode =
      some (cs "ta.sma(1)\nfunction calculate(x)") := by
  exact ⟨by decide, by decide⟩

/-- C6 (amended): in the per-block loop of `extractIndicatorCode`, a
non-empty block that satisfies both the primary and the preview
classification while BOTH slots are still empty is assigned to BOTH slots
simultaneously (the two `if` statements are independent, not `else`-chained
— nothing is left for a later block). -/
theorem C6_both_slots (st : ExtractResult) (lang body : List Char)
    (hc : st.code = none) (hp : st.previewCode = none)
    (hne : (trimL body).isEmpty = false)
    (hpine : (containsSub (lowerL lang) (cs "pine") || isLikelyPineCode (trimL body)) = true)
    (hprev : (isJavaScriptBlock (lowerL lang) || isLikelyPreviewCode (trimL body)) = true) :
    (processBlock st (lang, body)).code = some (trimL body) ∧
    (processBlock st (lang, body)).previewCode = some (trimL body) := by
  simp [processBlock, hne, hpine, hprev, hc, hp]

/-- C6 (witness): the amended claim at the concrete both-qualifying block. -/
theorem C6_both_slots_witness :
    (processBlock initExtract
      ([], cs "ta.sma(1)\nfunction calculate(x)")).code =
      some (trimL (cs "ta.sma(1)\nfunction calculate(x)")) ∧
    (processBlock initExtract
      ([], cs "ta.sma(1)\nfunction calculate(x)")).previewCode =
      some (trimL (cs "ta.sma(1)\nfunction calculate(x)")) :=
  C6_both_slots initExtract [] (cs "ta.sma(1)\nfunction calculate(x)")
    (by decide) (by decide) (by decide) (by decide) (by decide)

/-! ## `parsePineScriptConfig` (engine +server.ts)

`parseFloat` values are modelled exactly: NaN, ±Infinity, or a rational. -/

/-- A JS number as produced by `parseFloat`. -/
inductive JsNum where
  | nan
  | posInf
  | negInf
  | val (q : ℚ)
  deriving DecidableEq, Repr

/-- Decimal digits to a natural number. -/
def digitsToNat (ds : List Char) : ℕ :=
  ds.foldl (fun a c => a * 10 + (c.toNat - 48)) 0

/-- JS `parseFloat`: skip leading whitespace, optional sign, `Infinity` or
the longest decimal-literal prefix (integer part, optional fraction,
optional exponent — an incomplete exponent is ignored); `NaN` when no
digits at all. -/
def jsParseFloat (s : List Char) : JsNum :=
  let t := s.dropWhile (fun c => isWsChar c)
  let signed : Bool × List Char :=
    match t with
    | '+' :: r => (false, r)
    | '-' :: r => (true, r)
    | _ => (false, t)
  match dropLit (cs "Infinity") signed.2 with
  | some _ => if signed.1 then JsNum.negInf else JsNum.posInf
  | none =>
    let qi := signed.2.span (fun c => isDigitChar c)
    let fracPart : List Char × List Char :=
      match qi.2 with
      | '.' :: r =>
        let qf := r.span (fun c => isDigitChar c)
        (qf.1, qf.2)
      | _ => ([], qi.2)
    if qi.1.isEmpty && fracPart.1.isEmpty then JsNum.nan
    else
      let e : ℤ :=
        match fracPart.2 with
        | c :: r =>
          if c = 'e' || c = 'E' then
            let esigned : Bool × List Char :=
              match r with
              | '+' :: rr => (false, rr)
              | '-' :: rr => (true, rr)
              | _ => (false, r)
            let qe := esigned.2.span (fun x => isDigitChar x)
            if qe.1.isEmpty then 0
            else if esigned.1 then -(Int.ofNat (digitsToNat qe.1))
            else Int.ofNat (digitsToNat qe.1)
          else 0
        | [] => 0
      let mant : ℤ := Int.ofNat (digitsToNat (qi.1 ++ fracPart.1))
      let k : ℤ := e - Int.ofNat fracPart.1.length
      let mag : ℚ :=
        if 0 ≤ k then mkRat (mant * Int.ofNat (10 ^ k.toNat)) 1
        else mkRat mant (10 ^ (-k).toNat)
      JsNum.val (if signed.1 then -mag else mag)

/-! ### The input-declaration regex -/

/-- One recorded match of the input regex: captures, plus the code prefix
before the match and the suffix from the match position (used for the
`minval`/`maxval`/`step` sub-scan via `substring`/`indexOf`). -/
structure InputMatch where
  varName : List Char
  inputType : List Char
  defaultRaw : List Char
  titleCap : Option (List Char)
  pre : List Char
  tail : List Char
  deriving DecidableEq, Repr

/-- `\s*\(\s*(?:defval\s*=\s*)?([^,)]+)` — returns the raw default capture
and the rest after it; the `defval`-group is tried greedily and abandoned
when the following capture would be empty. -/
def matchArgsAt (r : List Char) : Option (List Char × List Char) :=
  match ((r.span (fun c => isWsChar c)).2 : List Char) with
  | '(' :: r2 =>
    let r3 := (r2.span (fun c => isWsChar c)).2
    let defvalPath : Option (List Char × List Char) :=
      match dropLit (cs "defval") r3 with
      | some r4 =>
        match ((r4.span (fun c => isWsChar c)).2 : List Char) with
        | '=' :: r5 =>
          let r6 := (r5.span (fun c => isWsChar c)).2
          let run := r6.span (fun c => !(c = ',' || c = ')'))
          if run.1.isEmpty then none else some (run.1, run.2)
        | _ => none
      | none => none
    match defvalPath with
    | some x => some x
    | none =>
      let run := r3.span (fun c => !(c = ',' || c = ')'))
      if run.1.isEmpty then none else some (run.1, run.2)
  | _ => none

/-- `title\s*=\s*(?:"|')([^"']+)(?:"|')` at a position. -/
def matchTitleAt (s : List Char) : Option (List Char × List Char) :=
  match dropLit (cs "title") s with
  | none => none
  | some r1 =>
    match ((r1.span (fun c => isWsChar c)).2 : List Char) with
    | '=' :: r2 =>
      match ((r2.span (fun c => isWsChar c)).2 : List Char) with
      | q :: r3 =>
        if q = '"' || q = '\'' then
          let run := r3.span (fun c => !(c = '"' || c = '\''))
          if run.1.isEmpty then none
          else
            match run.2 with
            | _ :: r4 => some (run.1, r4)
            | [] => none
        else none
      | [] => none
    | _ => none

/-- The lazy `.*?title…` search of the optional title group: scan forward
over non-line-terminator characters for the earliest `title=` quoted
capture. -/
def titleSearch : List Char → Option (List Char × List Char)
  | [] => none
  | c :: rest =>
    match matchTitleAt (c :: rest) with
    | some x => some x
    | none => if isLineTerm c then none else titleSearch rest

/-- The typed-input alternation, in the source's order. -/
def inputTypeAlts : List (List Char) :=
  [cs "int", cs "float", cs "bool", cs "string", cs "source", cs "color"]

/-- The full input-declaration matcher
`(\w+)\s*=\s*input(?:\.(int|float|bool|string|source|color))?\s*\(\s*(?:defval\s*=\s*)?([^,)]+)(?:.*?title\s*=\s*(?:"|')([^"']+)(?:"|'))?`
at a position: returns `(varName, inputType, defaultRaw, titleCapture,
remainder-after-match)`. -/
def matchInputAt (s : List Char) :
    Option (List Char × List Char × List Char × Option (List Char) × List Char) :=
  let qv := s.span (fun c => isWordChar c)
  if qv.1.isEmpty then none
  else
    match ((qv.2.span (fun c => isWsChar c)).2 : List Char) with
    | '=' :: r2 =>
      let r3 := (r2.span (fun c => isWsChar c)).2
      match dropLit (cs "input") r3 with
      | none => none
      | some r4 =>
        let typed : Option (List Char × (List Char × List Char)) :=
          match r4 with
          | '.' :: r5 =>
            inputTypeAlts.foldl (fun acc alt =>
              match acc with
              | some _ => acc
              | none =>
                match dropLit alt r5 with
                | some r6 => (matchArgsAt r6).map (fun x => (alt, x))
                | none => none) none
          | _ => none
        let result : Option (List Char × (List Char × List Char)) :=
          match typed with
          | some x => some x
          | none => (matchArgsAt r4).map (fun x => (([] : List Char), x))
        match result with
        | none => none
        | some tdx =>
          match titleSearch tdx.2.2 with
          | some capr => some (qv.1, tdx.1, tdx.2.1, some capr.1, capr.2)
          | none => some (qv.1, tdx.1, tdx.2.1, none, tdx.2.2)
    | _ => none

/-- The `exec` loop scanner: leftmost matches, continuing after each match;
`preRev` is the (reversed) prefix before the current position. -/
def inputGo : ℕ → List Char → List Char → List InputMatch
  | 0, _, _ => []
  | _ + 1, _, [] => []
  | fuel + 1, preRev, c :: rest =>
    match matchInputAt (c :: rest) with
    | some r =>
      let cur := c :: rest
      let rem := r.2.2.2.2
      let k := cur.length - rem.length
      { varName := r.1, inputType := r.2.1, defaultRaw := r.2.2.1,
        titleCap := r.2.2.2.1, pre := preRev.reverse, tail := cur } ::
        inputGo fuel ((cur.take k).reverse ++ preRev) rem
    | none => inputGo fuel (c :: preRev) rest

/-- All input-declaration matches of a code string, in order. -/
def inputMatches (code : List Char) : List InputMatch :=
  inputGo code.length [] code

/-- `code.substring(idx, code.indexOf(')', idx) + 1)`: the prefix of `tail`
up to and including the first `')'`; when there is none, `indexOf` is `-1`
and `substring` swaps its arguments, yielding the code BEFORE the match. -/
def takeThroughParen : List Char → Option (List Char)
  | [] => none
  | c :: r =>
    if c = ')' then some [c] else (takeThroughParen r).map (fun x => c :: x)

/-- The `fullCall` string scanned for `minval`/`maxval`/`step`. -/
def fullCallOf (m : InputMatch) : List Char :=
  match takeThroughParen m.tail with
  | some x => x
  | none => m.pre

/-- First match of `<key>\s*=\s*([0-9.]+)`: the captured digit/dot run. -/
def boundSearch (key : List Char) : List Char → Option (List Char)
  | [] => none
  | c :: rest =>
    match (match dropLit key (c :: rest) with
           | some r1 =>
             match ((r1.span (fun x => isWsChar x)).2 : List Char) with
             | '=' :: r2 =>
               let r3 := (r2.span (fun x => isWsChar x)).2
               let run := r3.span (fun x => isDigitChar x || x = '.')
               if run.1.isEmpty then none else some run.1
             | _ => none
           | none => none : Option (List Char)) with
    | some cap => some cap
    | none => boundSearch key rest

/-- One entry of the parameter table. -/
structure ParamEntry where
  default : JsNum
  label : List Char
  min : Option JsNum
  max : Option JsNum
  step : Option JsNum
  deriving DecidableEq, Repr

/-- The entry built for a qualifying match (label falls back to the variable
name; bounds parsed from the `fullCall` slice when present). -/
def entryOfMatch (m : InputMatch) (d : JsNum) : ParamEntry :=
  let fullCall := fullCallOf m
  { default := d
    label := m.titleCap.getD m.varName
    min := (boundSearch (cs "minval") fullCall).map (fun cap => jsParseFloat cap)
    max := (boundSearch (cs "maxval") fullCall).map (fun cap => jsParseFloat cap)
    step := (boundSearch (cs "step") fullCall).map (fun cap => jsParseFloat cap) }

/-- JS object key assignment: replace in place or append. -/
def setKey (ps : List (List Char × ParamEntry)) (k : List Char) (v : ParamEntry) :
    List (List Char × ParamEntry) :=
  match ps with
  | [] => [(k, v)]
  | (k', v') :: rest => if k' = k then (k, v) :: rest else (k', v') :: setKey rest k v

/-- The four input types excluded from the parameter table. -/
def excludedType (ty : List Char) : Bool :=
  ty = cs "bool" || ty = cs "color" || ty = cs "string" || ty = cs "source"

/-- The loop body: skip excluded types and NaN defaults, otherwise insert
the entry under the variable name. -/
def paramStep (params : List (List Char × ParamEntry)) (m : InputMatch) :
    List (List Char × ParamEntry) :=
  if excludedType m.inputType then params
  else
    match jsParseFloat (trimL m.defaultRaw) with
    | JsNum.nan => params
    | d => setKey params m.varName (entryOfMatch m d)

/-- The parameter table of a code string. -/
def buildParams (ms : List InputMatch) : List (List Char × ParamEntry) :=
  ms.foldl paramStep []

/-- `(?:"|')([^"']+)(?:"|')`: a quoted capture. -/
def quoteCap (r : List Char) : Option (List Char) :=
  match r with
  | q :: r2 =>
    if q = '"' || q = '\'' then
      let run := r2.span (fun c => !(c = '"' || c = '\''))
      if run.1.isEmpty then none
      else
        match run.2 with
        | _ :: _ => some run.1
        | [] => none
    else none
  | [] => none

/-- `indicator\s*\(\s*(?:title\s*=\s*)?(?:"|')([^"']+)(?:"|')` at a position. -/
def matchIndicatorTitleAt (s : List Char) : Option (List Char) :=
  match dropLit (cs "indicator") s with
  | none => none
  | some r1 =>
    match ((r1.span (fun c => isWsChar c)).2 : List Char) with
    | '(' :: r2 =>
      let r3 := (r2.span (fun c => isWsChar c)).2
      let titlePath : Option (List Char) :=
        match dropLit (cs "title") r3 with
        | some r4 =>
          match ((r4.span (fun c => isWsChar c)).2 : List Char) with
          | '=' :: r5 => quoteCap ((r5.span (fun c => isWsChar c)).2)
          | _ => none
        | none => none
      match titlePath with
      | some x => some x
      | none => quoteCap r3
    | _ => none

/-- First (leftmost) indicator-title match. -/
def findIndicatorTitle : List Char → Option (List Char)
  | [] => none
  | c :: rest =>
    match matchIndicatorTitleAt (c :: rest) with
    | some cap => some cap
    | none => findIndicatorTitle rest

/-- `overlay\s*=\s*(true|false)` at a position (capture). -/
def matchOverlayAt (s : List Char) : Option (List Char) :=
  match dropLit (cs "overlay") s with
  | none => none
  | some r1 =>
    match ((r1.span (fun c => isWsChar c)).2 : List Char) with
    | '=' :: r2 =>
      let r3 := (r2.span (fun c => isWsChar c)).2
      match dropLit (cs "true") r3 with
      | some _ => some (cs "true")
      | none =>
        match dropLit (cs "false") r3 with
        | some _ => some (cs "false")
        | none => none
    | _ => none

/-- First overlay-setting match. -/
def findOverlay : List Char → Option (List Char)
  | [] => none
  | c :: rest =>
    match matchOverlayAt (c :: rest) with
    | some cap => some cap
    | none => findOverlay rest

/-- The config record produced by `parsePineScriptConfig`. -/
structure PineConfig where
  name : List Char
  description : List Char
  overlayType : List Char
  params : List (List Char × ParamEntry)
  deriving DecidableEq, Repr

/-- `parsePineScriptConfig`. -/
def parsePineScriptConfig (code : List Char) : PineConfig :=
  { name := (findIndicatorTitle code).getD (cs "Custom Indicator")
    description := (findIndicatorTitle code).getD (cs "Generated PineScript Indicator")
    overlayType :=
      match findOverlay code with
      | some cap => if cap = cs "true" then cs "overlay" else cs "separate"
      | none => cs "separate"
    params := buildParams (inputMatches code) }

/-! ### Claim C9 -/

theorem mem_setKey {ps : List (List Char × ParamEntry)} {k v p}
    (h : p ∈ setKey ps k v) : p = (k, v) ∨ p ∈ ps := by
  induction ps with
  | nil => simpa [setKey] using h
  | cons kv rest ih =>
    rcases kv with ⟨k', v'⟩
    rw [setKey] at h
    by_cases hk : k' = k
    · rw [if_pos hk] at h
      rcases List.mem_cons.mp h with rfl | h
      · exact Or.inl rfl
      · exact Or.inr (List.mem_cons_of_mem _ h)
    · rw [if_neg hk] at h
      rcases List.mem_cons.mp h with rfl | h
      · exact Or.inr (List.mem_cons_self _ _)
      · rcases ih h with h' | h'
        · exact Or.inl h'
        · exact Or.inr (List.mem_cons_of_mem _ h')

theorem mem_paramStep {ps : List (List Char × ParamEntry)} {m : InputMatch} {p}
    (h : p ∈ paramStep ps m) :
    p ∈ ps ∨
      (excludedType m.inputType = false ∧ jsParseFloat (trimL m.defaultRaw) ≠ JsNum.nan ∧
       p = (m.varName, entryOfMatch m (jsParseFloat (trimL m.defaultRaw)))) := by
  rw [paramStep] at h
  by_cases hex : excludedType m.inputType
  · rw [if_pos hex] at h
    exact Or.inl h
  · rw [if_neg hex] at h
    cases hp : jsParseFloat (trimL m.defaultRaw) with
    | nan =>
      rw [hp] at h
      exact Or.inl h
    | posInf =>
      rw [hp] at h
      have h2 : p ∈ setKey ps m.varName (entryOfMatch m JsNum.posInf) := h
      rcases mem_setKey h2 with h' | h'
      · exact Or.inr ⟨by simpa using hex, ⟨by decide, h'⟩⟩
      · exact Or.inl h'
    | negInf =>
      rw [hp] at h
      have h2 : p ∈ setKey ps m.varName (entryOfMatch m JsNum.negInf) := h
      rcases mem_setKey h2 with h' | h'
      · exact Or.inr ⟨by simpa using hex, ⟨by decide, h'⟩⟩
      · exact Or.inl h'
    | val q =>
      rw [hp] at h
      have h2 : p ∈ setKey ps m.varName (entryOfMatch m (JsNum.val q)) := h
      rcases mem_setKey h2 with h' | h'
      · exact Or.inr ⟨by simpa using hex, ⟨fun hc => JsNum.noConfusion hc, h'⟩⟩
      · exact Or.inl h'

theorem mem_buildParams_aux (ms : List InputMatch)
    (ps : List (List Char × ParamEntry)) (p : List Char × ParamEntry)
    (h : p ∈ ms.foldl paramStep ps) :
    p ∈ ps ∨ ∃ m ∈ ms,
      excludedType m.inputType = false ∧ jsParseFloat (trimL m.defaultRaw) ≠ JsNum.nan ∧
      p = (m.varName, entryOfMatch m (jsParseFloat (trimL m.defaultRaw))) := by
  induction ms generalizing ps with
  | nil => exact Or.inl h
  | cons m ms ih =>
    rw [List.foldl_cons] at h
    rcases ih (paramStep ps m) h with h' | ⟨m', hm', hc⟩
    · rcases mem_paramStep h' with h'' | h''
      · exact Or.inl h''
      · exact Or.inr ⟨m, List.mem_cons_self m ms, h''⟩
    · exact Or.inr ⟨m', List.mem_cons_of_mem m hm', hc⟩

/-- C9: every entry of the parameter table produced by
`parsePineScriptConfig` comes from an input-declaration match whose declared
type is NOT one of `bool`/`color`/`string`/`source` and whose (trimmed)
default parses as a number (non-NaN); the entry carries that match's
variable name, its parsed numeric default, its label (title capture, or the
variable name when absent), and the `minval`/`maxval`/`step` bounds parsed
from the call slice. -/
theorem C9_params_sound (code : List Char) (v : List Char) (e : ParamEntry)
    (h : (v, e) ∈ (parsePineScriptConfig code).params) :
    ∃ m ∈ inputMatches code,
      m.varName = v ∧
      excludedType m.inputType = false ∧
      jsParseFloat (trimL m.defaultRaw) ≠ JsNum.nan ∧
      e = entryOfMatch m (jsParseFloat (trimL m.defaultRaw)) ∧
      e.default = jsParseFloat (trimL m.defaultRaw) ∧
      e.label = m.titleCap.getD m.varName := by
  have h' : (v, e) ∈ buildParams (inputMatches code) := h
  rcases mem_buildParams_aux (inputMatches code) [] (v, e) h' with h'' | ⟨m, hm, hex, hnan, hpe⟩
  · cases h''
  · have hv : m.varName = v := (congrArg Prod.fst hpe).symm
    have he : e = entryOfMatch m (jsParseFloat (trimL m.defaultRaw)) :=
      congrArg Prod.snd hpe
    refine ⟨m, hm, hv, hex, hnan, he, ?_, ?_⟩
    · rw [he]; rfl
    · rw [he]; rfl

/-- C9 (witness): on a concrete three-input script, the single table entry
(for the `int` input; the `bool` and `color` inputs are excluded) satisfies
the soundness property. -/
theorem C9_params_sound_witness :
    ∃ m ∈ inputMatches
        (cs "len = input.int(14, title=\"Len\", minval=1)\nuseX = input.bool(true)\ncol = input.color(color.red)"),
      m.varName = cs "len" ∧
      excludedType m.inputType = false ∧
      jsParseFloat (trimL m.defaultRaw) ≠ JsNum.nan ∧
      ({ default := JsNum.val 14, label := cs "Len", min := some (JsNum.val 1),
         max := none, step := none } : ParamEntry) =
        entryOfMatch m (jsParseFloat (trimL m.defaultRaw)) ∧
      ({ default := JsNum.val 14, label := cs "Len", min := some (JsNum.val 1),
         max := none, step := none } : ParamEntry).default =
        jsParseFloat (trimL m.defaultRaw) ∧
      ({ default := JsNum.val 14, label := cs "Len", min := some (JsNum.val 1),
         max := none, step := none } : ParamEntry).label = m.titleCap.getD m.varName :=
  C9_params_sound
    (cs "len = input.int(14, title=\"Len\", minval=1)\nuseX = input.bool(true)\ncol = input.color(color.red)")
    (cs "len")
    { default := JsNum.val 14, label := cs "Len", min := some (JsNum.val 1),
      max := none, step := none }
    (by decide)

/-! ## Scanner characterization lemmas

Shared facts about `dropLit`, `span` and the call matcher, used for the
legacy-rewrite claims (C5) and the version-header claim (C3). -/

theorem dropLit_some_eq {lit s r : List Char} (h : dropLit lit s = some r) :
    s = lit ++ r := by
  induction lit generalizing s with
  | nil => simpa [dropLit] using h
  | cons a as ih =>
    cases s with
    | nil => simp [dropLit] at h
    | cons c rest =>
      rw [dropLit] at h
      by_cases hac : a = c
      · rw [if_pos hac] at h
        rw [List.cons_append, ← ih h, hac]
      · rw [if_neg hac] at h
        cases h

theorem dropLit_self (lit r : List Char) : dropLit lit (lit ++ r) = some r := by
  induction lit with
  | nil => rfl
  | cons a as ih => simp [dropLit, ih]

/-- Characterization of a successful call match: the input splits as the
function name, a whitespace run, the parenthesis, and the remainder. -/
theorem matchCallAt_some_decomp {fn s r : List Char} (h : matchCallAt fn s = some r) :
    ∃ w, s = fn ++ w ++ '(' :: r ∧ ∀ c ∈ w, isWsChar c := by
  rw [matchCallAt] at h
  cases hd : dropLit fn s with
  | none => rw [hd] at h; cases h
  | some r1 =>
    rw [hd] at h
    have h2 : (match ((r1.span (fun c => isWsChar c)).2 : List Char) with
               | c :: r3 => if c = '(' then some r3 else none
               | [] => none) = some r := h
    have hs := dropLit_some_eq hd
    rcases hq : ((r1.span (fun c => isWsChar c)).2 : List Char) with _ | ⟨c, r3⟩
    · rw [hq] at h2
      have h3 : (none : Option (List Char)) = some r := h2
      cases h3
    · rw [hq] at h2
      have h' : (if c = '(' then some r3 else none) = some r := h2
      by_cases hc : c = '('
      · rw [if_pos hc] at h'
        obtain rfl : r3 = r := Option.some.inj h'
        subst hc
        have hf1 : (r1.span (fun c => isWsChar c)).1 = r1.takeWhile (fun c => isWsChar c) := by
          rw [List.span_eq_take_drop]
        have hf2 : (r1.span (fun c => isWsChar c)).2 = r1.dropWhile (fun c => isWsChar c) := by
          rw [List.span_eq_take_drop]
        refine ⟨(r1.span (fun c => isWsChar c)).1, ?_, ?_⟩
        · have hr1 : r1 = (r1.span (fun c => isWsChar c)).1 ++ '(' :: r3 := by
            calc r1 = r1.takeWhile (fun c => isWsChar c) ++
                r1.dropWhile (fun c => isWsChar c) :=
                  (List.takeWhile_append_dropWhile (fun c => isWsChar c) r1).symm
            _ = (r1.span (fun c => isWsChar c)).1 ++ '(' :: r3 := by
                  rw [← hf1, ← hf2, hq]
          rw [hs]
          conv_lhs => rw [hr1]
          simp
        · intro c hc2
          rw [hf1] at hc2
          exact List.mem_takeWhile_imp hc2
      · rw [if_neg hc] at h'
        cases h'

/-- A prefix avoiding a character `ch` of `w ++ ch :: z` lies entirely
inside `w`. -/
theorem split_of_no_char (ch : Char) : ∀ (P w z rem : List Char),
    P ++ rem = w ++ ch :: z →
    ch ∉ P → ∃ w', w = P ++ w' ∧ rem = w' ++ ch :: z
  | [], w, z, rem, h, _ => ⟨w, by simp, by simpa using h⟩
  | p :: P', w, z, rem, h, hdot => by
    cases w with
    | nil =>
      exfalso
      have hp : p = ch := by simpa using congrArg (fun l => l.head?) h
      exact hdot (hp ▸ List.mem_cons_self p P')
    | cons c w'' =>
      have hpc : p = c := by simpa using congrArg (fun l => l.head?) h
      have htail : P' ++ rem = w'' ++ ch :: z := by
        simpa using congrArg (fun l => l.tail) h
      rcases split_of_no_char ch P' w'' z rem htail
          (fun hm => hdot (List.mem_cons_of_mem p hm)) with ⟨w', hw1, hw2⟩
      exact ⟨w', by rw [hpc, List.cons_append, hw1], hw2⟩

/-- No call match can start inside a word run that is followed by a dot:
the matched span (`name`, whitespace, `'('`) contains no `'.'`, so it would
have to fit inside the word run, but it ends in `'('`. -/
theorem matchCallAt_none_worddot {e w z : List Char}
    (he : ∀ c ∈ e, isWordChar c)
    (hws_ : ∀ c ∈ w, isWordChar c) :
    matchCallAt e (w ++ '.' :: z) = none := by
  cases h : matchCallAt e (w ++ '.' :: z) with
  | none => rfl
  | some r =>
    exfalso
    rcases matchCallAt_some_decomp h with ⟨ws, heq, hws⟩
    have heq' : (e ++ ws ++ ['(']) ++ r = w ++ '.' :: z := by
      rw [heq]
      simp
    have hnodot : '.' ∉ e ++ ws ++ ['('] := by
      intro hmem
      rcases List.mem_append.mp hmem with hmem | hmem
      · rcases List.mem_append.mp hmem with hmem | hmem
        · have := he _ hmem
          simp [isWordChar] at this
        · have := hws _ hmem
          simp [isWsChar] at this
      · simp at hmem
    rcases split_of_no_char '.' _ _ _ _ heq' hnodot with ⟨w', hw', -⟩
    have hparen : '(' ∈ w := by
      rw [hw']
      simp
    have := hws_ _ hparen
    simp [isWordChar] at this

/-- A word character is never a JS whitespace character. -/
theorem word_not_ws (c : Char) (h : isWordChar c = true) : isWsChar c = false := by
  by_contra hws
  rw [Bool.not_eq_false, isWsChar] at hws
  rw [isWordChar] at h
  simp only [Bool.or_eq_true, Bool.and_eq_true, decide_eq_true_eq, or_assoc] at h hws
  rcases h with ⟨ha, hb⟩ | ⟨ha, hb⟩ | ⟨ha, hb⟩ | ha
  · rcases hws with h1|h1|h1|h1|h1|h1|h1|h1|⟨h2,h3⟩|h1|h1|h1|h1|h1|h1
    all_goals first
      | (subst h1; revert ha hb; decide)
      | (exact absurd (le_trans h2 hb) (by decide))
  · rcases hws with h1|h1|h1|h1|h1|h1|h1|h1|⟨h2,h3⟩|h1|h1|h1|h1|h1|h1
    all_goals first
      | (subst h1; revert ha hb; decide)
      | (exact absurd (le_trans h2 hb) (by decide))
  · rcases hws with h1|h1|h1|h1|h1|h1|h1|h1|⟨h2,h3⟩|h1|h1|h1|h1|h1|h1
    all_goals first
      | (subst h1; revert ha hb; decide)
      | (exact absurd (le_trans h2 hb) (by decide))
  · subst ha
    revert hws
    decide

/-- A pass for a different word-shaped function name never matches at a bare
occurrence `f ++ "(" ++ B` (the match would have to end at a `'('` strictly
inside the word run `f`). -/
theorem matchCallAt_none_of_ne {fe f : List Char}
    (hfe : ∀ c ∈ fe, isWordChar c) (hf : ∀ c ∈ f, isWordChar c)
    (hne : fe ≠ f) (B : List Char) :
    matchCallAt fe (f ++ '(' :: B) = none := by
  cases h : matchCallAt fe (f ++ '(' :: B) with
  | none => rfl
  | some r =>
    exfalso
    rcases matchCallAt_some_decomp h with ⟨ws, heq, hws⟩
    have heq' : (fe ++ ws) ++ '(' :: r = f ++ '(' :: B := by
      simp [heq]
    have hnp : '(' ∉ fe ++ ws := by
      intro hmem
      rcases List.mem_append.mp hmem with hmem | hmem
      · have := hfe _ hmem
        simp [isWordChar] at this
      · have := hws _ hmem
        simp [isWsChar] at this
    rcases split_of_no_char '(' (fe ++ ws) f B ('(' :: r) heq' hnp with ⟨w', hw1, hw2⟩
    cases w' with
    | nil =>
      cases hwsnil : ws with
      | nil =>
        apply hne
        rw [hw1, hwsnil]
        simp
      | cons a as =>
        have haf : a ∈ f := by
          rw [hw1, hwsnil]
          simp
        have h1 := hf a haf
        have h2 := hws a (by rw [hwsnil]; exact List.mem_cons_self a as)
        rw [word_not_ws a h1] at h2
        exact absurd h2 (by decide)
    | cons d w'' =>
      have hd : d = '(' := by
        simpa using (congrArg (fun l => l.head?) hw2).symm
      have hdf : d ∈ f := by
        rw [hw1]
        exact List.mem_append_right _ (List.mem_cons_self d w'')
      have := hf d hdf
      rw [hd] at this
      exact absurd this (by decide)

/-- The pass for the function name itself matches a bare occurrence at the
start. -/
theorem matchCallAt_self (f B : List Char) : matchCallAt f (f ++ '(' :: B) = some B := by
  rw [matchCallAt, dropLit_self]
  have hdw : List.dropWhile (fun c => isWsChar c) ('(' :: B) = '(' :: B :=
    List.dropWhile_cons_of_neg (by decide)
  have hsp : ((('(' :: B).span (fun c => isWsChar c)).2 : List Char) = '(' :: B := by
    rw [List.span_eq_take_drop]
    exact hdw
  show (match ((('(' :: B).span (fun c => isWsChar c)).2 : List Char) with
    | c :: r3 => if c = '(' then some r3 else none
    | [] => none) = some B
  rw [hsp]
  simp

/-- One scanner step where the lookbehind/boundary guard blocks matching. -/
theorem legacyGo_step_blocked (fe me : List Char) (k : ℕ) (p c : Char)
    (rest : List Char) (h : allowedAt (some p) = false) :
    legacyGo fe me (k + 1) (some p) (c :: rest) =
      c :: legacyGo fe me k (some c) rest := by
  simp [legacyGo, h]

/-- One scanner step where matching is allowed but fails. -/
theorem legacyGo_step_nomatch (fe me : List Char) (k : ℕ) (prev : Option Char)
    (c : Char) (rest : List Char) (h : matchCallAt fe (c :: rest) = none) :
    legacyGo fe me (k + 1) prev (c :: rest) =
      c :: legacyGo fe me k (some c) rest := by
  cases ha : allowedAt prev <;> simp [legacyGo, ha, h]

/-- One scanner step with a successful match: the replacement is emitted. -/
theorem legacyGo_step_match (fe me : List Char) (k : ℕ) (prev : Option Char)
    (c : Char) (rest rem : List Char) (ha : allowedAt prev = true)
    (h : matchCallAt fe (c :: rest) = some rem) :
    legacyGo fe me (k + 1) prev (c :: rest) =
      me ++ legacyGo fe me k (some '(') rem := by
  simp [legacyGo, ha, h]

/-- Scanning a run of word characters with a blocking previous character
emits the run verbatim (each position stays blocked by the word boundary). -/
theorem legacyGo_run_blocked : ∀ (w fe me : List Char) (fuel : ℕ) (p : Char)
    (rest : List Char), allowedAt (some p) = false → (∀ c ∈ w, isWordChar c) →
    ∃ q, allowedAt (some q) = false ∧
      legacyGo fe me (w.length + fuel) (some p) (w ++ rest) =
        w ++ legacyGo fe me fuel (some q) rest
  | [], fe, me, fuel, p, rest, hp, _ => ⟨p, hp, by simp⟩
  | c :: w', fe, me, fuel, p, rest, hp, hw => by
    have hc : isWordChar c = true := hw c (List.mem_cons_self c w')
    have hca : allowedAt (some c) = false := by simp [allowedAt, hc]
    rcases legacyGo_run_blocked w' fe me fuel c rest hca
        (fun d hd => hw d (List.mem_cons_of_mem c hd)) with ⟨q, hq, hgo⟩
    refine ⟨q, hq, ?_⟩
    have hlen : (c :: w').length + fuel = w'.length + fuel + 1 := by
      simp only [List.length_cons]
      omega
    rw [hlen]
    show legacyGo fe me (w'.length + fuel + 1) (some p) (c :: (w' ++ rest)) =
      (c :: w') ++ legacyGo fe me fuel (some q) rest
    rw [legacyGo_step_blocked fe me (w'.length + fuel) p c (w' ++ rest) hp, hgo]
    rfl

/-- Scanning a qualified call `"." ++ f ++ "(" ++ B` from any previous
character: the dot blocks the lookbehind for all of `f`, and no match can
start at the dot itself. -/
theorem legacyGo_keep_dotcall (fe me f B : List Char) (p : Option Char)
    (hfe : ∀ c ∈ fe, isWordChar c) (hf : ∀ c ∈ f, isWordChar c) :
    legacyGo fe me ((f ++ '(' :: B).length + 1) p ('.' :: (f ++ '(' :: B)) =
      '.' :: (f ++ '(' :: legacyGo fe me B.length (some '(') B) := by
  have hnone : matchCallAt fe ('.' :: (f ++ '(' :: B)) = none :=
    @matchCallAt_none_worddot fe [] (f ++ '(' :: B) hfe
      (fun c hc => absurd hc (List.not_mem_nil c))
  rw [legacyGo_step_nomatch fe me ((f ++ '(' :: B).length) p '.' (f ++ '(' :: B) hnone]
  have hdot : allowedAt (some '.') = false := by decide
  cases f with
  | nil =>
    congr 1
  | cons c f' =>
    congr 1
    show legacyGo fe me ((f' ++ '(' :: B).length + 1) (some '.') (c :: (f' ++ '(' :: B)) =
      c :: (f' ++ '(' :: legacyGo fe me B.length (some '(') B)
    rw [legacyGo_step_blocked fe me ((f' ++ '(' :: B).length) '.' c (f' ++ '(' :: B) hdot]
    congr 1
    have hca : allowedAt (some c) = false := by
      simp [allowedAt, hf c (List.mem_cons_self c f')]
    rcases legacyGo_run_blocked f' fe me (('(' :: B).length) c ('(' :: B) hca
        (fun d hd => hf d (List.mem_cons_of_mem c hd)) with ⟨q, hq, hgo⟩
    rw [List.length_append, hgo]
    congr 1
    exact legacyGo_step_blocked fe me B.length q '(' B hq

/-- Every legacy pass with a word-shaped function name leaves a leading
qualified occurrence `ns ++ "." ++ f ++ "(" ++ B` in place. -/
theorem legacyReplace_keep_qualified (fe me ns f B : List Char)
    (hfe : ∀ c ∈ fe, isWordChar c) (hns : ∀ c ∈ ns, isWordChar c)
    (hf : ∀ c ∈ f, isWordChar c) :
    legacyReplace fe me (ns ++ ('.' :: (f ++ '(' :: B))) =
      ns ++ ('.' :: (f ++ '(' :: legacyGo fe me B.length (some '(') B)) := by
  rw [legacyReplace]
  cases ns with
  | nil =>
    show legacyGo fe me ((f ++ '(' :: B).length + 1) none ('.' :: (f ++ '(' :: B)) =
      '.' :: (f ++ '(' :: legacyGo fe me B.length (some '(') B)
    exact legacyGo_keep_dotcall fe me f B none hfe hf
  | cons c ns' =>
    have hnone : matchCallAt fe (c :: (ns' ++ ('.' :: (f ++ '(' :: B)))) = none := by
      have h0 := @matchCallAt_none_worddot fe (c :: ns') (f ++ '(' :: B) hfe hns
      simpa using h0
    show legacyGo fe me ((ns' ++ ('.' :: (f ++ '(' :: B))).length + 1) none
        (c :: (ns' ++ ('.' :: (f ++ '(' :: B)))) =
      c :: (ns' ++ ('.' :: (f ++ '(' :: legacyGo fe me B.length (some '(') B)))
    rw [legacyGo_step_nomatch fe me ((ns' ++ ('.' :: (f ++ '(' :: B))).length) none c
      (ns' ++ ('.' :: (f ++ '(' :: B))) hnone]
    congr 1
    have hca : allowedAt (some c) = false := by
      simp [allowedAt, hns c (List.mem_cons_self c ns')]
    rcases legacyGo_run_blocked ns' fe me (('.' :: (f ++ '(' :: B)).length) c
        ('.' :: (f ++ '(' :: B)) hca (fun d hd => hns d (List.mem_cons_of_mem c hd))
      with ⟨q, hq, hgo⟩
    rw [List.length_append, hgo]
    congr 1
    exact legacyGo_keep_dotcall fe me f B (some q) hfe hf

/-- A pass for a different function name leaves a leading bare occurrence
`f ++ "(" ++ B` in place (the scanner walks through it without matching). -/
theorem legacyReplace_keep_bare (fe me f B : List Char)
    (hfe : ∀ c ∈ fe, isWordChar c) (hf : ∀ c ∈ f, isWordChar c)
    (hne : fe ≠ f) :
    legacyReplace fe me (f ++ '(' :: B) =
      f ++ '(' :: legacyGo fe me B.length (some '(') B := by
  rw [legacyReplace]
  have hnone : matchCallAt fe (f ++ '(' :: B) = none :=
    matchCallAt_none_of_ne hfe hf hne B
  cases f with
  | nil =>
    show legacyGo fe me (B.length + 1) none ('(' :: B) =
      '(' :: legacyGo fe me B.length (some '(') B
    exact legacyGo_step_nomatch fe me B.length none '(' B hnone
  | cons c f' =>
    show legacyGo fe me ((f' ++ '(' :: B).length + 1) none (c :: (f' ++ '(' :: B)) =
      c :: (f' ++ '(' :: legacyGo fe me B.length (some '(') B)
    rw [legacyGo_step_nomatch fe me ((f' ++ '(' :: B).length) none c (f' ++ '(' :: B) hnone]
    congr 1
    have hca : allowedAt (some c) = false := by
      simp [allowedAt, hf c (List.mem_cons_self c f')]
    rcases legacyGo_run_blocked f' fe me (('(' :: B).length) c ('(' :: B) hca
        (fun d hd => hf d (List.mem_cons_of_mem c hd)) with ⟨q, hq, hgo⟩
    rw [List.length_append, hgo]
    congr 1
    exact legacyGo_step_blocked fe me B.length q '(' B hq

/-- The pass for the function name itself rewrites a leading bare
occurrence to the replacement text. -/
theorem legacyReplace_rewrites_head (f m B : List Char) :
    legacyReplace f m (f ++ '(' :: B) =
      m ++ legacyGo f m (f.length + B.length) (some '(') B := by
  rw [legacyReplace]
  have hlen : (f ++ '(' :: B).length = (f.length + B.length) + 1 := by
    rw [List.length_append]
    simp only [List.length_cons]
    omega
  rw [hlen]
  cases f with
  | nil =>
    exact legacyGo_step_match [] m (List.length ([] : List Char) + B.length) none '(' B B
      (by decide) (matchCallAt_self [] B)
  | cons c f' =>
    exact legacyGo_step_match (c :: f') m ((c :: f').length + B.length) none c
      (f' ++ '(' :: B) B (by decide) (matchCallAt_self (c :: f') B)

/-- Folding any list of word-shaped passes over a string with a leading
qualified call keeps the qualified call in place. -/
theorem fold_keep_qualified : ∀ (l : List (List Char × List Char)),
    (∀ e ∈ l, ∀ c ∈ removeFirstParen e.1, isWordChar c) →
    ∀ (ns f : List Char), (∀ c ∈ ns, isWordChar c) → (∀ c ∈ f, isWordChar c) →
    ∀ B, ∃ B',
      l.foldl (fun acc e => legacyReplace (removeFirstParen e.1) e.2 acc)
        (ns ++ ('.' :: (f ++ '(' :: B))) = ns ++ ('.' :: (f ++ '(' :: B'))
  | [], _, ns, f, _, _, B => ⟨B, rfl⟩
  | e :: l', hl, ns, f, hns, hf, B => by
    have hg : legacyReplace (removeFirstParen e.1) e.2 (ns ++ ('.' :: (f ++ '(' :: B))) =
        ns ++ ('.' :: (f ++ '(' ::
          legacyGo (removeFirstParen e.1) e.2 B.length (some '(') B)) :=
      legacyReplace_keep_qualified (removeFirstParen e.1) e.2 ns f B
        (hl e (List.mem_cons_self e l')) hns hf
    rw [List.foldl_cons, hg]
    exact fold_keep_qualified l' (fun e' he' => hl e' (List.mem_cons_of_mem e he'))
      ns f hns hf _

/-- Folding passes whose function names all differ from `f` over a string
with a leading bare occurrence of `f` keeps the occurrence in place. -/
theorem fold_keep_bare (f : List Char) (hf : ∀ c ∈ f, isWordChar c) :
    ∀ (l : List (List Char × List Char)),
    (∀ e ∈ l, (∀ c ∈ removeFirstParen e.1, isWordChar c) ∧ removeFirstParen e.1 ≠ f) →
    ∀ B, ∃ B',
      l.foldl (fun acc e => legacyReplace (removeFirstParen e.1) e.2 acc)
        (f ++ '(' :: B) = f ++ '(' :: B'
  | [], _, B => ⟨B, rfl⟩
  | e :: l', hl, B => by
    have hg : legacyReplace (removeFirstParen e.1) e.2 (f ++ '(' :: B) =
        f ++ '(' :: legacyGo (removeFirstParen e.1) e.2 B.length (some '(') B :=
      legacyReplace_keep_bare (removeFirstParen e.1) e.2 f B
        (hl e (List.mem_cons_self e l')).1 hf (hl e (List.mem_cons_self e l')).2
    rw [List.foldl_cons, hg]
    exact fold_keep_bare f hf l' (fun e' he' => hl e' (List.mem_cons_of_mem e he')) _

/-- Every dictionary entry has a word-shaped function name. -/
theorem legacyFnMap_words : ∀ e ∈ legacyFnMap,
    ∀ c ∈ removeFirstParen e.1, isWordChar c := by
  decide

/-- Every replacement text is a word-shaped namespace, a dot, the function
name and the opening parenthesis. -/
theorem legacyFnMap_shape : ∀ e ∈ legacyFnMap,
    e.2.takeWhile (fun c => !(c = '.')) ++ '.' :: removeFirstParen e.1 ++ ['('] = e.2 ∧
    ∀ c ∈ e.2.takeWhile (fun c => !(c = '.')), isWordChar c := by
  decide

/-- Distinct entries of the dictionary carry distinct function names. -/
theorem legacyFnMap_distinct :
    legacyFnMap.Pairwise (fun a b => removeFirstParen a.1 ≠ removeFirstParen b.1) := by
  decide

/-! ### Positional machinery: where can a call match land? -/

theorem getLast?_append_right : ∀ (l₁ l₂ : List Char), l₂ ≠ [] →
    (l₁ ++ l₂).getLast? = l₂.getLast?
  | [], _, _ => rfl
  | a :: l₁', l₂, h => by
    have ih := getLast?_append_right l₁' l₂ h
    have hne : l₁' ++ l₂ ≠ [] := by
      intro hc
      rcases List.append_eq_nil.mp hc with ⟨-, h2⟩
      exact h h2
    cases hx : l₁' ++ l₂ with
    | nil => exact absurd hx hne
    | cons y ys =>
      show ((a :: (l₁' ++ l₂)).getLast? : Option Char) = l₂.getLast?
      rw [hx, List.getLast?_cons_cons, ← hx, ih]

theorem mem_of_getLast?_eq : ∀ (l : List Char) (a : Char), l.getLast? = some a → a ∈ l
  | [], a, h => by simp at h
  | [x], a, h => by
    have hx : x = a := by simpa using h
    rw [← hx]
    exact List.mem_cons_self x []
  | x :: y :: l, a, h => by
    have h' : ((y :: l).getLast? : Option Char) = some a := by
      rw [← List.getLast?_cons_cons (a := x)]
      exact h
    exact List.mem_cons_of_mem x (mem_of_getLast?_eq (y :: l) a h')

theorem getLast?_none_nil : ∀ (l : List Char), l.getLast? = none → l = []
  | [], _ => rfl
  | [x], h => by simp at h
  | x :: y :: l, h => by
    rw [List.getLast?_cons_cons] at h
    exact absurd (getLast?_none_nil (y :: l) h) (by simp)

/-- No call match can start inside a word run that is followed by a
non-word, non-whitespace, non-parenthesis separator (generalizing the dot
case): the matched span contains no such character, so it would have to fit
inside the word run, but it ends in `'('`. -/
theorem matchCallAt_none_wordsep (x : Char) (hx1 : isWordChar x = false)
    (hx2 : isWsChar x = false) (hx3 : ¬ x = '(')
    {e w z : List Char} (he : ∀ c ∈ e, isWordChar c)
    (hw : ∀ c ∈ w, isWordChar c) :
    matchCallAt e (w ++ x :: z) = none := by
  cases h : matchCallAt e (w ++ x :: z) with
  | none => rfl
  | some r =>
    exfalso
    rcases matchCallAt_some_decomp h with ⟨ws, heq, hws⟩
    have heq' : (e ++ ws ++ ['(']) ++ r = w ++ x :: z := by
      rw [heq]
      simp
    have hnox : x ∉ e ++ ws ++ ['('] := by
      intro hmem
      rcases List.mem_append.mp hmem with hmem | hmem
      · rcases List.mem_append.mp hmem with hmem | hmem
        · have := he _ hmem
          rw [hx1] at this
          exact absurd this (by decide)
        · have := hws _ hmem
          rw [hx2] at this
          exact absurd this (by decide)
      · simp at hmem
        exact hx3 hmem
    rcases split_of_no_char x _ _ _ _ heq' hnox with ⟨w', hw', -⟩
    have hparen : '(' ∈ w := by
      rw [hw']
      simp
    have := hw _ hparen
    exact absurd this (by decide)

/-- A successful call match on `X ++ (t ++ "." ++ z)` (with `t` a word run)
lands entirely inside `X`: the remainder still carries the whole
`t ++ "." ++ z` block. -/
theorem matchCallAt_some_dotted_split {fe t : List Char}
    (hfe : ∀ c ∈ fe, isWordChar c) (ht : ∀ c ∈ t, isWordChar c)
    {X z rem : List Char}
    (h : matchCallAt fe (X ++ (t ++ ('.' :: z))) = some rem) :
    (∃ X₂, rem = X₂ ++ (t ++ ('.' :: z))) ∧
      rem.length + 1 ≤ (X ++ (t ++ ('.' :: z))).length := by
  rcases matchCallAt_some_decomp h with ⟨ws, heq, hws⟩
  have hlen : rem.length + 1 ≤ (X ++ (t ++ ('.' :: z))).length := by
    have hl := congrArg List.length heq
    simp [List.length_append] at hl ⊢
    omega
  refine ⟨?_, hlen⟩
  have heq' : ((fe ++ ws) ++ ['(']) ++ rem = (X ++ t) ++ '.' :: z := by
    calc ((fe ++ ws) ++ ['(']) ++ rem = fe ++ ws ++ '(' :: rem := by simp
    _ = X ++ (t ++ ('.' :: z)) := heq.symm
    _ = (X ++ t) ++ '.' :: z := by simp
  have hnodot : '.' ∉ (fe ++ ws) ++ ['('] := by
    intro hmem
    rcases List.mem_append.mp hmem with hmem | hmem
    · rcases List.mem_append.mp hmem with hmem | hmem
      · have := hfe _ hmem
        exact absurd this (by decide)
      · have := hws _ hmem
        exact absurd this (by decide)
    · simp at hmem
  rcases split_of_no_char '.' _ _ _ _ heq' hnodot with ⟨u, hu1, hu2⟩
  rcases List.append_eq_append_iff.mp hu1 with ⟨a', ha1, ha2⟩ | ⟨c', hc1, hc2⟩
  · cases a' with
    | nil =>
      refine ⟨[], ?_⟩
      have hu : u = t := by simpa using ha2.symm
      rw [hu2, hu]
      simp
    | cons d a'' =>
      exfalso
      have hP : ((((fe ++ ws) ++ ['(']) : List Char).getLast? : Option Char) = some '(' :=
        List.getLast?_concat _
      rw [ha1, getLast?_append_right X (d :: a'') (by simp)] at hP
      have h3 : '(' ∈ d :: a'' := mem_of_getLast?_eq _ _ hP
      have h4 : '(' ∈ t := by
        rw [ha2]
        exact List.mem_append_left _ h3
      have := ht _ h4
      exact absurd this (by decide)
  · refine ⟨c', ?_⟩
    rw [hu2, hc2]
    simp

/-- A successful call match on `Y ++ (f ++ "(" ++ B)` (nonempty word run
`f`, and `Y` ending in a boundary character that licenses a match at the
occurrence) lands entirely inside `Y`: the remainder still carries the
whole `f ++ "(" ++ B` block and still ends in a boundary character. -/
theorem matchCallAt_some_bare_split {fe f : List Char}
    (hfe : ∀ c ∈ fe, isWordChar c) (hf : ∀ c ∈ f, isWordChar c) (hf0 : f ≠ [])
    {Y B rem : List Char} (hY0 : Y ≠ []) (hlast : allowedAt Y.getLast? = true)
    (h : matchCallAt fe (Y ++ (f ++ '(' :: B)) = some rem) :
    (∃ Y₂, rem = Y₂ ++ (f ++ '(' :: B) ∧ allowedAt Y₂.getLast? = true) ∧
      rem.length + 1 ≤ (Y ++ (f ++ '(' :: B)).length := by
  rcases matchCallAt_some_decomp h with ⟨ws, heq, hws⟩
  have hlen : rem.length + 1 ≤ (Y ++ (f ++ '(' :: B)).length := by
    have hl := congrArg List.length heq
    simp [List.length_append] at hl ⊢
    omega
  refine ⟨?_, hlen⟩
  have heq' : Y ++ (f ++ '(' :: B) = (fe ++ ws) ++ ('(' :: rem) := by
    simpa using heq
  rcases List.append_eq_append_iff.mp heq' with ⟨a', ha1, ha2⟩ | ⟨c', hc1, hc2⟩
  · cases a' with
    | nil =>
      exfalso
      cases f with
      | nil => exact hf0 rfl
      | cons c₀ f₁ =>
        have hc0 : c₀ = '(' := by
          simpa using congrArg (fun l => l.head?) ha2
        have hw0 := hf c₀ (List.mem_cons_self _ _)
        rw [hc0] at hw0
        exact absurd hw0 (by decide)
    | cons xx a'' =>
      exfalso
      have hxxf : isWordChar xx = true := by
        cases f with
        | nil => exact absurd rfl hf0
        | cons c₀ f₁ =>
          have hcx : c₀ = xx := by
            simpa using congrArg (fun l => l.head?) ha2
          rw [← hcx]
          exact hf c₀ (List.mem_cons_self _ _)
      rcases List.append_eq_append_iff.mp ha1 with ⟨u, _, hu2⟩ | ⟨u, hu1, -⟩
      · have hxw : isWsChar xx = true :=
          hws xx (by rw [hu2]; exact List.mem_append_right _ (List.mem_cons_self _ _))
        rw [word_not_ws xx hxxf] at hxw
        exact absurd hxw (by decide)
      · cases hYl : Y.getLast? with
        | none => exact hY0 (getLast?_none_nil _ hYl)
        | some g =>
          have hg : g ∈ Y := mem_of_getLast?_eq _ _ hYl
          have hgfe : g ∈ fe := by
            rw [hu1]
            exact List.mem_append_left _ hg
          have hgw := hfe _ hgfe
          rw [hYl, allowedAt, hgw] at hlast
          simp at hlast
  · cases c' with
    | nil =>
      exfalso
      cases f with
      | nil => exact hf0 rfl
      | cons c₀ f₁ =>
        have hc0 : '(' = c₀ := by
          simpa using congrArg (fun l => l.head?) hc2
        have hw0 := hf c₀ (List.mem_cons_self _ _)
        rw [← hc0] at hw0
        exact absurd hw0 (by decide)
    | cons x₀ c'' =>
      have hrem : rem = c'' ++ (f ++ '(' :: B) := by
        simpa using congrArg (fun l => l.tail) hc2
      refine ⟨c'', hrem, ?_⟩
      cases hcc : c'' with
      | nil => decide
      | cons w₀ ws₀ =>
        have h1 : (Y.getLast? : Option Char) = c''.getLast? := by
          calc Y.getLast? = (((fe ++ ws) ++ (x₀ :: c'')) : List Char).getLast? := by rw [hc1]
          _ = ((x₀ :: c'') : List Char).getLast? :=
              getLast?_append_right _ _ (by simp)
          _ = c''.getLast? := by rw [hcc, List.getLast?_cons_cons]
        rw [← hcc, ← h1]
        exact hlast

/-- One scanner step that does not rewrite (either the guard blocks, or the
match fails). -/
theorem legacyGo_step_skip (fe me : List Char) (k : ℕ) (prev : Option Char)
    (c : Char) (rest : List Char)
    (h : allowedAt prev = false ∨ matchCallAt fe (c :: rest) = none) :
    legacyGo fe me (k + 1) prev (c :: rest) = c :: legacyGo fe me k (some c) rest := by
  rcases h with h | h
  · cases prev with
    | none => rw [allowedAt] at h; cases h
    | some p => exact legacyGo_step_blocked fe me k p c rest h
  · exact legacyGo_step_nomatch fe me k prev c rest h

/-- Traversing a qualified call `"." ++ f ++ "(" ++ B` with arbitrary spare
fuel. -/
theorem legacyGo_dotcall_k (fe me f B : List Char) (k : ℕ) (p : Option Char)
    (hfe : ∀ c ∈ fe, isWordChar c) (hf : ∀ c ∈ f, isWordChar c) :
    legacyGo fe me (f.length + k + 2) p ('.' :: (f ++ '(' :: B)) =
      '.' :: (f ++ '(' :: legacyGo fe me k (some '(') B) := by
  have hnone : matchCallAt fe ('.' :: (f ++ '(' :: B)) = none :=
    @matchCallAt_none_worddot fe [] (f ++ '(' :: B) hfe
      (fun c hc => absurd hc (List.not_mem_nil c))
  rw [show f.length + k + 2 = (f.length + k + 1) + 1 from by omega,
    legacyGo_step_nomatch fe me (f.length + k + 1) p '.' (f ++ '(' :: B) hnone]
  have hdot : allowedAt (some '.') = false := by decide
  congr 1
  cases f with
  | nil =>
    rw [show (([] : List Char)).length + k + 1 = k + 1 from by simp]
    exact legacyGo_step_blocked fe me k '.' '(' B hdot
  | cons c f' =>
    rw [show ((c :: f') : List Char).length + k + 1 = (f'.length + k + 1) + 1 from by
      simp only [List.length_cons]
      omega]
    show legacyGo fe me ((f'.length + k + 1) + 1) (some '.') (c :: (f' ++ '(' :: B)) =
      c :: (f' ++ '(' :: legacyGo fe me k (some '(') B)
    rw [legacyGo_step_blocked fe me (f'.length + k + 1) '.' c (f' ++ '(' :: B) hdot]
    congr 1
    have hca : allowedAt (some c) = false := by
      simp [allowedAt, hf c (List.mem_cons_self c f')]
    rcases legacyGo_run_blocked f' fe me (k + 1) c ('(' :: B) hca
        (fun d hd => hf d (List.mem_cons_of_mem c hd)) with ⟨q, hq, hgo⟩
    rw [show f'.length + k + 1 = f'.length + (k + 1) from by omega, hgo]
    congr 1
    exact legacyGo_step_blocked fe me k q '(' B hq

/-- Traversing a full qualified block `t ++ "." ++ f ++ "(" ++ B` (word
runs `t`, `f`): the whole block is emitted verbatim, for any pass with a
word-shaped function name. -/
theorem legacyGo_block (fe me t f B : List Char) (k : ℕ) (prev : Option Char)
    (hfe : ∀ c ∈ fe, isWordChar c) (ht : ∀ c ∈ t, isWordChar c)
    (hf : ∀ c ∈ f, isWordChar c) :
    legacyGo fe me (t.length + (f.length + k + 2)) prev
        (t ++ ('.' :: (f ++ '(' :: B))) =
      t ++ ('.' :: (f ++ '(' :: legacyGo fe me k (some '(') B)) := by
  cases t with
  | nil =>
    rw [show (([] : List Char)).length + (f.length + k + 2) = f.length + k + 2 from by simp]
    exact legacyGo_dotcall_k fe me f B k prev hfe hf
  | cons c t' =>
    have hnone : matchCallAt fe (c :: (t' ++ ('.' :: (f ++ '(' :: B)))) = none := by
      have h0 := @matchCallAt_none_worddot fe (c :: t') (f ++ '(' :: B) hfe ht
      simpa using h0
    rw [show ((c :: t') : List Char).length + (f.length + k + 2) =
        (t'.length + (f.length + k + 2)) + 1 from by
      simp only [List.length_cons]
      omega]
    show legacyGo fe me ((t'.length + (f.length + k + 2)) + 1) prev
        (c :: (t' ++ ('.' :: (f ++ '(' :: B)))) =
      c :: (t' ++ ('.' :: (f ++ '(' :: legacyGo fe me k (some '(') B)))
    rw [legacyGo_step_nomatch fe me (t'.length + (f.length + k + 2)) prev c
      (t' ++ ('.' :: (f ++ '(' :: B))) hnone]
    congr 1
    have hca : allowedAt (some c) = false := by
      simp [allowedAt, ht c (List.mem_cons_self c t')]
    rcases legacyGo_run_blocked t' fe me (f.length + k + 2) c
        ('.' :: (f ++ '(' :: B)) hca
        (fun d hd => ht d (List.mem_cons_of_mem c hd)) with ⟨q, hq, hgo⟩
    rw [hgo]
    congr 1
    exact legacyGo_dotcall_k fe me f B k (some q) hfe hf

/-- Traversing a bare occurrence `f ++ "(" ++ B` for a pass whose function
name differs from `f`: the occurrence is emitted verbatim. -/
theorem legacyGo_bare_block (fe me f B : List Char) (k : ℕ) (prev : Option Char)
    (hfe : ∀ c ∈ fe, isWordChar c) (hf : ∀ c ∈ f, isWordChar c) (hne : fe ≠ f) :
    legacyGo fe me (f.length + k + 1) prev (f ++ '(' :: B) =
      f ++ '(' :: legacyGo fe me k (some '(') B := by
  have hnone : matchCallAt fe (f ++ '(' :: B) = none :=
    matchCallAt_none_of_ne hfe hf hne B
  cases f with
  | nil =>
    rw [show (([] : List Char)).length + k + 1 = k + 1 from by simp]
    exact legacyGo_step_nomatch fe me k prev '(' B hnone
  | cons c f' =>
    rw [show ((c :: f') : List Char).length + k + 1 = (f'.length + k + 1) + 1 from by
      simp only [List.length_cons]
      omega]
    show legacyGo fe me ((f'.length + k + 1) + 1) prev (c :: (f' ++ '(' :: B)) =
      c :: (f' ++ '(' :: legacyGo fe me k (some '(') B)
    rw [legacyGo_step_nomatch fe me (f'.length + k + 1) prev c (f' ++ '(' :: B) hnone]
    congr 1
    have hca : allowedAt (some c) = false := by
      simp [allowedAt, hf c (List.mem_cons_self c f')]
    rcases legacyGo_run_blocked f' fe me (k + 1) c ('(' :: B) hca
        (fun d hd => hf d (List.mem_cons_of_mem c hd)) with ⟨q, hq, hgo⟩
    rw [show f'.length + k + 1 = f'.length + (k + 1) from by omega, hgo]
    congr 1
    exact legacyGo_step_blocked fe me k q '(' B hq

/-- A single legacy pass preserves a qualified block anywhere in its input:
the scanner may rewrite other occurrences, but the block itself survives. -/
theorem legacyGo_walk_dotted : ∀ (fuel : ℕ) (fe me t f : List Char)
    (prev : Option Char) (X B : List Char),
    (∀ c ∈ fe, isWordChar c) → (∀ c ∈ t, isWordChar c) → (∀ c ∈ f, isWordChar c) →
    (X ++ (t ++ ('.' :: (f ++ '(' :: B)))).length ≤ fuel →
    ∃ X' B', legacyGo fe me fuel prev (X ++ (t ++ ('.' :: (f ++ '(' :: B)))) =
      X' ++ (t ++ ('.' :: (f ++ '(' :: B')))
  | 0, fe, me, t, f, prev, X, B, _, _, _, hlen => by
    exfalso
    have h2 : X ++ (t ++ ('.' :: (f ++ '(' :: B))) ≠ [] := by
      intro hc
      rcases List.append_eq_nil.mp hc with ⟨-, h3⟩
      rcases List.append_eq_nil.mp h3 with ⟨-, h4⟩
      cases h4
    exact h2 (List.length_eq_zero.mp (Nat.le_zero.mp hlen))
  | fuel + 1, fe, me, t, f, prev, X, B, hfe, ht, hf, hlen => by
    cases X with
    | nil =>
      obtain ⟨k, hk⟩ : ∃ k, fuel + 1 = t.length + (f.length + k + 2) :=
        ⟨fuel + 1 - (t.length + (f.length + 2)), by
          simp [List.length_append, List.length_cons] at hlen
          omega⟩
      refine ⟨[], legacyGo fe me k (some '(') B, ?_⟩
      rw [hk]
      exact legacyGo_block fe me t f B k prev hfe ht hf
    | cons c X₁ =>
      cases hmm : (if allowedAt prev then
          matchCallAt fe (c :: (X₁ ++ (t ++ ('.' :: (f ++ '(' :: B))))) else none) with
      | none =>
        have hstep : legacyGo fe me (fuel + 1) prev
            ((c :: X₁) ++ (t ++ ('.' :: (f ++ '(' :: B)))) =
            c :: legacyGo fe me fuel (some c) (X₁ ++ (t ++ ('.' :: (f ++ '(' :: B)))) := by
          simp [legacyGo, hmm]
        rcases legacyGo_walk_dotted fuel fe me t f (some c) X₁ B hfe ht hf (by
            simp [List.length_append, List.length_cons] at hlen ⊢
            omega) with ⟨X', B', hX⟩
        refine ⟨c :: X', B', ?_⟩
        rw [hstep, hX]
        rfl
      | some rem =>
        have hall : allowedAt prev = true := by
          cases hq : allowedAt prev with
          | true => rfl
          | false => rw [hq] at hmm; simp at hmm
        rw [hall] at hmm
        have hm : matchCallAt fe (c :: (X₁ ++ (t ++ ('.' :: (f ++ '(' :: B))))) =
            some rem := by simpa using hmm
        have hstep : legacyGo fe me (fuel + 1) prev
            ((c :: X₁) ++ (t ++ ('.' :: (f ++ '(' :: B)))) =
            me ++ legacyGo fe me fuel (some '(') rem := by
          simp [legacyGo, hall, hm]
        have hm' : matchCallAt fe ((c :: X₁) ++ (t ++ ('.' :: (f ++ '(' :: B)))) =
            some rem := hm
        rcases @matchCallAt_some_dotted_split fe t hfe ht (c :: X₁) (f ++ '(' :: B)
            rem hm' with ⟨⟨X₂, hX₂⟩, hlen₂⟩
        rcases legacyGo_walk_dotted fuel fe me t f (some '(') X₂ B hfe ht hf (by
            rw [← hX₂]
            omega) with ⟨X', B', hX⟩
        refine ⟨me ++ X', B', ?_⟩
        rw [hstep, hX₂, hX]
        simp

/-- A single legacy pass for a *different* function name preserves a bare
occurrence `f ++ "(" ++ _` whose left context licenses a word
boundary/lookbehind, and the rewritten left context again licenses one. -/
theorem legacyGo_walk_bare : ∀ (fuel : ℕ) (fe me f : List Char)
    (prev : Option Char) (Y B : List Char),
    (∀ c ∈ fe, isWordChar c) → (∀ c ∈ f, isWordChar c) → f ≠ [] → fe ≠ f →
    me ≠ [] → allowedAt me.getLast? = true →
    allowedAt Y.getLast? = true →
    (Y ++ (f ++ '(' :: B)).length ≤ fuel →
    ∃ Y' B', legacyGo fe me fuel prev (Y ++ (f ++ '(' :: B)) = Y' ++ (f ++ '(' :: B') ∧
      allowedAt Y'.getLast? = true ∧ (Y' = [] → Y = [])
  | 0, fe, me, f, prev, Y, B, _, _, _, _, _, _, _, hlen => by
    exfalso
    have h2 : Y ++ (f ++ '(' :: B) ≠ [] := by
      intro hc
      rcases List.append_eq_nil.mp hc with ⟨-, h3⟩
      rcases List.append_eq_nil.mp h3 with ⟨-, h4⟩
      cases h4
    exact h2 (List.length_eq_zero.mp (Nat.le_zero.mp hlen))
  | fuel + 1, fe, me, f, prev, Y, B, hfe, hf, hf0, hne, hme0, hmeL, hYl, hlen => by
    cases Y with
    | nil =>
      obtain ⟨k, hk⟩ : ∃ k, fuel + 1 = f.length + k + 1 :=
        ⟨fuel + 1 - (f.length + 1), by
          simp [List.length_append, List.length_cons] at hlen
          omega⟩
      refine ⟨[], legacyGo fe me k (some '(') B, ?_, by decide, fun _ => rfl⟩
      rw [hk]
      exact legacyGo_bare_block fe me f B k prev hfe hf hne
    | cons c Y₁ =>
      have hY₁l : allowedAt Y₁.getLast? = true := by
        cases hY1 : Y₁ with
        | nil => decide
        | cons d Y₂ =>
          rw [← hY1]
          have hcc : (((c :: Y₁) : List Char).getLast? : Option Char) = Y₁.getLast? := by
            rw [hY1, List.getLast?_cons_cons]
          rw [← hcc]
          exact hYl
      cases hmm : (if allowedAt prev then
          matchCallAt fe (c :: (Y₁ ++ (f ++ '(' :: B))) else none) with
      | none =>
        have hstep : legacyGo fe me (fuel + 1) prev ((c :: Y₁) ++ (f ++ '(' :: B)) =
            c :: legacyGo fe me fuel (some c) (Y₁ ++ (f ++ '(' :: B)) := by
          simp [legacyGo, hmm]
        rcases legacyGo_walk_bare fuel fe me f (some c) Y₁ B hfe hf hf0 hne hme0 hmeL
            hY₁l (by
              simp [List.length_append, List.length_cons] at hlen ⊢
              omega) with ⟨Y', B', hY, hY'l, hY'0⟩
        refine ⟨c :: Y', B', ?_, ?_, fun h => absurd h (by simp)⟩
        · rw [hstep, hY]
          rfl
        · cases hY'c : Y' with
          | nil =>
            have hY₁nil : Y₁ = [] := hY'0 hY'c
            rw [hY₁nil] at hYl
            exact hYl
          | cons d Y₂ =>
            rw [List.getLast?_cons_cons, ← hY'c]
            exact hY'l
      | some rem =>
        have hall : allowedAt prev = true := by
          cases hq : allowedAt prev with
          | true => rfl
          | false => rw [hq] at hmm; simp at hmm
        rw [hall] at hmm
        have hm : matchCallAt fe (c :: (Y₁ ++ (f ++ '(' :: B))) = some rem := by
          simpa using hmm
        have hstep : legacyGo fe me (fuel + 1) prev ((c :: Y₁) ++ (f ++ '(' :: B)) =
            me ++ legacyGo fe me fuel (some '(') rem := by
          simp [legacyGo, hall, hm]
        have hm' : matchCallAt fe ((c :: Y₁) ++ (f ++ '(' :: B)) = some rem := hm
        rcases @matchCallAt_some_bare_split fe f hfe hf hf0 (c :: Y₁) B rem
            (by simp) hYl hm' with ⟨⟨Y₂, hY₂, hY₂l⟩, hlen₂⟩
        rcases legacyGo_walk_bare fuel fe me f (some '(') Y₂ B hfe hf hf0 hne hme0 hmeL
            hY₂l (by
              rw [← hY₂]
              omega) with ⟨Y', B', hY, hY'l, hY'0⟩
        refine ⟨me ++ Y', B', ?_, ?_, ?_⟩
        · rw [hstep, hY₂, hY]
          simp
        · cases hY'c : Y' with
          | nil =>
            rw [List.append_nil]
            exact hmeL
          | cons d Y₂' =>
            rw [getLast?_append_right me (d :: Y₂') (by simp), ← hY'c]
            exact hY'l
        · intro hc
          exfalso
          rcases List.append_eq_nil.mp hc with ⟨h1, -⟩
          exact hme0 h1

/-- The pass for the function name itself rewrites a bare occurrence at any
position whose left context licenses a word boundary/lookbehind. -/
theorem legacyGo_walk_rewrite : ∀ (fuel : ℕ) (f m : List Char)
    (prev : Option Char) (Y C : List Char),
    (∀ c ∈ f, isWordChar c) → f ≠ [] →
    allowedAt Y.getLast? = true → (Y = [] → allowedAt prev = true) →
    (Y ++ (f ++ '(' :: C)).length ≤ fuel →
    ∃ Y' C', legacyGo f m fuel prev (Y ++ (f ++ '(' :: C)) = Y' ++ (m ++ C')
  | 0, f, m, prev, Y, C, _, _, _, _, hlen => by
    exfalso
    have h2 : Y ++ (f ++ '(' :: C) ≠ [] := by
      intro hc
      rcases List.append_eq_nil.mp hc with ⟨-, h3⟩
      rcases List.append_eq_nil.mp h3 with ⟨-, h4⟩
      cases h4
    exact h2 (List.length_eq_zero.mp (Nat.le_zero.mp hlen))
  | fuel + 1, f, m, prev, Y, C, hf, hf0, hYl, hprev, hlen => by
    cases Y with
    | nil =>
      have hall : allowedAt prev = true := hprev rfl
      cases f with
      | nil => exact absurd rfl hf0
      | cons c f' =>
        have hm2 : matchCallAt (c :: f') (c :: (f' ++ '(' :: C)) = some C :=
          matchCallAt_self (c :: f') C
        have hstep : legacyGo (c :: f') m (fuel + 1) prev
            ([] ++ ((c :: f') ++ '(' :: C)) =
            m ++ legacyGo (c :: f') m fuel (some '(') C := by
          simp [legacyGo, hall, hm2]
        refine ⟨[], legacyGo (c :: f') m fuel (some '(') C, ?_⟩
        rw [hstep]
        rfl
    | cons c Y₁ =>
      have hY₁l : allowedAt Y₁.getLast? = true := by
        cases hY1 : Y₁ with
        | nil => decide
        | cons d Y₂ =>
          rw [← hY1]
          have hcc : (((c :: Y₁) : List Char).getLast? : Option Char) = Y₁.getLast? := by
            rw [hY1, List.getLast?_cons_cons]
          rw [← hcc]
          exact hYl
      cases hmm : (if allowedAt prev then
          matchCallAt f (c :: (Y₁ ++ (f ++ '(' :: C))) else none) with
      | none =>
        have hstep : legacyGo f m (fuel + 1) prev ((c :: Y₁) ++ (f ++ '(' :: C)) =
            c :: legacyGo f m fuel (some c) (Y₁ ++ (f ++ '(' :: C)) := by
          simp [legacyGo, hmm]
        have hprev₁ : Y₁ = [] → allowedAt (some c) = true := by
          intro h1
          rw [h1] at hYl
          exact hYl
        rcases legacyGo_walk_rewrite fuel f m (some c) Y₁ C hf hf0 hY₁l hprev₁ (by
            simp [List.length_append, List.length_cons] at hlen ⊢
            omega) with ⟨Y', C', hY⟩
        refine ⟨c :: Y', C', ?_⟩
        rw [hstep, hY]
        rfl
      | some rem =>
        have hall : allowedAt prev = true := by
          cases hq : allowedAt prev with
          | true => rfl
          | false => rw [hq] at hmm; simp at hmm
        rw [hall] at hmm
        have hm : matchCallAt f (c :: (Y₁ ++ (f ++ '(' :: C))) = some rem := by
          simpa using hmm
        have hstep : legacyGo f m (fuel + 1) prev ((c :: Y₁) ++ (f ++ '(' :: C)) =
            m ++ legacyGo f m fuel (some '(') rem := by
          simp [legacyGo, hall, hm]
        have hm' : matchCallAt f ((c :: Y₁) ++ (f ++ '(' :: C)) = some rem := hm
        rcases @matchCallAt_some_bare_split f f hf hf hf0 (c :: Y₁) C rem
            (by simp) hYl hm' with ⟨⟨Y₂, hY₂, hY₂l⟩, hlen₂⟩
        rcases legacyGo_walk_rewrite fuel f m (some '(') Y₂ C hf hf0 hY₂l
            (fun _ => by decide) (by
              rw [← hY₂]
              omega) with ⟨Y', C', hY⟩
        refine ⟨m ++ Y', C', ?_⟩
        rw [hstep, hY₂, hY]
        simp

/-- Extra decidable facts about the dictionary entries: nonempty names,
no name is the digit run `6`, and every replacement is nonempty and ends in
a boundary character. -/
theorem legacyFnMap_names : ∀ e ∈ legacyFnMap,
    removeFirstParen e.1 ≠ [] ∧ removeFirstParen e.1 ≠ cs "6" ∧
    e.2 ≠ [] ∧ allowedAt e.2.getLast? = true := by
  decide

/-- Folding any list of word-shaped passes preserves a qualified block
anywhere in the string. -/
theorem fold_walk_dotted : ∀ (l : List (List Char × List Char)),
    (∀ e ∈ l, ∀ c ∈ removeFirstParen e.1, isWordChar c) →
    ∀ (t f : List Char), (∀ c ∈ t, isWordChar c) → (∀ c ∈ f, isWordChar c) →
    ∀ X B, ∃ X' B',
      l.foldl (fun acc e => legacyReplace (removeFirstParen e.1) e.2 acc)
        (X ++ (t ++ ('.' :: (f ++ '(' :: B)))) =
      X' ++ (t ++ ('.' :: (f ++ '(' :: B')))
  | [], _, t, f, _, _, X, B => ⟨X, B, rfl⟩
  | e :: l', hl, t, f, ht, hf, X, B => by
    rcases legacyGo_walk_dotted ((X ++ (t ++ ('.' :: (f ++ '(' :: B)))).length)
        (removeFirstParen e.1) e.2 t f none X B
        (hl e (List.mem_cons_self e l')) ht hf le_rfl with ⟨X₁, B₁, h₁⟩
    have hg : legacyReplace (removeFirstParen e.1) e.2
        (X ++ (t ++ ('.' :: (f ++ '(' :: B)))) =
        X₁ ++ (t ++ ('.' :: (f ++ '(' :: B₁))) := by
      rw [legacyReplace]
      exact h₁
    rw [List.foldl_cons, hg]
    exact fold_walk_dotted l' (fun e' he' => hl e' (List.mem_cons_of_mem e he'))
      t f ht hf X₁ B₁

/-- Folding passes whose names all differ from `f` preserves a bare
occurrence of `f` with a licensing left context, anywhere in the string. -/
theorem fold_walk_bare (f : List Char) (hf : ∀ c ∈ f, isWordChar c) (hf0 : f ≠ []) :
    ∀ (l : List (List Char × List Char)),
    (∀ e ∈ l, (∀ c ∈ removeFirstParen e.1, isWordChar c) ∧
      removeFirstParen e.1 ≠ f ∧ e.2 ≠ [] ∧ allowedAt e.2.getLast? = true) →
    ∀ Y B, allowedAt Y.getLast? = true → ∃ Y' B',
      l.foldl (fun acc e => legacyReplace (removeFirstParen e.1) e.2 acc)
        (Y ++ (f ++ '(' :: B)) = Y' ++ (f ++ '(' :: B') ∧
      allowedAt Y'.getLast? = true
  | [], _, Y, B, hY => ⟨Y, B, rfl, hY⟩
  | e :: l', hl, Y, B, hY => by
    rcases legacyGo_walk_bare ((Y ++ (f ++ '(' :: B)).length) (removeFirstParen e.1)
        e.2 f none Y B (hl e (List.mem_cons_self e l')).1 hf hf0
        (hl e (List.mem_cons_self e l')).2.1 (hl e (List.mem_cons_self e l')).2.2.1
        (hl e (List.mem_cons_self e l')).2.2.2 hY le_rfl with ⟨Y₁, B₁, h₁, hY₁, -⟩
    have hg : legacyReplace (removeFirstParen e.1) e.2 (Y ++ (f ++ '(' :: B)) =
        Y₁ ++ (f ++ '(' :: B₁) := by
      rw [legacyReplace]
      exact h₁
    rw [List.foldl_cons, hg]
    exact fold_walk_bare f hf hf0 l' (fun e' he' => hl e' (List.mem_cons_of_mem e he'))
      Y₁ B₁ hY₁

/-! ### The legacy passes never touch the canonical first line -/

/-- A pass with a nonempty word-shaped name never matches at a non-word
character. -/
theorem matchCallAt_none_nonword {fe : List Char} (hfe : ∀ c ∈ fe, isWordChar c)
    (hfe0 : fe ≠ []) {x : Char} (hx : isWordChar x = false) (z : List Char) :
    matchCallAt fe (x :: z) = none := by
  cases fe with
  | nil => exact absurd rfl hfe0
  | cons a fe' =>
    have haw : isWordChar a = true := hfe a (List.mem_cons_self a fe')
    have hax : ¬ a = x := by
      intro h
      rw [h, hx] at haw
      exact absurd haw (by decide)
    rw [matchCallAt, dropLit, if_neg hax]

/-- A pass other than one named exactly `6` never matches at the `6` of the
version directive. -/
theorem matchCallAt_none_at6 {fe : List Char} (hfe : ∀ c ∈ fe, isWordChar c)
    (hfe0 : fe ≠ []) (hfe6 : fe ≠ cs "6") (b : List Char) :
    matchCallAt fe (cs "6\n" ++ b) = none := by
  cases h : matchCallAt fe (cs "6\n" ++ b) with
  | none => rfl
  | some r =>
    exfalso
    rcases matchCallAt_some_decomp h with ⟨ws, heq, -⟩
    have heq2 : fe ++ (ws ++ '(' :: r) = ['6'] ++ '\n' :: b := by
      calc fe ++ (ws ++ '(' :: r) = fe ++ ws ++ '(' :: r := by simp
      _ = cs "6\n" ++ b := heq.symm
      _ = ['6'] ++ '\n' :: b := by
          rw [show cs "6\n" = ['6'] ++ ['\n'] from by decide]
          simp
    have hnl : '\n' ∉ fe := by
      intro hm
      have := hfe _ hm
      exact absurd this (by decide)
    rcases split_of_no_char '\n' fe ['6'] b (ws ++ '(' :: r) heq2 hnl with ⟨w', hw1, -⟩
    cases fe with
    | nil => exact hfe0 rfl
    | cons a fe' =>
      have ha : a = '6' := by
        simpa using (congrArg (fun l => l.head?) hw1).symm
      have htl : fe' ++ w' = [] := by
        simpa using (congrArg (fun l => l.tail) hw1).symm
      rcases List.append_eq_nil.mp htl with ⟨h1, -⟩
      apply hfe6
      rw [ha, h1]
      decide

/-- Scanning a prefix at none of whose positions a match can start emits it
verbatim. -/
theorem legacyGo_run_none (fe me : List Char) : ∀ (Q : List Char) (fuel : ℕ)
    (prev : Option Char) (rest : List Char),
    (∀ i, i < Q.length → matchCallAt fe (Q.drop i ++ rest) = none) →
    ∃ q, legacyGo fe me (Q.length + fuel) prev (Q ++ rest) =
      Q ++ legacyGo fe me fuel q rest
  | [], fuel, prev, _, _ => ⟨prev, by simp⟩
  | c :: Q', fuel, prev, rest, hQ => by
    have h0 : matchCallAt fe (c :: (Q' ++ rest)) = none := by
      have h1 := hQ 0 (by simp)
      simpa using h1
    rw [show ((c :: Q') : List Char).length + fuel = (Q'.length + fuel) + 1 from by
      simp only [List.length_cons]
      omega]
    have hstep : legacyGo fe me ((Q'.length + fuel) + 1) prev ((c :: Q') ++ rest) =
        c :: legacyGo fe me (Q'.length + fuel) (some c) (Q' ++ rest) :=
      legacyGo_step_skip fe me (Q'.length + fuel) prev c (Q' ++ rest) (Or.inr h0)
    rw [hstep]
    rcases legacyGo_run_none fe me Q' fuel (some c) rest (fun i hi => by
        have h2 := hQ (i + 1) (by simp only [List.length_cons]; omega)
        simpa using h2) with ⟨q, hq⟩
    exact ⟨q, by rw [hq]; rfl⟩

/-- Every legacy pass leaves the canonical `//@version=6` first line (and
its newline) untouched: no match can start at any of its positions. -/
theorem legacyReplace_keep_v6 (fe me b : List Char) (hfe : ∀ c ∈ fe, isWordChar c)
    (hfe0 : fe ≠ []) (hfe6 : fe ≠ cs "6") :
    ∃ b₁, legacyReplace fe me (cs "//@version=6\n" ++ b) =
      cs "//@version=6\n" ++ b₁ := by
  have hidx : ∀ i, i < (cs "//@version=6\n").length →
      matchCallAt fe ((cs "//@version=6\n").drop i ++ b) = none := by
    intro i hi
    rw [show (cs "//@version=6\n").length = 13 from by decide] at hi
    interval_cases i
    · rw [show (cs "//@version=6\n").drop 0 = '/' :: cs "/@version=6\n" from by decide]
      exact matchCallAt_none_nonword hfe hfe0 (by decide) _
    · rw [show (cs "//@version=6\n").drop 1 = '/' :: cs "@version=6\n" from by decide]
      exact matchCallAt_none_nonword hfe hfe0 (by decide) _
    · rw [show (cs "//@version=6\n").drop 2 = '@' :: cs "version=6\n" from by decide]
      exact matchCallAt_none_nonword hfe hfe0 (by decide) _
    · rw [show (cs "//@version=6\n").drop 3 = cs "version" ++ '=' :: cs "6\n" from by
        decide, List.append_assoc, List.cons_append]
      exact matchCallAt_none_wordsep '=' (by decide) (by decide) (by decide) hfe
        (by decide)
    · rw [show (cs "//@version=6\n").drop 4 = cs "ersion" ++ '=' :: cs "6\n" from by
        decide, List.append_assoc, List.cons_append]
      exact matchCallAt_none_wordsep '=' (by decide) (by decide) (by decide) hfe
        (by decide)
    · rw [show (cs "//@version=6\n").drop 5 = cs "rsion" ++ '=' :: cs "6\n" from by
        decide, List.append_assoc, List.cons_append]
      exact matchCallAt_none_wordsep '=' (by decide) (by decide) (by decide) hfe
        (by decide)
    · rw [show (cs "//@version=6\n").drop 6 = cs "sion" ++ '=' :: cs "6\n" from by
        decide, List.append_assoc, List.cons_append]
      exact matchCallAt_none_wordsep '=' (by decide) (by decide) (by decide) hfe
        (by decide)
    · rw [show (cs "//@version=6\n").drop 7 = cs "ion" ++ '=' :: cs "6\n" from by
        decide, List.append_assoc, List.cons_append]
      exact matchCallAt_none_wordsep '=' (by decide) (by decide) (by decide) hfe
        (by decide)
    · rw [show (cs "//@version=6\n").drop 8 = cs "on" ++ '=' :: cs "6\n" from by
        decide, List.append_assoc, List.cons_append]
      exact matchCallAt_none_wordsep '=' (by decide) (by decide) (by decide) hfe
        (by decide)
    · rw [show (cs "//@version=6\n").drop 9 = cs "n" ++ '=' :: cs "6\n" from by
        decide, List.append_assoc, List.cons_append]
      exact matchCallAt_none_wordsep '=' (by decide) (by decide) (by decide) hfe
        (by decide)
    · rw [show (cs "//@version=6\n").drop 10 = '=' :: cs "6\n" from by decide]
      exact matchCallAt_none_nonword hfe hfe0 (by decide) _
    · rw [show (cs "//@version=6\n").drop 11 = cs "6\n" from by decide]
      exact matchCallAt_none_at6 hfe hfe0 hfe6 b
    · rw [show (cs "//@version=6\n").drop 12 = '\n' :: ([] : List Char) from by decide]
      exact matchCallAt_none_nonword hfe hfe0 (by decide) _
  rcases legacyGo_run_none fe me (cs "//@version=6\n") b.length none b hidx
    with ⟨q, hq⟩
  refine ⟨legacyGo fe me b.length q b, ?_⟩
  rw [legacyReplace, List.length_append]
  exact hq

/-- All legacy passes together leave the canonical first line in place. -/
theorem fold_keep_v6 : ∀ (l : List (List Char × List Char)),
    (∀ e ∈ l, (∀ c ∈ removeFirstParen e.1, isWordChar c) ∧
      removeFirstParen e.1 ≠ [] ∧ removeFirstParen e.1 ≠ cs "6") →
    ∀ b, ∃ b₁,
      l.foldl (fun acc e => legacyReplace (removeFirstParen e.1) e.2 acc)
        (cs "//@version=6\n" ++ b) = cs "//@version=6\n" ++ b₁
  | [], _, b => ⟨b, rfl⟩
  | e :: l', hl, b => by
    rcases legacyReplace_keep_v6 (removeFirstParen e.1) e.2 b
        (hl e (List.mem_cons_self e l')).1 (hl e (List.mem_cons_self e l')).2.1
        (hl e (List.mem_cons_self e l')).2.2 with ⟨b₁, hb₁⟩
    rw [List.foldl_cons, hb₁]
    exact fold_keep_v6 l' (fun e' he' => hl e' (List.mem_cons_of_mem e he')) b₁

/-! ### Claim C5 -/

/-- C5 (counterexample): `validateAndFixPineScript` does NOT always leave an
already-qualified call unchanged: the defensive version-line dedup can
delete the entire line holding it.  Here both lines pass the strict
`//@version` prefix test, so the rebuild keeps neither, and the qualified
call `ta.sma(` disappears from the output. -/
theorem C5_counterexample :
    containsSub (cs "//@version=6\n//@version=5 ta.sma(close)") (cs "ta.sma(") = true ∧
    validateAndFixPineScript (cs "//@version=6\n//@version=5 ta.sma(close)") =
      cs "//@version=6\n" ∧
    containsSub (validateAndFixPineScript
      (cs "//@version=6\n//@version=5 ta.sma(close)")) (cs "ta.sma(") = false := by
  have h1 : validateAndFixPineScript (cs "//@version=6\n//@version=5 ta.sma(close)") =
      cs "//@version=6\n" := by decide
  refine ⟨by decide, h1, ?_⟩
  rw [h1]
  decide

/-- C5 (amended): the claimed behaviour is that of the legacy-call rewrite
passes (step 1 of `validateAndFixPineScript`), for occurrences ANYWHERE in
the code body.  For every dictionary entry `(p, m)` with bare name
`f = removeFirstParen p`: an occurrence of `f(` immediately preceded by a
dot — any left context `D` before the dot — is left in place by all
passes, while an occurrence of `f(` whose left context `A` ends in a
non-word, non-dot character (the word boundary plus the `(?<!\.)`
lookbehind; `A = []` included) is rewritten to the namespaced replacement
`m`.  (At the level of the whole `validateAndFixPineScript` the "left
unchanged" half fails: the version dedup can delete a line containing a
qualified call — see the counterexample.) -/
theorem C5_legacy_calls (p m : List Char) (hmem : (p, m) ∈ legacyFnMap)
    (D A B C : List Char) (hA : allowedAt A.getLast? = true) :
    (∃ D' B', applyLegacyFixes (D ++ ('.' :: (removeFirstParen p ++ '(' :: B))) =
      D' ++ ('.' :: (removeFirstParen p ++ '(' :: B'))) ∧
    (∃ A' C', applyLegacyFixes (A ++ (removeFirstParen p ++ '(' :: C)) =
      A' ++ (m ++ C')) := by
  have hfw : ∀ c ∈ removeFirstParen p, isWordChar c := legacyFnMap_words (p, m) hmem
  have hf0 : removeFirstParen p ≠ [] := (legacyFnMap_names (p, m) hmem).1
  constructor
  · rcases fold_walk_dotted legacyFnMap legacyFnMap_words [] (removeFirstParen p)
        (fun c hc => absurd hc (List.not_mem_nil c)) hfw D B with ⟨D', B', hDB⟩
    exact ⟨D', B', hDB⟩
  · rcases List.append_of_mem hmem with ⟨pre, post, hsplit⟩
    have hdist := legacyFnMap_distinct
    rw [hsplit] at hdist
    have hprew : ∀ e ∈ pre, (∀ c ∈ removeFirstParen e.1, isWordChar c) ∧
        removeFirstParen e.1 ≠ removeFirstParen p ∧ e.2 ≠ [] ∧
        allowedAt e.2.getLast? = true := by
      intro e he
      have hm1 : e ∈ legacyFnMap := by
        rw [hsplit]
        exact List.mem_append_left _ he
      refine ⟨legacyFnMap_words e hm1, ?_, (legacyFnMap_names e hm1).2.2.1,
        (legacyFnMap_names e hm1).2.2.2⟩
      exact (List.pairwise_append.mp hdist).2.2 e he (p, m) (List.mem_cons_self _ _)
    rcases fold_walk_bare (removeFirstParen p) hfw hf0 pre hprew A C hA
      with ⟨A₁, C₁, hC₁, hA₁⟩
    rcases legacyGo_walk_rewrite ((A₁ ++ (removeFirstParen p ++ '(' :: C₁)).length)
        (removeFirstParen p) m none A₁ C₁ hfw hf0 hA₁ (fun _ => rfl) le_rfl
      with ⟨A₂, C₂, hA₂⟩
    have hg2 : legacyReplace (removeFirstParen (p, m).1) (p, m).2
        (A₁ ++ (removeFirstParen p ++ '(' :: C₁)) = A₂ ++ (m ++ C₂) := by
      rw [legacyReplace]
      exact hA₂
    obtain ⟨t, htw, htm⟩ : ∃ t, (∀ c ∈ t, isWordChar c) ∧
        t ++ '.' :: removeFirstParen p ++ ['('] = m :=
      ⟨m.takeWhile (fun c => !(c = '.')), (legacyFnMap_shape (p, m) hmem).2,
        (legacyFnMap_shape (p, m) hmem).1⟩
    have hmX : ∀ (E : List Char),
        m ++ E = t ++ ('.' :: (removeFirstParen p ++ '(' :: E)) := by
      intro E
      rw [← htm]
      simp
    have hpostw : ∀ e ∈ post, ∀ c ∈ removeFirstParen e.1, isWordChar c := by
      intro e he
      exact legacyFnMap_words e
        (by rw [hsplit]; exact List.mem_append_right _ (List.mem_cons_of_mem _ he))
    rcases fold_walk_dotted post hpostw t (removeFirstParen p) htw hfw A₂ C₂
      with ⟨A₃, C₃, hpost⟩
    refine ⟨A₃, C₃, ?_⟩
    show legacyFnMap.foldl (fun acc e => legacyReplace (removeFirstParen e.1) e.2 acc)
        (A ++ (removeFirstParen p ++ '(' :: C)) = A₃ ++ (m ++ C₃)
    rw [hsplit, List.foldl_append, hC₁, List.foldl_cons, hg2,
      show A₂ ++ (m ++ C₂) = A₂ ++ (t ++ ('.' :: (removeFirstParen p ++ '(' :: C₂)))
        from by rw [hmX C₂],
      hpost, hmX C₃]

/-- C5 (witness): the amended theorem at the `sma` entry on concrete input —
the qualified call inside `x = ta.sma(close)` is kept, while the bare call
inside `plot(sma(close))` becomes `ta.sma(`. -/
theorem C5_legacy_calls_witness :
    ((cs "sma(", cs "ta.sma(") ∈ legacyFnMap) ∧
    allowedAt (cs "plot(").getLast? = true ∧
    ((∃ D' B', applyLegacyFixes
        (cs "x = ta" ++ ('.' :: (removeFirstParen (cs "sma(") ++ '(' :: cs "close)"))) =
      D' ++ ('.' :: (removeFirstParen (cs "sma(") ++ '(' :: B'))) ∧
     (∃ A' C', applyLegacyFixes
        (cs "plot(" ++ (removeFirstParen (cs "sma(") ++ '(' :: cs "close))")) =
      A' ++ (cs "ta.sma(" ++ C'))) :=
  ⟨by decide, by decide, C5_legacy_calls (cs "sma(") (cs "ta.sma(") (by decide)
    (cs "x = ta") (cs "plot(") (cs "close)") (cs "close))") (by decide)⟩

/-! ### Claim C3 (amended) -/

/-- `validateAndFixPineScript` decomposed into its three sequential passes. -/
theorem validateAndFix_decomp (code : List Char) :
    validateAndFixPineScript code =
      colorFixAll (dedupVersionLines (applyLegacyFixes code)) := rfl

/-- `splitNl` splits at the first newline. -/
theorem splitNl_append_nl : ∀ (u v : List Char), '\n' ∉ u →
    splitNl (u ++ '\n' :: v) = u :: splitNl v
  | [], v, _ => by simp [splitNl]
  | c :: u', v, hu => by
    have hc : ¬ c = '\n' := fun h => hu (h ▸ List.mem_cons_self c u')
    have ih := splitNl_append_nl u' v (fun h => hu (List.mem_cons_of_mem c h))
    simp [splitNl, List.cons_append, ih, hc]

/-- Lines produced by `splitNl` contain no newline. -/
theorem splitNl_no_nl : ∀ (s : List Char), ∀ l ∈ splitNl s, '\n' ∉ l
  | [], l, hl => by
    have hl' : l ∈ [([] : List Char)] := hl
    have hleq : l = [] := by simpa using hl'
    subst hleq
    simp
  | c :: rest, l, hl => by
    have hl' : l ∈ (if c = '\n' then [] :: splitNl rest
        else match splitNl rest with
          | [] => [[c]]
          | l₀ :: ls => (c :: l₀) :: ls) := hl
    by_cases hc : c = '\n'
    · rw [if_pos hc] at hl'
      rcases List.mem_cons.mp hl' with h | h
      · subst h
        simp
      · exact splitNl_no_nl rest l h
    · rw [if_neg hc] at hl'
      cases hr : splitNl rest with
      | nil =>
        rw [hr] at hl'
        have hl2 : l ∈ [[c]] := hl'
        have hlc : l = [c] := by simpa using hl2
        subst hlc
        intro hmem
        have hnc : '\n' = c := by simpa using hmem
        exact hc hnc.symm
      | cons l₀ ls =>
        rw [hr] at hl'
        have hl2 : l ∈ (c :: l₀) :: ls := hl'
        rcases List.mem_cons.mp hl2 with h | h
        · subst h
          intro hmem
          rcases List.mem_cons.mp hmem with h2 | h2
          · exact hc h2.symm
          · exact splitNl_no_nl rest l₀
              (by rw [hr]; exact List.mem_cons_self l₀ ls) h2
        · exact splitNl_no_nl rest l (by rw [hr]; exact List.mem_cons_of_mem l₀ h)

/-- `splitNl` of a newline-free string. -/
theorem splitNl_of_no_nl : ∀ (l : List Char), '\n' ∉ l → splitNl l = [l]
  | [], _ => rfl
  | c :: l', h => by
    have hc : ¬ c = '\n' := fun hh => h (hh ▸ List.mem_cons_self c l')
    have ih := splitNl_of_no_nl l' (fun hh => h (List.mem_cons_of_mem c hh))
    simp [splitNl, ih, hc]

/-- `splitNl` undoes `joinNl` on nonempty lists of newline-free lines. -/
theorem splitNl_joinNl : ∀ (L : List (List Char)), (∀ l ∈ L, '\n' ∉ l) → L ≠ [] →
    splitNl (joinNl L) = L
  | [], _, hne => absurd rfl hne
  | [l], hL, _ => by
    show splitNl l = [l]
    exact splitNl_of_no_nl l (hL l (List.mem_cons_self l []))
  | l :: l₁ :: ls, hL, _ => by
    have h1 : joinNl (l :: l₁ :: ls) = l ++ '\n' :: joinNl (l₁ :: ls) := rfl
    rw [h1, splitNl_append_nl l (joinNl (l₁ :: ls)) (hL l (List.mem_cons_self _ _)),
      splitNl_joinNl (l₁ :: ls) (fun x hx => hL x (List.mem_cons_of_mem l hx)) (by simp)]

/-- Filtering for the strict version test after filtering it away yields
nothing. -/
theorem filter_strict_after_not (L : List (List Char)) :
    (L.filter (fun l => !strictVersionTest l)).filter
      (fun l => strictVersionTest l) = [] := by
  induction L with
  | nil => rfl
  | cons l L' ih =>
    cases h : strictVersionTest l <;> simp [List.filter_cons, h, ih]

/-- The nonempty-input shape of `normalizePineToV6`. -/
theorem normalize_shape (s : List Char)
    (hne : (trimL (replaceCrLf (stripCodeFences s))).isEmpty = false) :
    normalizePineToV6 s = cs "//@version=6\n" ++
      trimL (removeSourceLines (removeUrls (removeCopyrightLines (removeAuthorLines
        (trimStartL (removeVersionDirectives
          (trimL (replaceCrLf (stripCodeFences s))))))))) := by
  rw [normalizePineToV6]
  simp only [hne, Bool.false_eq_true, if_false]

/-- The dedup step on `"//@version=6\n" ++ b`: the first line stays
`//@version=6` and exactly one line passes the strict version test. -/
theorem dedup_version_count (b : List Char) :
    ((splitNl (dedupVersionLines (cs "//@version=6\n" ++ b))).filter
      (fun l => strictVersionTest l)).length = 1 ∧
    (splitNl (dedupVersionLines (cs "//@version=6\n" ++ b))).head? =
      some (cs "//@version=6") := by
  have hcat : ∀ (x : List Char),
      cs "//@version=6\n" ++ x = cs "//@version=6" ++ '\n' :: x := by
    intro x
    have h0 : cs "//@version=6\n" = cs "//@version=6" ++ ['\n'] := by decide
    rw [h0, List.append_assoc]
    rfl
  have hv6 : ('\n' : Char) ∉ cs "//@version=6" := by decide
  have hsp : splitNl (cs "//@version=6\n" ++ b) = cs "//@version=6" :: splitNl b := by
    rw [hcat b]
    exact splitNl_append_nl _ _ hv6
  have hstrict6 : strictVersionTest (cs "//@version=6") = true := by decide
  have hd : dedupVersionLines (cs "//@version=6\n" ++ b) =
      (if 1 < ((splitNl (cs "//@version=6\n" ++ b)).filter
          (fun l => strictVersionTest l)).length then
        cs "//@version=6\n" ++ joinNl ((splitNl (cs "//@version=6\n" ++ b)).filter
          (fun l => !strictVersionTest l))
      else cs "//@version=6\n" ++ b) := rfl
  by_cases hgt : 1 < ((splitNl (cs "//@version=6\n" ++ b)).filter
      (fun l => strictVersionTest l)).length
  · rw [hd, if_pos hgt]
    have hfilt : (splitNl (cs "//@version=6\n" ++ b)).filter
        (fun l => !strictVersionTest l) =
        (splitNl b).filter (fun l => !strictVersionTest l) := by
      rw [hsp]
      simp [List.filter_cons, hstrict6]
    rw [hfilt]
    cases hL : (splitNl b).filter (fun l => !strictVersionTest l) with
    | nil =>
      exact ⟨by decide, by decide⟩
    | cons l₀ ls =>
      have hnl : ∀ x ∈ l₀ :: ls, ('\n' : Char) ∉ x := by
        intro x hx
        have hx' : x ∈ (splitNl b).filter (fun l => !strictVersionTest l) := by
          rw [hL]
          exact hx
        exact splitNl_no_nl b x (List.mem_of_mem_filter hx')
      have hspj : splitNl (cs "//@version=6\n" ++ joinNl (l₀ :: ls)) =
          cs "//@version=6" :: (l₀ :: ls) := by
        rw [hcat, splitNl_append_nl _ _ hv6,
          splitNl_joinNl (l₀ :: ls) hnl (by simp)]
      have hzero : (l₀ :: ls).filter (fun l => strictVersionTest l) = [] := by
        rw [← hL]
        exact filter_strict_after_not (splitNl b)
      constructor
      · rw [hspj]
        simp [List.filter_cons, hstrict6, hzero]
      · rw [hspj]
        rfl
  · rw [hd, if_neg hgt]
    push_neg at hgt
    constructor
    · rw [hsp] at hgt ⊢
      simp only [List.filter_cons, hstrict6, if_true, List.length_cons] at hgt ⊢
      omega
    · rw [hsp]
      rfl

/-! #### The strict version test, decomposed

`strictVersionTest` looks only at an initial segment of the line: leading
whitespace, the literal `//@version`, whitespace, an optional `=`,
whitespace, and one digit.  The two lemmas below characterise it in both
directions, and `strict_after_c` draws the consequence used for the color
pass: the matched segment can never contain a `'c'`, so once a `'c'` has
been emitted on a non-strict line, no continuation can turn it strict. -/

theorem span2_eq (p : Char → Bool) (l : List Char) :
    (l.span p).2 = l.dropWhile p := by
  rw [List.span_eq_take_drop]

theorem span1_eq (p : Char → Bool) (l : List Char) :
    (l.span p).1 = l.takeWhile p := by
  rw [List.span_eq_take_drop]

theorem dropWhile_ws_append : ∀ (w : List Char), (∀ x ∈ w, isWsChar x) →
    ∀ (c : Char) (r : List Char), isWsChar c = false →
    List.dropWhile (fun c => isWsChar c) (w ++ c :: r) = c :: r
  | [], _, c, r, hc => by
    rw [List.nil_append, List.dropWhile_cons, if_neg (by simp [hc])]
  | a :: w', hw, c, r, hc => by
    rw [List.cons_append, List.dropWhile_cons,
      if_pos (hw a (List.mem_cons_self a w'))]
    exact dropWhile_ws_append w' (fun x hx => hw x (List.mem_cons_of_mem a hx)) c r hc

theorem dropWhile_span2 (p : Char → Bool) : ∀ (l : List Char),
    ((l.dropWhile p).span p).2 = l.dropWhile p
  | [] => rfl
  | c :: rest => by
    rw [List.dropWhile_cons]
    by_cases hc : p c = true
    · rw [if_pos hc]
      exact dropWhile_span2 p rest
    · rw [if_neg hc]
      rw [span2_eq, List.dropWhile_cons, if_neg hc]

theorem digit_word (c : Char) (h : isDigitChar c = true) : isWordChar c = true := by
  rw [isWordChar]
  rw [isDigitChar] at h
  rw [h]
  simp

theorem digit_not_ws (c : Char) (h : isDigitChar c = true) : isWsChar c = false :=
  word_not_ws c (digit_word c h)

/-- Forward characterization of a line passing the strict `//@version`
test: it splits into whitespace, the literal, whitespace, an optional `=`,
whitespace, a digit, and an arbitrary residue. -/
theorem strict_decomp (l : List Char) (h : strictVersionTest l = true) :
    ∃ w₁ w₂ e w₃ d r, (∀ x ∈ w₁, isWsChar x) ∧ (∀ x ∈ w₂, isWsChar x) ∧
      (∀ x ∈ w₃, isWsChar x) ∧ (e = [] ∨ e = ['=']) ∧ isDigitChar d = true ∧
      l = w₁ ++ (cs "//@version" ++ (w₂ ++ (e ++ (w₃ ++ d :: r)))) := by
  rw [strictVersionTest] at h
  obtain ⟨w₁, rest₁, hsp1⟩ : ∃ a b, l.span (fun c => isWsChar c) = (a, b) :=
    ⟨_, _, rfl⟩
  have hspl := List.span_eq_take_drop (fun c => isWsChar c) l
  rw [hsp1] at hspl
  have hw₁tw : w₁ = l.takeWhile (fun c => isWsChar c) := congrArg Prod.fst hspl
  have hr₁dw : rest₁ = l.dropWhile (fun c => isWsChar c) := congrArg Prod.snd hspl
  have h1 : (match dropLit (cs "//@version") rest₁ with
      | none => false
      | some r2 =>
        match ((if ((r2.span (fun c => isWsChar c)).2.head? = some '=') then
            ((r2.span (fun c => isWsChar c)).2).tail
          else (r2.span (fun c => isWsChar c)).2).span (fun c => isWsChar c)).2 with
        | c :: _ => isDigitChar c
        | [] => false) = true := by
    rw [hsp1] at h
    exact h
  cases hd0 : dropLit (cs "//@version") rest₁ with
  | none =>
    rw [hd0] at h1
    cases h1
  | some r2 =>
    rw [hd0] at h1
    have h2 : (match ((if ((r2.span (fun c => isWsChar c)).2.head? = some '=') then
          ((r2.span (fun c => isWsChar c)).2).tail
        else (r2.span (fun c => isWsChar c)).2).span (fun c => isWsChar c)).2 with
      | c :: _ => isDigitChar c
      | [] => false) = true := h1
    obtain ⟨w₂, rest₂, hsp2⟩ : ∃ a b, r2.span (fun c => isWsChar c) = (a, b) :=
      ⟨_, _, rfl⟩
    have hspr := List.span_eq_take_drop (fun c => isWsChar c) r2
    rw [hsp2] at hspr
    have hw₂tw : w₂ = r2.takeWhile (fun c => isWsChar c) := congrArg Prod.fst hspr
    have hr₂dw : rest₂ = r2.dropWhile (fun c => isWsChar c) := congrArg Prod.snd hspr
    have h3 : (match ((if (rest₂.head? = some '=') then rest₂.tail else rest₂).span
        (fun c => isWsChar c)).2 with
      | c :: _ => isDigitChar c
      | [] => false) = true := by
      rw [hsp2] at h2
      exact h2
    have hleq : l = w₁ ++ rest₁ := by
      rw [hw₁tw, hr₁dw]
      exact (List.takeWhile_append_dropWhile _ _).symm
    have hw₁ws : ∀ x ∈ w₁, isWsChar x := by
      intro x hx
      rw [hw₁tw] at hx
      exact List.mem_takeWhile_imp hx
    have hw₂ws : ∀ x ∈ w₂, isWsChar x := by
      intro x hx
      rw [hw₂tw] at hx
      exact List.mem_takeWhile_imp hx
    have hrest₁ : rest₁ = cs "//@version" ++ r2 := dropLit_some_eq hd0
    by_cases hcnd : rest₂.head? = some '='
    · rw [if_pos hcnd] at h3
      cases rest₂ with
      | nil => simp at hcnd
      | cons y t =>
        have hy : y = '=' := by simpa using hcnd
        subst hy
        have h4 : (match ((t.span (fun c => isWsChar c)).2 : List Char) with
          | c :: _ => isDigitChar c
          | [] => false) = true := h3
        obtain ⟨w₃, rest₃, hsp3⟩ : ∃ a b, t.span (fun c => isWsChar c) = (a, b) :=
          ⟨_, _, rfl⟩
        have hspt := List.span_eq_take_drop (fun c => isWsChar c) t
        rw [hsp3] at hspt
        have hw₃tw : w₃ = t.takeWhile (fun c => isWsChar c) := congrArg Prod.fst hspt
        have hr₃dw : rest₃ = t.dropWhile (fun c => isWsChar c) := congrArg Prod.snd hspt
        rw [hsp3] at h4
        cases rest₃ with
        | nil => simp at h4
        | cons d0 r0 =>
          have hdig : isDigitChar d0 = true := h4
          have hr2eq : r2 = w₂ ++ ('=' :: t) := by
            rw [hw₂tw, hr₂dw]
            exact (List.takeWhile_append_dropWhile _ _).symm
          have hteq : t = w₃ ++ (d0 :: r0) := by
            rw [hw₃tw, hr₃dw]
            exact (List.takeWhile_append_dropWhile _ _).symm
          refine ⟨w₁, w₂, ['='], w₃, d0, r0, hw₁ws, hw₂ws, ?_, Or.inr rfl, hdig, ?_⟩
          · intro x hx
            rw [hw₃tw] at hx
            exact List.mem_takeWhile_imp hx
          · rw [hleq, hrest₁, hr2eq, hteq]
            simp
    · rw [if_neg hcnd] at h3
      rw [hr₂dw, dropWhile_span2 (fun c => isWsChar c) r2, ← hr₂dw] at h3
      cases rest₂ with
      | nil => simp at h3
      | cons d0 r0 =>
        have hdig : isDigitChar d0 = true := h3
        have hr2eq : r2 = w₂ ++ (d0 :: r0) := by
          rw [hw₂tw, hr₂dw]
          exact (List.takeWhile_append_dropWhile _ _).symm
        refine ⟨w₁, w₂, [], [], d0, r0, hw₁ws, hw₂ws, ?_, Or.inl rfl, hdig, ?_⟩
        · intro x hx
          exact absurd hx (List.not_mem_nil x)
        · rw [hleq, hrest₁, hr2eq]
          simp

/-- Converse composition: any line of that shape passes the strict test. -/
theorem strict_compose (w₁ w₂ e w₃ : List Char) (d : Char) (r : List Char)
    (hw₁ : ∀ x ∈ w₁, isWsChar x) (hw₂ : ∀ x ∈ w₂, isWsChar x)
    (hw₃ : ∀ x ∈ w₃, isWsChar x) (he : e = [] ∨ e = ['='])
    (hd : isDigitChar d = true) :
    strictVersionTest (w₁ ++ (cs "//@version" ++ (w₂ ++ (e ++ (w₃ ++ d :: r))))) =
      true := by
  have hdw : isWsChar d = false := digit_not_ws d hd
  have hsp1 : ((w₁ ++ (cs "//@version" ++ (w₂ ++ (e ++ (w₃ ++ d :: r))))).span
      (fun c => isWsChar c)).2 = cs "//@version" ++ (w₂ ++ (e ++ (w₃ ++ d :: r))) := by
    rw [span2_eq, show cs "//@version" ++ (w₂ ++ (e ++ (w₃ ++ d :: r))) =
        '/' :: (cs "/@version" ++ (w₂ ++ (e ++ (w₃ ++ d :: r)))) from by
      rw [show cs "//@version" = '/' :: cs "/@version" from by decide, List.cons_append]]
    exact dropWhile_ws_append w₁ hw₁ '/' _ (by decide)
  rw [strictVersionTest, hsp1, dropLit_self]
  show (match ((if (((w₂ ++ (e ++ (w₃ ++ d :: r))).span (fun c => isWsChar c)).2.head?
        = some '=') then (((w₂ ++ (e ++ (w₃ ++ d :: r))).span (fun c => isWsChar c)).2).tail
      else ((w₂ ++ (e ++ (w₃ ++ d :: r))).span (fun c => isWsChar c)).2).span
        (fun c => isWsChar c)).2 with
    | c :: _ => isDigitChar c
    | [] => false) = true
  rcases he with rfl | rfl
  · have hsp2 : ((w₂ ++ ([] ++ (w₃ ++ d :: r))).span (fun c => isWsChar c)).2 =
        d :: r := by
      rw [span2_eq, show (w₂ ++ ([] ++ (w₃ ++ d :: r)) : List Char) =
          (w₂ ++ w₃) ++ d :: r from by simp]
      refine dropWhile_ws_append (w₂ ++ w₃) ?_ d r hdw
      intro x hx
      rcases List.mem_append.mp hx with hx | hx
      · exact hw₂ x hx
      · exact hw₃ x hx
    rw [hsp2]
    have hne : ¬ ((d :: r : List Char).head? = some '=') := by
      intro hh
      have hde : d = '=' := by simpa using hh
      rw [hde] at hd
      exact absurd hd (by decide)
    rw [if_neg hne, span2_eq, List.dropWhile_cons, if_neg (by simp [hdw])]
    exact hd
  · have hsp2 : ((w₂ ++ (['='] ++ (w₃ ++ d :: r))).span (fun c => isWsChar c)).2 =
        '=' :: (w₃ ++ d :: r) := by
      rw [span2_eq, show (w₂ ++ (['='] ++ (w₃ ++ d :: r)) : List Char) =
          w₂ ++ '=' :: (w₃ ++ d :: r) from by simp]
      exact dropWhile_ws_append w₂ hw₂ '=' _ (by decide)
    rw [hsp2,
      if_pos (show (('=' :: (w₃ ++ d :: r) : List Char)).head? = some '=' from rfl)]
    show (match (((w₃ ++ d :: r : List Char)).span (fun c => isWsChar c)).2 with
      | c :: _ => isDigitChar c
      | [] => false) = true
    rw [span2_eq, dropWhile_ws_append w₃ hw₃ d r hdw]
    exact hd

/-- The deciding segment of the strict test never contains a `'c'`: once a
line prefix `π` has been extended by a `'c'` into a line that passes the
test, the deciding segment lay entirely inside `π`, so EVERY continuation of
`π` passes the test. -/
theorem strict_after_c (π ρ : List Char)
    (h : strictVersionTest (π ++ 'c' :: ρ) = true) :
    ∀ ρ', strictVersionTest (π ++ ρ') = true := by
  intro ρ'
  rcases strict_decomp (π ++ 'c' :: ρ) h with
    ⟨w₁, w₂, e, w₃, d, r, hw₁, hw₂, hw₃, he, hd, heq⟩
  have heq2 : π ++ 'c' :: ρ =
      (w₁ ++ (cs "//@version" ++ (w₂ ++ (e ++ (w₃ ++ [d]))))) ++ r := by
    rw [heq]
    simp
  have hnc : ('c' : Char) ∉ w₁ ++ (cs "//@version" ++ (w₂ ++ (e ++ (w₃ ++ [d])))) := by
    intro hm
    rcases List.mem_append.mp hm with hm | hm
    · exact absurd (hw₁ _ hm) (by decide)
    rcases List.mem_append.mp hm with hm | hm
    · exact absurd hm (by decide)
    rcases List.mem_append.mp hm with hm | hm
    · exact absurd (hw₂ _ hm) (by decide)
    rcases List.mem_append.mp hm with hm | hm
    · rcases he with rfl | rfl
      · exact absurd hm (List.not_mem_nil _)
      · have h1 : ('c' : Char) = '=' := List.mem_singleton.mp hm
        exact absurd h1 (by decide)
    rcases List.mem_append.mp hm with hm | hm
    · exact absurd (hw₃ _ hm) (by decide)
    · have h1 : ('c' : Char) = d := List.mem_singleton.mp hm
      rw [← h1] at hd
      exact absurd hd (by decide)
  have hmain : ∀ (X : List Char),
      π = (w₁ ++ (cs "//@version" ++ (w₂ ++ (e ++ (w₃ ++ [d]))))) ++ X →
      strictVersionTest (π ++ ρ') = true := by
    intro X hX
    rw [hX]
    rw [show ((w₁ ++ (cs "//@version" ++ (w₂ ++ (e ++ (w₃ ++ [d]))))) ++ X) ++ ρ' =
        w₁ ++ (cs "//@version" ++ (w₂ ++ (e ++ (w₃ ++ d :: (X ++ ρ'))))) from by simp]
    exact strict_compose w₁ w₂ e w₃ d (X ++ ρ') hw₁ hw₂ hw₃ he hd
  rcases List.append_eq_append_iff.mp heq2 with ⟨a', ha1, ha2⟩ | ⟨c', hc1, hc2⟩
  · cases a' with
    | nil =>
      apply hmain []
      rw [List.append_nil]
      rw [List.append_nil] at ha1
      exact ha1.symm
    | cons x a'' =>
      exfalso
      have hx : ('c' : Char) = x := by
        simpa using congrArg (fun l => l.head?) ha2
      apply hnc
      rw [ha1]
      refine List.mem_append_right π ?_
      rw [hx]
      exact List.mem_cons_self x a''
  · exact hmain c' hc1

/-! #### Line structure through the color pass

`glue` rebuilds a string from its first line and the remaining lines;
`colorGo_lines` walks the color scanner over that structure and shows that
no line of the output — including lines merged by a match whose whitespace
run spans a newline — can pass the strict version test if none did before. -/

def glue : List (List Char) → List Char
  | [] => []
  | l :: ls => '\n' :: (l ++ glue ls)

theorem glue_cons (l : List Char) (ls : List (List Char)) :
    glue (l :: ls) = '\n' :: (l ++ glue ls) := rfl

theorem splitNl_glue : ∀ (u : List Char) (L : List (List Char)), '\n' ∉ u →
    (∀ l ∈ L, '\n' ∉ l) → splitNl (u ++ glue L) = u :: L
  | u, [], hu, _ => by
    rw [show glue [] = [] from rfl, List.append_nil, splitNl_of_no_nl u hu]
  | u, l :: ls, hu, hL => by
    rw [glue_cons, splitNl_append_nl u (l ++ glue ls) hu,
      splitNl_glue l ls (hL l (List.mem_cons_self l ls))
        (fun x hx => hL x (List.mem_cons_of_mem l hx))]

theorem splitNl_decomp : ∀ (s : List Char),
    ∃ u L, s = u ++ glue L ∧ splitNl s = u :: L
  | [] => ⟨[], [], rfl, rfl⟩
  | c :: rest => by
    rcases splitNl_decomp rest with ⟨u, L, hs, hsp⟩
    by_cases hc : c = '\n'
    · refine ⟨[], u :: L, ?_, ?_⟩
      · rw [hc, glue_cons, ← hs]
        rfl
      · rw [hc]
        simp [splitNl, hsp]
    · refine ⟨c :: u, L, ?_, ?_⟩
      · rw [List.cons_append, ← hs]
      · simp [splitNl, hsp, hc]

/-- A suffix of a glued line structure is itself a glued line structure made
of a newline-free fragment and a sublist of the lines. -/
theorem suffix_glue : ∀ (P u : List Char) (L : List (List Char)) (rem : List Char),
    '\n' ∉ u → (∀ l ∈ L, '\n' ∉ l) → P ++ rem = u ++ glue L →
    ∃ u₁ L₁, rem = u₁ ++ glue L₁ ∧ '\n' ∉ u₁ ∧ (∀ l ∈ L₁, l ∈ L)
  | [], u, L, rem, hu, _, h => ⟨u, L, by simpa using h, hu, fun l hl => hl⟩
  | p :: P', u, L, rem, hu, hL, h => by
    cases u with
    | cons c u' =>
      have htail : P' ++ rem = u' ++ glue L := by
        simpa using congrArg (fun x => x.tail) h
      exact suffix_glue P' u' L rem (fun hm => hu (List.mem_cons_of_mem c hm)) hL htail
    | nil =>
      cases L with
      | nil =>
        exfalso
        simp [glue] at h
      | cons l ls =>
        rw [List.nil_append, glue_cons] at h
        have htail : P' ++ rem = l ++ glue ls := by
          simpa using congrArg (fun x => x.tail) h
        rcases suffix_glue P' l ls rem (hL l (List.mem_cons_self l ls))
            (fun x hx => hL x (List.mem_cons_of_mem l hx)) htail
          with ⟨u₁, L₁, h1, h2, h3⟩
        exact ⟨u₁, L₁, h1, h2, fun x hx => List.mem_cons_of_mem l (h3 x hx)⟩

/-! #### The color scanner, step by step -/

theorem colorGo_nil : ∀ (fuel : ℕ) (prev : Option Char), colorGo fuel prev [] = []
  | 0, _ => rfl
  | _ + 1, _ => rfl

theorem colorGo_step_blocked (k : ℕ) (p c : Char) (rest : List Char)
    (h : allowedAt (some p) = false) :
    colorGo (k + 1) (some p) (c :: rest) = c :: colorGo k (some c) rest := by
  simp [colorGo, h]

theorem colorGo_step_nomatch (k : ℕ) (prev : Option Char) (c : Char)
    (rest : List Char) (h : matchColorAt (c :: rest) = none) :
    colorGo (k + 1) prev (c :: rest) = c :: colorGo k (some c) rest := by
  cases ha : allowedAt prev <;> simp [colorGo, ha, h]

theorem colorGo_step_match (k : ℕ) (prev : Option Char) (c : Char)
    (rest : List Char) (d : Char) (rem : List Char) (ha : allowedAt prev = true)
    (h : matchColorAt (c :: rest) = some (d, rem)) :
    colorGo (k + 1) prev (c :: rest) =
      cs "color.rgb(" ++ d :: colorGo k (some d) rem := by
  simp [colorGo, ha, h]

theorem colorGo_step_skip (k : ℕ) (prev : Option Char) (c : Char)
    (rest : List Char)
    (h : allowedAt prev = false ∨ matchColorAt (c :: rest) = none) :
    colorGo (k + 1) prev (c :: rest) = c :: colorGo k (some c) rest := by
  rcases h with h | h
  · cases prev with
    | none => rw [allowedAt] at h; cases h
    | some p => exact colorGo_step_blocked k p c rest h
  · exact colorGo_step_nomatch k prev c rest h

theorem matchColorAt_none_head (x : Char) (hx : ¬ x = 'c') (z : List Char) :
    matchColorAt (x :: z) = none := by
  rw [matchColorAt, show cs "color" = 'c' :: cs "olor" from by decide, dropLit,
    if_neg (fun h => hx h.symm)]

/-- Characterization of a successful color match: the input splits as the
literal `color`, whitespace, `'('`, whitespace, and the captured digit. -/
theorem matchColorAt_some_decomp {s : List Char} {d : Char} {rem : List Char}
    (h : matchColorAt s = some (d, rem)) :
    ∃ w₁ w₂, (∀ x ∈ w₁, isWsChar x) ∧ (∀ x ∈ w₂, isWsChar x) ∧
      isDigitChar d = true ∧
      s = cs "color" ++ (w₁ ++ ('(' :: (w₂ ++ d :: rem))) := by
  rw [matchColorAt] at h
  cases hd0 : dropLit (cs "color") s with
  | none =>
    rw [hd0] at h
    cases h
  | some r1 =>
    rw [hd0] at h
    have hs := dropLit_some_eq hd0
    have h2 : (match ((r1.span (fun c => isWsChar c)).2 : List Char) with
        | c :: r3 =>
          if c = '(' then
            match ((r3.span (fun c => isWsChar c)).2 : List Char) with
            | d :: r5 => if isDigitChar d then some (d, r5) else none
            | [] => none
          else none
        | [] => none) = some (d, rem) := h
    rcases hq : ((r1.span (fun c => isWsChar c)).2 : List Char) with _ | ⟨c, r3⟩
    · rw [hq] at h2
      cases h2
    · rw [hq] at h2
      have h3 : (if c = '(' then
          (match ((r3.span (fun c => isWsChar c)).2 : List Char) with
           | d :: r5 => if isDigitChar d then some (d, r5) else none
           | [] => none) else none) = some (d, rem) := h2
      by_cases hc : c = '('
      · rw [if_pos hc] at h3
        rcases hq2 : ((r3.span (fun c => isWsChar c)).2 : List Char) with _ | ⟨d', r5⟩
        · rw [hq2] at h3
          cases h3
        · rw [hq2] at h3
          have h4 : (if isDigitChar d' then some (d', r5) else none) =
              some (d, rem) := h3
          by_cases hdig : isDigitChar d' = true
          · rw [if_pos hdig] at h4
            have h5 : ((d', r5) : Char × List Char) = (d, rem) := Option.some.inj h4
            have hd' : d' = d := congrArg Prod.fst h5
            have hr5 : r5 = rem := congrArg Prod.snd h5
            obtain ⟨w₁, v₁, hsp1⟩ : ∃ a b, r1.span (fun c => isWsChar c) = (a, b) :=
              ⟨_, _, rfl⟩
            have hspl := List.span_eq_take_drop (fun c => isWsChar c) r1
            rw [hsp1] at hspl
            have hw₁tw : w₁ = r1.takeWhile (fun c => isWsChar c) :=
              congrArg Prod.fst hspl
            have hv₁dw : v₁ = r1.dropWhile (fun c => isWsChar c) :=
              congrArg Prod.snd hspl
            obtain ⟨w₂, v₂, hsp2⟩ : ∃ a b, r3.span (fun c => isWsChar c) = (a, b) :=
              ⟨_, _, rfl⟩
            have hspr := List.span_eq_take_drop (fun c => isWsChar c) r3
            rw [hsp2] at hspr
            have hw₂tw : w₂ = r3.takeWhile (fun c => isWsChar c) :=
              congrArg Prod.fst hspr
            have hv₂dw : v₂ = r3.dropWhile (fun c => isWsChar c) :=
              congrArg Prod.snd hspr
            have hu1 : v₁ = c :: r3 := by
              rw [hv₁dw, ← span2_eq, hq]
            have hu2 : v₂ = d' :: r5 := by
              rw [hv₂dw, ← span2_eq, hq2]
            have hr1 : r1 = w₁ ++ c :: r3 := by
              rw [hw₁tw, ← hu1, hv₁dw]
              exact (List.takeWhile_append_dropWhile _ _).symm
            have hr3 : r3 = w₂ ++ d' :: r5 := by
              rw [hw₂tw, ← hu2, hv₂dw]
              exact (List.takeWhile_append_dropWhile _ _).symm
            refine ⟨w₁, w₂, ?_, ?_, hd' ▸ hdig, ?_⟩
            · intro x hx
              rw [hw₁tw] at hx
              exact List.mem_takeWhile_imp hx
            · intro x hx
              rw [hw₂tw] at hx
              exact List.mem_takeWhile_imp hx
            · rw [hs, hr1, hc, hr3, hd', hr5]
          · rw [if_neg hdig] at h4
            cases h4
      · rw [if_neg hc] at h3
        cases h3

/-- Scanning a prefix at none of whose positions a color match can start
emits it verbatim. -/
theorem colorGo_run_none : ∀ (Q : List Char) (fuel : ℕ) (prev : Option Char)
    (rest : List Char),
    (∀ i, i < Q.length → matchColorAt (Q.drop i ++ rest) = none) →
    ∃ q, colorGo (Q.length + fuel) prev (Q ++ rest) = Q ++ colorGo fuel q rest
  | [], fuel, prev, _, _ => ⟨prev, by simp⟩
  | c :: Q', fuel, prev, rest, hQ => by
    have h0 : matchColorAt (c :: (Q' ++ rest)) = none := by
      have h1 := hQ 0 (by simp)
      simpa using h1
    rw [show ((c :: Q') : List Char).length + fuel = (Q'.length + fuel) + 1 from by
      simp only [List.length_cons]
      omega]
    have hstep : colorGo ((Q'.length + fuel) + 1) prev ((c :: Q') ++ rest) =
        c :: colorGo (Q'.length + fuel) (some c) (Q' ++ rest) :=
      colorGo_step_skip (Q'.length + fuel) prev c (Q' ++ rest) (Or.inr h0)
    rw [hstep]
    rcases colorGo_run_none Q' fuel (some c) rest (fun i hi => by
        have h2 := hQ (i + 1) (by simp only [List.length_cons]; omega)
        simpa using h2) with ⟨q, hq⟩
    exact ⟨q, by rw [hq]; rfl⟩

/-- The color pass leaves the canonical `//@version=6` first line (and its
newline) untouched: no color match can start at any of its positions. -/
theorem colorFixAll_keep_v6 (b : List Char) :
    ∃ q, colorFixAll (cs "//@version=6\n" ++ b) =
      cs "//@version=6\n" ++ colorGo b.length q b := by
  have hidx : ∀ i, i < (cs "//@version=6\n").length →
      matchColorAt ((cs "//@version=6\n").drop i ++ b) = none := by
    intro i hi
    rw [show (cs "//@version=6\n").length = 13 from by decide] at hi
    interval_cases i
    · rw [show (cs "//@version=6\n").drop 0 = '/' :: cs "/@version=6\n" from by decide]
      exact matchColorAt_none_head '/' (by decide) _
    · rw [show (cs "//@version=6\n").drop 1 = '/' :: cs "@version=6\n" from by decide]
      exact matchColorAt_none_head '/' (by decide) _
    · rw [show (cs "//@version=6\n").drop 2 = '@' :: cs "version=6\n" from by decide]
      exact matchColorAt_none_head '@' (by decide) _
    · rw [show (cs "//@version=6\n").drop 3 = 'v' :: cs "ersion=6\n" from by decide]
      exact matchColorAt_none_head 'v' (by decide) _
    · rw [show (cs "//@version=6\n").drop 4 = 'e' :: cs "rsion=6\n" from by decide]
      exact matchColorAt_none_head 'e' (by decide) _
    · rw [show (cs "//@version=6\n").drop 5 = 'r' :: cs "sion=6\n" from by decide]
      exact matchColorAt_none_head 'r' (by decide) _
    · rw [show (cs "//@version=6\n").drop 6 = 's' :: cs "ion=6\n" from by decide]
      exact matchColorAt_none_head 's' (by decide) _
    · rw [show (cs "//@version=6\n").drop 7 = 'i' :: cs "on=6\n" from by decide]
      exact matchColorAt_none_head 'i' (by decide) _
    · rw [show (cs "//@version=6\n").drop 8 = 'o' :: cs "n=6\n" from by decide]
      exact matchColorAt_none_head 'o' (by decide) _
    · rw [show (cs "//@version=6\n").drop 9 = 'n' :: cs "=6\n" from by decide]
      exact matchColorAt_none_head 'n' (by decide) _
    · rw [show (cs "//@version=6\n").drop 10 = '=' :: cs "6\n" from by decide]
      exact matchColorAt_none_head '=' (by decide) _
    · rw [show (cs "//@version=6\n").drop 11 = '6' :: cs "\n" from by decide]
      exact matchColorAt_none_head '6' (by decide) _
    · rw [show (cs "//@version=6\n").drop 12 = '\n' :: ([] : List Char) from by decide]
      exact matchColorAt_none_head '\n' (by decide) _
  rcases colorGo_run_none (cs "//@version=6\n") b.length none b hidx with ⟨q, hq⟩
  refine ⟨q, ?_⟩
  rw [colorFixAll, List.length_append]
  exact hq

/-- The master walk: the color scanner preserves the line structure in the
sense that every output line — the current fragment included — still fails
the strict version test, provided every input line did.  A match may merge
lines (its whitespace runs can span newlines), but the replacement starts
with `'c'`, and by `strict_after_c` a line that became strict through that
`'c'` would already have been strict before it. -/
theorem colorGo_lines : ∀ (fuel : ℕ) (π : List Char) (prev : Option Char)
    (u : List Char) (L : List (List Char)),
    '\n' ∉ u → (∀ l ∈ L, '\n' ∉ l) →
    (∀ l ∈ L, strictVersionTest l = false) →
    strictVersionTest (π ++ u) = false →
    (u ++ glue L).length ≤ fuel →
    ∃ u' L', colorGo fuel prev (u ++ glue L) = u' ++ glue L' ∧
      '\n' ∉ u' ∧ (∀ l ∈ L', '\n' ∉ l) ∧
      (∀ l ∈ L', strictVersionTest l = false) ∧
      strictVersionTest (π ++ u') = false
  | 0, π, prev, u, L, hu, hL, hLs, hπ, hfuel => by
    have h0 : (u ++ glue L).length = 0 := Nat.le_zero.mp hfuel
    have hnil : u ++ glue L = [] := List.length_eq_zero.mp h0
    rcases List.append_eq_nil.mp hnil with ⟨hu0, hg0⟩
    have hL0 : L = [] := by
      cases L with
      | nil => rfl
      | cons l ls => exact absurd hg0 (List.cons_ne_nil '\n' (l ++ glue ls))
    subst hu0
    subst hL0
    exact ⟨[], [], rfl, by simp, by simp, by simp, hπ⟩
  | fuel + 1, π, prev, u, L, hu, hL, hLs, hπ, hfuel => by
    cases u with
    | nil =>
      cases L with
      | nil =>
        exact ⟨[], [], colorGo_nil (fuel + 1) prev, by simp, by simp, by simp, hπ⟩
      | cons l ls =>
        have hstep : colorGo (fuel + 1) prev (([] : List Char) ++ glue (l :: ls)) =
            '\n' :: colorGo fuel (some '\n') (l ++ glue ls) := by
          show colorGo (fuel + 1) prev ('\n' :: (l ++ glue ls)) = _
          exact colorGo_step_skip fuel prev '\n' (l ++ glue ls)
            (Or.inr (matchColorAt_none_head '\n' (by decide) _))
        have hflen : (l ++ glue ls).length ≤ fuel := by
          have h1 := hfuel
          rw [List.nil_append, glue_cons, List.length_cons] at h1
          omega
        rcases colorGo_lines fuel [] (some '\n') l ls
            (hL l (List.mem_cons_self l ls))
            (fun x hx => hL x (List.mem_cons_of_mem l hx))
            (fun x hx => hLs x (List.mem_cons_of_mem l hx))
            (show strictVersionTest ([] ++ l) = false from
              hLs l (List.mem_cons_self l ls))
            hflen
          with ⟨u'', L'', heq, hu'', hL'', hLs'', hπ''⟩
        refine ⟨[], u'' :: L'', ?_, by simp, ?_, ?_, ?_⟩
        · rw [hstep, heq, List.nil_append, glue_cons]
        · intro x hx
          rcases List.mem_cons.mp hx with rfl | hx
          · exact hu''
          · exact hL'' x hx
        · intro x hx
          rcases List.mem_cons.mp hx with rfl | hx
          · simpa using hπ''
          · exact hLs'' x hx
        · exact hπ
    | cons c u₀ =>
      rcases hmatch : (if allowedAt prev then
          matchColorAt ((c :: u₀) ++ glue L) else none) with _ | ⟨d, rem⟩
      · have hsk : allowedAt prev = false ∨
            matchColorAt (c :: (u₀ ++ glue L)) = none := by
          by_cases hp : allowedAt prev = true
          · rw [if_pos hp] at hmatch
            rw [List.cons_append] at hmatch
            exact Or.inr hmatch
          · left
            cases hab : allowedAt prev with
            | false => rfl
            | true => exact absurd hab hp
        have hstep : colorGo (fuel + 1) prev ((c :: u₀) ++ glue L) =
            c :: colorGo fuel (some c) (u₀ ++ glue L) := by
          rw [List.cons_append]
          exact colorGo_step_skip fuel prev c (u₀ ++ glue L) hsk
        have hcnl : ¬ c = '\n' := fun hc => hu (hc ▸ List.mem_cons_self c u₀)
        have hufree : '\n' ∉ u₀ := fun hm => hu (List.mem_cons_of_mem c hm)
        have hflen : (u₀ ++ glue L).length ≤ fuel := by
          have h1 := hfuel
          rw [List.cons_append, List.length_cons] at h1
          omega
        have hπ' : strictVersionTest ((π ++ [c]) ++ u₀) = false := by
          rw [List.append_assoc]
          simpa using hπ
        rcases colorGo_lines fuel (π ++ [c]) (some c) u₀ L hufree hL hLs hπ' hflen
          with ⟨u'', L'', heq, hu'', hL'', hLs'', hπ''⟩
        refine ⟨c :: u'', L'', ?_, ?_, hL'', hLs'', ?_⟩
        · rw [hstep, heq, List.cons_append]
        · intro hm
          rcases List.mem_cons.mp hm with h1 | h1
          · exact hcnl h1.symm
          · exact hu'' h1
        · simpa using hπ''
      · have hp : allowedAt prev = true := by
          by_cases hp : allowedAt prev = true
          · exact hp
          · rw [if_neg hp] at hmatch
            cases hmatch
        rw [if_pos hp] at hmatch
        rcases matchColorAt_some_decomp hmatch with ⟨w₁, w₂, hw₁, hw₂, hdig, hdecomp⟩
        have hstep : colorGo (fuel + 1) prev ((c :: u₀) ++ glue L) =
            cs "color.rgb(" ++ d :: colorGo fuel (some d) rem := by
          rw [List.cons_append]
          refine colorGo_step_match fuel prev c (u₀ ++ glue L) d rem hp ?_
          rw [← List.cons_append]
          exact hmatch
        have hsplit : (cs "color" ++ (w₁ ++ ('(' :: (w₂ ++ [d])))) ++ rem =
            (c :: u₀) ++ glue L := by
          rw [hdecomp]
          simp
        rcases suffix_glue _ (c :: u₀) L rem hu hL hsplit with ⟨u₁, L₁, hrem, hu₁, hL₁⟩
        have hd_ne_nl : ¬ d = '\n' := by
          intro hdn
          rw [hdn] at hdig
          exact absurd hdig (by decide)
        have hπ' : strictVersionTest ((π ++ (cs "color.rgb(" ++ [d])) ++ u₁) =
            false := by
          by_contra hcon
          rw [Bool.not_eq_false] at hcon
          have hre : (π ++ (cs "color.rgb(" ++ [d])) ++ u₁ =
              π ++ ('c' :: (cs "olor.rgb(" ++ ([d] ++ u₁))) := by
            rw [show cs "color.rgb(" = 'c' :: cs "olor.rgb(" from by decide]
            simp
          rw [hre] at hcon
          have hall := strict_after_c π (cs "olor.rgb(" ++ ([d] ++ u₁)) hcon (c :: u₀)
          rw [hπ] at hall
          exact Bool.false_ne_true hall
        have hremlen : (u₁ ++ glue L₁).length ≤ fuel := by
          have h1 := congrArg List.length hdecomp
          have h2 := hfuel
          simp only [List.length_append, List.length_cons] at h1 h2
          rw [show (cs "color").length = 5 from by decide] at h1
          have h3 := congrArg List.length hrem
          simp only [List.length_append] at h3 ⊢
          omega
        rcases colorGo_lines fuel (π ++ (cs "color.rgb(" ++ [d])) (some d) u₁ L₁ hu₁
            (fun x hx => hL x (hL₁ x hx)) (fun x hx => hLs x (hL₁ x hx)) hπ' hremlen
          with ⟨u'', L'', heq, hu'', hL'', hLs'', hπ''⟩
        refine ⟨cs "color.rgb(" ++ d :: u'', L'', ?_, ?_, hL'', hLs'', ?_⟩
        · rw [hstep, hrem, heq]
          simp
        · intro hm
          rcases List.mem_append.mp hm with h1 | h1
          · exact absurd h1 (by decide)
          · rcases List.mem_cons.mp h1 with h2 | h2
            · exact hd_ne_nl h2.symm
            · exact hu'' h2
        · have hre2 : π ++ (cs "color.rgb(" ++ d :: u'') =
              (π ++ (cs "color.rgb(" ++ [d])) ++ u'' := by simp
          rw [hre2]
          exact hπ''

/-- The dedup step on `"//@version=6\n" ++ b` keeps that leading line. -/
theorem dedup_shape (b : List Char) :
    ∃ b₂, dedupVersionLines (cs "//@version=6\n" ++ b) =
      cs "//@version=6\n" ++ b₂ := by
  have hd : dedupVersionLines (cs "//@version=6\n" ++ b) =
      (if 1 < ((splitNl (cs "//@version=6\n" ++ b)).filter
          (fun l => strictVersionTest l)).length then
        cs "//@version=6\n" ++ joinNl ((splitNl (cs "//@version=6\n" ++ b)).filter
          (fun l => !strictVersionTest l))
      else cs "//@version=6\n" ++ b) := rfl
  by_cases hgt : 1 < ((splitNl (cs "//@version=6\n" ++ b)).filter
      (fun l => strictVersionTest l)).length
  · exact ⟨_, by rw [hd, if_pos hgt]⟩
  · exact ⟨b, by rw [hd, if_neg hgt]⟩

/-- C3 (amended): the original claim fails on empty input (the
counterexample) and the spaced `// @version` convention can survive in the
body (claim C4's counterexample); what holds is: for EVERY input whose
cleaned content is nonempty, the pipeline output has the canonical
`//@version=6` as its FIRST line and contains EXACTLY ONE line passing the
strict `//@version` test — the legacy-call and color passes provably
preserve both properties. -/
theorem C3_one_version_line (s : List Char)
    (hne : (trimL (replaceCrLf (stripCodeFences s))).isEmpty = false) :
    ((splitNl (cleanupPipeline s)).filter (fun l => strictVersionTest l)).length = 1 ∧
    (splitNl (cleanupPipeline s)).head? = some (cs "//@version=6") := by
  rcases fold_keep_v6 legacyFnMap (fun e he => ⟨legacyFnMap_words e he,
      (legacyFnMap_names e he).1, (legacyFnMap_names e he).2.1⟩)
      (trimL (removeSourceLines (removeUrls (removeCopyrightLines (removeAuthorLines
        (trimStartL (removeVersionDirectives
          (trimL (replaceCrLf (stripCodeFences s))))))))))
    with ⟨b₁, hb₁⟩
  have hlegacy : applyLegacyFixes (normalizePineToV6 s) =
      cs "//@version=6\n" ++ b₁ := by
    rw [normalize_shape s hne]
    exact hb₁
  rcases dedup_shape b₁ with ⟨b₂, hb₂⟩
  have hdedup : dedupVersionLines (applyLegacyFixes (normalizePineToV6 s)) =
      cs "//@version=6\n" ++ b₂ := by
    rw [hlegacy]
    exact hb₂
  have hcnt := dedup_version_count b₁
  rw [hb₂] at hcnt
  have hcat : cs "//@version=6\n" ++ b₂ = cs "//@version=6" ++ '\n' :: b₂ := by
    rw [show cs "//@version=6\n" = cs "//@version=6" ++ ['\n'] from by decide,
      List.append_assoc]
    rfl
  have hsp2 : splitNl (cs "//@version=6\n" ++ b₂) =
      cs "//@version=6" :: splitNl b₂ := by
    rw [hcat]
    exact splitNl_append_nl _ _ (by decide)
  have hstrict6 : strictVersionTest (cs "//@version=6") = true := by decide
  have hall : ∀ l ∈ splitNl b₂, strictVersionTest l = false := by
    have h1 := hcnt.1
    rw [hsp2] at h1
    simp only [List.filter_cons, hstrict6, if_true, List.length_cons] at h1
    have h2 : ((splitNl b₂).filter (fun l => strictVersionTest l)).length = 0 := by
      omega
    have h3 : (splitNl b₂).filter (fun l => strictVersionTest l) = [] :=
      List.length_eq_zero.mp h2
    intro l hl
    by_contra hc
    rw [Bool.not_eq_false] at hc
    have hmem : l ∈ (splitNl b₂).filter (fun l => strictVersionTest l) :=
      List.mem_filter.mpr ⟨hl, hc⟩
    rw [h3] at hmem
    exact absurd hmem (List.not_mem_nil l)
  rcases splitNl_decomp b₂ with ⟨u, L, hb₂eq, hb₂sp⟩
  subst hb₂eq
  have hunl : '\n' ∉ u :=
    splitNl_no_nl _ u (by rw [hb₂sp]; exact List.mem_cons_self u L)
  have hLnl : ∀ l ∈ L, '\n' ∉ l := fun l hl =>
    splitNl_no_nl _ l (by rw [hb₂sp]; exact List.mem_cons_of_mem u hl)
  have hus : strictVersionTest u = false :=
    hall u (by rw [hb₂sp]; exact List.mem_cons_self u L)
  have hLstr : ∀ l ∈ L, strictVersionTest l = false := fun l hl =>
    hall l (by rw [hb₂sp]; exact List.mem_cons_of_mem u hl)
  rcases colorFixAll_keep_v6 (u ++ glue L) with ⟨q, hb₃⟩
  rcases colorGo_lines (u ++ glue L).length [] q u L hunl hLnl hLstr
      (show strictVersionTest ([] ++ u) = false from hus) le_rfl
    with ⟨u', L', heq, hu', hL', hLs', hπ'⟩
  have hout : cleanupPipeline s = cs "//@version=6\n" ++ (u' ++ glue L') := by
    rw [cleanupPipeline, validateAndFix_decomp, hdedup, hb₃, heq]
  have hcat2 : cs "//@version=6\n" ++ (u' ++ glue L') =
      cs "//@version=6" ++ '\n' :: (u' ++ glue L') := by
    rw [show cs "//@version=6\n" = cs "//@version=6" ++ ['\n'] from by decide,
      List.append_assoc]
    rfl
  have hspfin : splitNl (cleanupPipeline s) =
      cs "//@version=6" :: (u' :: L') := by
    rw [hout, hcat2, splitNl_append_nl _ _ (by decide), splitNl_glue u' L' hu' hL']
  have hus' : strictVersionTest u' = false := by simpa using hπ'
  have hzero : (u' :: L').filter (fun l => strictVersionTest l) = [] := by
    rw [List.filter_eq_nil_iff]
    intro a ha
    rcases List.mem_cons.mp ha with rfl | ha
    · simp [hus']
    · simp [hLs' a ha]
  refine ⟨?_, ?_⟩
  · rw [hspfin]
    simp [List.filter_cons, hstrict6, hzero]
  · rw [hspfin]
    rfl

/-- C3 (witness): an input with three version-declaration lines (in both
spacing conventions) cleans to a single strict `//@version=6` top line. -/
theorem C3_one_version_line_witness :
    (trimL (replaceCrLf (stripCodeFences
      (cs "//@version=5\n// @version=4\n//@version=3\nplot x")))).isEmpty = false ∧
    ((splitNl (cleanupPipeline (cs "//@version=5\n// @version=4\n//@version=3\nplot x"))).filter
      (fun l => strictVersionTest l)).length = 1 ∧
    (splitNl (cleanupPipeline
      (cs "//@version=5\n// @version=4\n//@version=3\nplot x"))).head? =
      some (cs "//@version=6") :=
  ⟨by decide, C3_one_version_line
    (cs "//@version=5\n// @version=4\n//@version=3\nplot x") (by decide)⟩

end BigLot
